import Mathlib

/-!
# Verification development for the ChromiumOS exporter of libwebrtc

Shallow embedding of `tools_webrtc/chromiumos/exporter` (Go):

* `bazel/selectable_list.go` : `selectableList`, `mergeSelect`, `sliceToMap`
* `bazel/merge.go`           : `Merge`, `conditionField`, `mergeSlice`
* `bazel/bazel.go`           : `Workspace`, `Package`, `Target`
* `bazel/generate.go`        : `resolveSource`, `resolveOrphanSource`
* `main.go`                  : `resolve`, the worklist loop of `loadDesc`

Modelling conventions.

* A Go `string` is a byte string compared bytewise.  It is modelled as a list
  of characters (`Str`); the order `strLess` is the lexicographic order by
  code point, which agrees with the bytewise order of the UTF-8 encodings.
* A Go `map[K]V` is modelled as an association list with pairwise distinct
  keys (`GoMap`).  The order in which `range` visits a map is unspecified in
  Go; every `range` over a map goes through an arbitrary `MapOrder`, which
  may permute the entries in any way.
* A Go panic (index out of range, nil dereference, `log.Panicf`, `panic`) is
  the `none` result of the embedded function.
* Pointers to packages and targets stored in maps are modelled by functional
  update of the owning map.
-/

namespace Exporter

/-! ## Strings -/

/-- Go string, as a sequence of characters. -/
abbrev Str := List Char

/-! ## Go maps -/

/-- Go `map[K]V`: association list, keys pairwise distinct, in insertion order. -/
abbrev GoMap (K V : Type) := List (K × V)

namespace GoMap

variable {K V : Type} [DecidableEq K]

/-- Map lookup `m[k]` with the comma-ok idiom. -/
def get? : GoMap K V → K → Option V
  | [], _ => none
  | (k', v') :: m, k => if k' = k then some v' else get? m k

/-- Map lookup `m[k]`, with `d` the zero value of `V`. -/
def getD (m : GoMap K V) (k : K) (d : V) : V := (m.get? k).getD d

/-- Map assignment `m[k] = v`. -/
def set : GoMap K V → K → V → GoMap K V
  | [], k, v => [(k, v)]
  | (k', v') :: m, k, v => if k' = k then (k, v) :: m else (k', v') :: set m k v

/-- Builtin `delete(m, k)`. -/
def delete (m : GoMap K V) (k : K) : GoMap K V := m.filter (fun p => decide (p.1 ≠ k))

/-- The keys of the map, in storage order. -/
def keys (m : GoMap K V) : List K := m.map Prod.fst

end GoMap

/-- The order in which `range` visits the entries of a map: any permutation. -/
structure MapOrder where
  iter : {α : Type} → List α → List α
  perm : ∀ {α : Type} (l : List α), (iter l).Perm l

/-- The iteration order that visits entries in insertion order. -/
def MapOrder.insertion : MapOrder := ⟨fun l => l, fun l => List.Perm.refl l⟩

/-- The iteration order that visits entries in reverse insertion order. -/
def MapOrder.reversed : MapOrder := ⟨fun l => l.reverse, fun l => List.reverse_perm l⟩

/-! ## `bazel/selectable_list.go` -/

/-- Go type `selectableList[T]`: an unconditioned list and the lists under condition keys. -/
structure selectableList (T : Type) where
  list : List T
  selections : GoMap Str (List T)
deriving DecidableEq, Repr

/-- Go `newSelectableList`. -/
def newSelectableList {T : Type} : selectableList T := ⟨[], []⟩

/-- Go type `conditioned[T]`: a value tagged with a condition key. -/
structure conditioned (T : Type) where
  key : Str
  value : T
deriving DecidableEq, Repr

/-- Go `sliceToMap`: the set of the values of a slice, as a `map[T]bool`. -/
def sliceToMap {T : Type} [DecidableEq T] (slice : List T) : GoMap T Bool :=
  slice.foldl (fun result x => result.set x true) []

/-- One round of the first loop of `mergeSelect`: the keys of `intersection`
that `input` does not have are collected in `drop` and then deleted. -/
def mergeSelect.narrow {T : Type} [DecidableEq T] (ord : MapOrder)
    (intersection : GoMap T Bool) (input : conditioned (List T)) : GoMap T Bool :=
  let values := sliceToMap input.value
  let drop := ((ord.iter intersection).map Prod.fst).filter (fun k => !(values.getD k false))
  drop.foldl (fun m v => m.delete v) intersection

/-- The last loop of `mergeSelect`: the values of `input` outside the
intersection are stored under the key of `input` when there are any. -/
def mergeSelect.addSelection {T : Type} [DecidableEq T] (intersection : GoMap T Bool)
    (selections : GoMap Str (List T)) (input : conditioned (List T)) : GoMap Str (List T) :=
  let sel := input.value.filter (fun v => !(intersection.getD v false))
  if sel.length > 0 then selections.set input.key sel else selections

/-- Go `mergeSelect`.  `inputs[0]` panics on an empty slice. -/
def mergeSelect {T : Type} [DecidableEq T] (ord : MapOrder)
    (inputs : List (conditioned (List T))) : Option (selectableList T) :=
  match inputs with
  | [] => none
  | input0 :: rest =>
    let intersection := rest.foldl (mergeSelect.narrow ord) (sliceToMap input0.value)
    some
      { list := (ord.iter intersection).map Prod.fst
        selections := inputs.foldl (mergeSelect.addSelection intersection) [] }

/-! ## `bazel/bazel.go` -/

/-- Go type `labels.Label` of the Bazel build tools: repository, package, target name. -/
structure Label where
  Repository : Str
  Package : Str
  Target : Str
deriving DecidableEq, Repr

/-- The zero value `labels.Label{}`. -/
def Label.zero : Label := ⟨[], [], []⟩

/-- Go type `Target`: a build target under construction. -/
structure Target where
  label : Label
  Type_ : Str
  raw_sources : selectableList Str
  hdrs : selectableList Label
  srcs : selectableList Label
  Deps : selectableList Label
deriving DecidableEq, Repr

/-- Go type `Package`: the targets and exported files of one package directory. -/
structure Package where
  name : Str
  targets : GoMap Str Target
  exportFiles : GoMap Str Bool
deriving DecidableEq, Repr

/-- Go type `Workspace`: packages, the flat source list and the file overrides. -/
structure Workspace where
  packages : GoMap Str Package
  sources : List Str
  fileOverrides : GoMap Str Str
deriving DecidableEq, Repr

/-- Go `NewWorkspace`. -/
def NewWorkspace : Workspace := ⟨[], [], []⟩

/-- Go `(*Workspace).pkg`: the package called `name`, created when missing. -/
def Workspace.pkg (ws : Workspace) (name : Str) : Workspace × Package :=
  match ws.packages.get? name with
  | some p => (ws, p)
  | none =>
    let p : Package := { name := name, targets := [], exportFiles := [] }
    ({ ws with packages := ws.packages.set name p }, p)

/-- Go `(*Package).target`: the target called `name`, created when missing. -/
def Package.target (p : Package) (name : Str) : Package × Target :=
  match p.targets.get? name with
  | some t => (p, t)
  | none =>
    let t : Target :=
      { label := { Repository := [], Package := p.name, Target := name }
        Type_ := []
        raw_sources := newSelectableList
        hdrs := newSelectableList
        srcs := newSelectableList
        Deps := newSelectableList }
    ({ p with targets := p.targets.set name t }, t)

/-- Go `(*Workspace).Target`: the target addressed by `l`, created when missing;
panics when the repository of `l` is not empty. -/
def Workspace.Target (ws : Workspace) (l : Label) : Option (Workspace × Target) :=
  if l.Repository ≠ [] then none
  else
    let (ws1, p) := ws.pkg l.Package
    let (p1, t) := p.target l.Target
    some ({ ws1 with packages := ws1.packages.set l.Package p1 }, t)

/-- Write through the pointer returned by `ws.Target(l)`: the target stored
under package `l.Package` and name `l.Target` becomes `t`. -/
def Workspace.store (ws : Workspace) (l : Label) (t : Exporter.Target) : Workspace :=
  match ws.packages.get? l.Package with
  | some p => { ws with packages := ws.packages.set l.Package { p with targets := p.targets.set l.Target t } }
  | none => ws

/-- Read `ws.packages[l.Package].targets[l.Target]` without creating anything. -/
def Workspace.lookup (ws : Workspace) (l : Label) : Option Exporter.Target :=
  match ws.packages.get? l.Package with
  | some p => p.targets.get? l.Target
  | none => none

/-- All targets of a workspace in map iteration order, as `range ws.packages`
with a nested `range pkg.targets` visits them. -/
def Workspace.rangeTargets (ord : MapOrder) (ws : Workspace) : List Exporter.Target :=
  ((ord.iter ws.packages).map (fun pkg => (ord.iter pkg.2.targets).map Prod.snd)).flatten

/-! ## `bazel/merge.go` -/

/-- Go `mergeSlice(to, from)`: append to `to_` the values of `from_` it does not hold yet. -/
def mergeSlice {T : Type} [DecidableEq T] (to_ from_ : List T) : List T :=
  let known : GoMap T Bool := to_.foldl (fun known v => known.set v true) []
  (from_.foldl
    (fun (acc : List T × GoMap T Bool) v =>
      if !(acc.2.getD v false) then (acc.1 ++ [v], acc.2.set v true) else acc)
    (to_, known)).1

/-- Go `conditionField`: merge one field of the variants of a target. -/
def conditionField {T : Type} [DecidableEq T] (ord : MapOrder) (cts : List (conditioned Target))
    (fieldFunc : Target → selectableList T) : Option (selectableList T) :=
  mergeSelect ord (cts.map (fun ct => ⟨ct.key, (fieldFunc ct.value).list⟩))

/-- The inner loops of the first loop of `Merge`: every target of the variant
`cws` is appended to the entry of its label in `targetMerges`. -/
def Merge.collect (ord : MapOrder) (targetMerges : GoMap Label (List (conditioned Target)))
    (cws : conditioned Workspace) : GoMap Label (List (conditioned Target)) :=
  (cws.value.rangeTargets ord).foldl
    (fun tm target => tm.set target.label (tm.getD target.label [] ++ [⟨cws.key, target⟩]))
    targetMerges

/-- The body of the first loop of `Merge`. -/
def Merge.absorb (ord : MapOrder)
    (acc : Workspace × GoMap Label (List (conditioned Target))) (cws : conditioned Workspace) :
    Workspace × GoMap Label (List (conditioned Target)) :=
  ({ acc.1 with sources := mergeSlice acc.1.sources cws.value.sources },
   Merge.collect ord acc.2 cws)

/-- The body of the second loop of `Merge`: build the merged target of one label. -/
def Merge.emit (ord : MapOrder) (out : Workspace)
    (entry : Label × List (conditioned Target)) : Option Workspace :=
  match out.Target entry.1 with
  | none => none
  | some (out1, outTarget) =>
    match entry.2 with
    | [] => none
    | first :: _ =>
      match conditionField ord entry.2 (fun t => t.raw_sources),
            conditionField ord entry.2 (fun t => t.Deps) with
      | some raw, some deps =>
        some (out1.store entry.1
          { outTarget with Type_ := first.value.Type_, raw_sources := raw, Deps := deps })
      | _, _ => none

/-- The list `wss` of `Merge`: the entries of the input map in iteration order. -/
def Merge.wss (ord : MapOrder) (workspaces : GoMap Str Workspace) : List (conditioned Workspace) :=
  (ord.iter workspaces).map (fun kv => ⟨kv.1, kv.2⟩)

/-- Go `Merge`: merge the workspaces of the variants. -/
def Merge (ord : MapOrder) (workspaces : GoMap Str Workspace) : Option Workspace :=
  let acc := (Merge.wss ord workspaces).foldl (Merge.absorb ord) (NewWorkspace, [])
  (ord.iter acc.2).foldlM (Merge.emit ord) acc.1

/-! ## Go standard library: `strings`, `path`, `sort` -/

/-- Go string comparison `a < b`: lexicographic, a proper prefix is smaller. -/
def strLess : Str → Str → Bool
  | [], [] => false
  | [], _ :: _ => true
  | _ :: _, [] => false
  | a :: as, b :: bs => if a < b then true else if b < a then false else strLess as bs

/-- Go `strings.HasPrefix(s, pre)`. -/
def strings.HasPrefix (s pre : Str) : Bool := pre.isPrefixOf s

/-- Go `strings.HasSuffix(s, suf)`. -/
def strings.HasSuffix (s suf : Str) : Bool := suf.reverse.isPrefixOf s.reverse

/-- Go `strings.CutPrefix(s, pre)`: `s` without the leading `pre` and whether it was found. -/
def strings.CutPrefix (s pre : Str) : Str × Bool :=
  if strings.HasPrefix s pre then (s.drop pre.length, true) else (s, false)

/-- Go `strings.TrimLeft(s, cutset)`: drop all leading characters that are in `cutset`. -/
def strings.TrimLeft (s cutset : Str) : Str := s.dropWhile (fun c => decide (c ∈ cutset))

/-- Go `strings.TrimRight(s, cutset)`: drop all trailing characters that are in `cutset`. -/
def strings.TrimRight (s cutset : Str) : Str :=
  (s.reverse.dropWhile (fun c => decide (c ∈ cutset))).reverse

/-- Go `strings.Trim(s, cutset)`: drop leading and trailing characters that are in `cutset`. -/
def strings.Trim (s cutset : Str) : Str := strings.TrimRight (strings.TrimLeft s cutset) cutset

/-- Index of the last `/` of a path, `-1` when there is none. -/
def path.lastSlash : Str → Int
  | [] => -1
  | c :: cs =>
    let r := path.lastSlash cs
    if 0 ≤ r then r + 1 else if c = '/' then 0 else -1

/-- Go `path.Split`: split right after the last slash. -/
def path.Split (p : Str) : Str × Str :=
  let i := path.lastSlash p
  (p.take (i + 1).toNat, p.drop (i + 1).toNat)

/-- The loop of `sort.Search`: binary search on `[i, j)`; `fuel` bounds the
number of rounds and `j - i` rounds are always enough. -/
def sort.Search.loop (f : Nat → Bool) : Nat → Nat → Nat → Nat
  | 0, i, _ => i
  | fuel + 1, i, j =>
    if i < j then
      let h := (i + j) / 2
      if !(f h) then sort.Search.loop f fuel (h + 1) j else sort.Search.loop f fuel i h
    else i

/-- Go `sort.Search(n, f)`. -/
def sort.Search (n : Nat) (f : Nat → Bool) : Nat := sort.Search.loop f n 0 n

/-- Go `sort.SearchStrings(a, x)`: binary search with the test `a[i] >= x`. -/
def sort.SearchStrings (a : List Str) (x : Str) : Nat :=
  sort.Search a.length (fun i => !(strLess (a.getD i []) x))

/-! ## `bazel/generate.go` -/

/-- Go `resolveOrphanSource`: the label of a source that belongs to no package. -/
def resolveOrphanSource (source : Str) : Label :=
  let (dir, name) := path.Split source
  let dir := strings.TrimRight dir ['/']
  { Repository := [], Package := dir, Target := name }

/-- Go `resolveSource`: the package a source belongs to, by binary search in the
sorted list of package directories. -/
def resolveSource (packageDirs : List Str) (source : Str) : Label :=
  let i := sort.SearchStrings packageDirs source
  if i = 0 then resolveOrphanSource source
  else
    let pkg := packageDirs.getD (i - 1) []
    match strings.CutPrefix source pkg with
    | (_, false) => resolveOrphanSource source
    | (path, true) => { Repository := [], Package := strings.TrimRight pkg ['/'], Target := path }

/-! ## `gn/desc.go` and `main.go` -/

/-- Go type `gn.Target`: one decoded entry of the GN description. -/
structure gn.Target where
  Deps : List Label
  Testonly : Bool
  Type_ : Str
  Sources : List Str
  Public : List Str
deriving DecidableEq, Repr

/-- Go `(*selectableList).append`. -/
def selectableList.append {T : Type} (sl : selectableList T) (values : List T) : selectableList T :=
  { sl with list := sl.list ++ values }

/-- Go `(*Target).AppendDep`. -/
def Target.AppendDep (t : Target) (l : Label) : Target := { t with Deps := t.Deps.append [l] }

/-- Go `(*Workspace).AddSource`: record a source of `target`; the updated
workspace and the updated target are returned. -/
def Workspace.AddSource (ws : Workspace) (target : Exporter.Target) (sourcePath : Str) :
    Workspace × Exporter.Target :=
  let sourcePath := strings.Trim sourcePath ['/']
  ({ ws with sources := ws.sources ++ [sourcePath] },
   { target with raw_sources := target.raw_sources.append [sourcePath] })

/-- Go `resolve`: the redirect and exclude policy for one dependency.  The
method `labels.Label.Format` of the Bazel build tools is the parameter
`format`.  The result is `none` when `resolve` panics. -/
def resolve (format : Label → Str) (l : Label) : Option (Label × Bool) :=
  match strings.CutPrefix l.Package "third_party/abseil-cpp/".data with
  | (after, true) =>
    some ({ l with Repository := "com_google_absl".data, Package := after }, false)
  | (_, false) =>
    if l.Package = "third_party/protobuf".data then some (Label.zero, false)
    else if l.Package = "third_party/libevent".data
        ∨ l.Package = "base/third_party/libevent".data then
      some (⟨"pkg_config".data, "libevent".data, "libevent".data⟩, false)
    else if strings.HasPrefix l.Package "third_party".data then
      if l.Package = "third_party/rnnoise".data ∨ l.Package = "third_party/pffft".data then
        some (l, true)
      else none
    else if format l = "//experiments:registered_field_trials".data
        ∨ format l = "//modules/audio_processing:audioproc_debug_proto".data then
      some (l, false)
    else if format l = "//:poison_default_task_queue".data then some (Label.zero, false)
    else if format l = "//build/config:executable_deps".data then some (Label.zero, false)
    else some (l, true)

/-- The variables the dependency loop of `loadDesc` changes. -/
structure loadDesc.DepState where
  target : Target
  queue : List Label
  queued : GoMap Label Bool
deriving DecidableEq, Repr

/-- The body of the dependency loop of `loadDesc`. -/
def loadDesc.handleDep (format : Label → Str) (s : loadDesc.DepState) (dep : Label) :
    Option loadDesc.DepState :=
  match resolve format dep with
  | none => none
  | some (dep, handleDep) =>
    if dep = Label.zero then some s
    else
      let s1 := { s with target := s.target.AppendDep dep }
      if handleDep then
        if s1.queued.getD dep false then some s1
        else
          let s2 := { s1 with queued := s1.queued.set dep true }
          if dep.Repository = [] then some { s2 with queue := s2.queue ++ [dep] } else some s2
      else some s1

/-- The variables of the worklist loop of `loadDesc`.  `visited` is a history
variable that the Go code does not have: the labels popped so far, in order. -/
structure loadDesc.State where
  queue : List Label
  queued : GoMap Label Bool
  numBazelTargets : Nat
  ws : Workspace
  visited : List Label
deriving DecidableEq, Repr

/-- The `switch gnTarget.Type` of `loadDesc`; `none` is the `log.Panicf` branch. -/
def loadDesc.targetType (gnType : Str) : Option Str :=
  if gnType = "source_set".data ∨ gnType = "static_library".data then some "cc_library".data
  else if gnType = "executable".data then some "cc_binary".data
  else none

/-- One round of the worklist loop of `loadDesc`, entered with a non-empty queue. -/
def loadDesc.step (format : Label → Str) (gnTargets : GoMap Label gn.Target)
    (s : loadDesc.State) : Option loadDesc.State :=
  match s.queue.getLast? with
  | none => none
  | some label =>
    match gnTargets.get? label, s.ws.Target label with
    | some gnTarget, some (ws1, target) =>
      match gnTarget.Deps.foldlM (loadDesc.handleDep format) ⟨target, s.queue.dropLast, s.queued⟩ with
      | none => none
      | some d =>
        match loadDesc.targetType gnTarget.Type_ with
        | none => none
        | some ty =>
          let r1 := gnTarget.Sources.foldl (fun acc source => acc.1.AddSource acc.2 source)
            (ws1, { d.target with Type_ := ty })
          let r2 := gnTarget.Public.foldl (fun acc source => acc.1.AddSource acc.2 source) r1
          some
            { queue := d.queue
              queued := d.queued
              numBazelTargets := s.numBazelTargets + 1
              ws := r2.1.store label r2.2
              visited := s.visited ++ [label] }
    | _, _ => none

/-- How a run of the worklist loop ends. -/
inductive Outcome (α : Type) where
  | done : α → Outcome α
  | panicked : Outcome α
  | fuelOut : Outcome α
deriving DecidableEq, Repr

/-- The worklist loop `for len(queue) > 0` of `loadDesc`, at most `fuel` rounds. -/
def loadDesc.loop (format : Label → Str) (gnTargets : GoMap Label gn.Target) :
    Nat → loadDesc.State → Outcome loadDesc.State
  | fuel, s =>
    if s.queue = [] then Outcome.done s
    else
      match fuel with
      | 0 => Outcome.fuelOut
      | fuel + 1 =>
        match loadDesc.step format gnTargets s with
        | none => Outcome.panicked
        | some s1 => loadDesc.loop format gnTargets fuel s1

/-- The state in which `loadDesc` enters its worklist loop: the roots are
queued and marked. -/
def loadDesc.init (roots : List Label) : loadDesc.State :=
  { queue := roots
    queued := roots.foldl (fun queued l => queued.set l true) []
    numBazelTargets := 0
    ws := NewWorkspace
    visited := [] }

/-- Go `loadDesc` after decoding: `gnTargets` is the decoded description and
`roots` are the parsed root labels. -/
def loadDesc (format : Label → Str) (gnTargets : GoMap Label gn.Target) (roots : List Label)
    (fuel : Nat) : Outcome loadDesc.State :=
  loadDesc.loop format gnTargets fuel (loadDesc.init roots)

/-- A rendering of labels after `labels.Label.Format` of the Bazel build
tools, `@repo//pkg:target`: the repository is left out when empty and the
target when it is the last segment of the package.  It instantiates the
parameter `format` of `resolve` in the examples; the theorems hold for every
`format`. -/
def Label.Format (l : Label) : Str :=
  let repo := if l.Repository = [] then [] else '@' :: l.Repository
  if l.Package ≠ [] ∧ (path.Split l.Package).2 = l.Target then repo ++ "//".data ++ l.Package
  else repo ++ "//".data ++ l.Package ++ ':' :: l.Target

/-! ## `bazel/selectable_list.go`, the remaining operations -/

/-- Go `(*selectableList).appendCondition`: an empty condition appends
unconditionally. -/
def selectableList.appendCondition {T : Type} (sl : selectableList T) (condition : Str)
    (value : T) : selectableList T :=
  if condition = [] then sl.append [value]
  else { sl with selections := sl.selections.set condition (sl.selections.getD condition [] ++ [value]) }

/-- Go `(*selectableList).items`: the unconditioned values with the empty key,
then the values of every condition key, the keys in map iteration order. -/
def selectableList.items {T : Type} (ord : MapOrder) (sl : selectableList T) :
    List (conditioned T) :=
  sl.list.map (fun x => ⟨[], x⟩) ++
    ((ord.iter sl.selections).map (fun cv => cv.2.map (fun x => ⟨cv.1, x⟩))).flatten

/-- Go `(*selectableList).empty`. -/
def selectableList.empty {T : Type} (sl : selectableList T) : Bool :=
  sl.list.length == 0 && sl.selections.length == 0

/-- Go `strings.Join(elems, sep)`. -/
def strings.Join (elems : List Str) (sep : Str) : Str := sep.intercalate elems

/-- Insertion of `x` into a list sorted by `less`, before the first element
that `x` is below. -/
def sort.insert {α : Type} (less : α → α → Bool) (x : α) : List α → List α
  | [] => [x]
  | y :: ys => if less x y then x :: y :: ys else y :: sort.insert less x ys

/-- Go `sort.Slice(x, less)`, as insertion sort.  The Go function does not
promise a stable order; on elements that `less` orders totally, as the
distinct keys of a map are, every sorting function returns the same list. -/
def sort.Slice {α : Type} (less : α → α → Bool) (l : List α) : List α :=
  l.foldr (sort.insert less) []

/-- Go `sort.Strings(x)`. -/
def sort.Strings (l : List Str) : List Str := sort.Slice strLess l

/-- The `fmt.Sprintf` of `render` for one condition key: a `select` expression
with the formatted values of the key and the formatted empty list as default.
The function `repr.String` (`syntax.Quote` of the Starlark library) is the
parameter `quote`. -/
def selectableList.renderSelect {T : Type} (quote : Str → Str) (formatter : List T → Str)
    (sel : conditioned (List T)) : Str :=
  "select(\x7b".data ++ quote sel.key ++ ": ".data ++ formatter sel.value
    ++ ", \"//conditions:default\": ".data ++ formatter [] ++ "\x7d)".data

/-- Go `(*selectableList).render`. -/
def selectableList.render {T : Type} (ord : MapOrder) (quote : Str → Str)
    (formatter : List T → Str) (sl : selectableList T) : Str :=
  let parts0 : List Str := if sl.list.length > 0 then [formatter sl.list] else []
  let selections : List (conditioned (List T)) :=
    (ord.iter sl.selections).map (fun cv => ⟨cv.1, cv.2⟩)
  let sorted := sort.Slice (fun a b => strLess a.key b.key) selections
  strings.Join (parts0 ++ sorted.map (selectableList.renderSelect quote formatter)) " + ".data

/-- A mutating call on a `selectableList`. -/
inductive selectableList.Op (T : Type) where
  | append : List T → selectableList.Op T
  | appendCondition : Str → T → selectableList.Op T
deriving DecidableEq, Repr

/-- The effect of one mutating call. -/
def selectableList.apply {T : Type} (sl : selectableList T) :
    selectableList.Op T → selectableList T
  | selectableList.Op.append values => sl.append values
  | selectableList.Op.appendCondition condition value => sl.appendCondition condition value

/-- The set reached from `newSelectableList` by a sequence of mutating calls. -/
def selectableList.run {T : Type} (ops : List (selectableList.Op T)) : selectableList T :=
  ops.foldl selectableList.apply newSelectableList

/-! ## `resolveSources` of `bazel/generate.go` -/

/-- The write `exportingPkg.exportFiles[label.Target] = true` of
`resolveSources`, on the package that `ws.pkg(label.Package)` returns. -/
def resolveSources.export (ws : Workspace) (label : Label) : Workspace :=
  let (ws1, exportingPkg) := ws.pkg label.Package
  { ws1 with
    packages := ws1.packages.set label.Package
      { exportingPkg with exportFiles := exportingPkg.exportFiles.set label.Target true } }

/-- Write through the pointer of the target stored under the package key
`pkgKey` and the target key `tKey`: the stored target `t` becomes `f t`. -/
def Workspace.update (ws : Workspace) (pkgKey tKey : Str)
    (f : Exporter.Target → Exporter.Target) : Workspace :=
  match ws.packages.get? pkgKey with
  | some p =>
    match p.targets.get? tKey with
    | some t =>
      { ws with
        packages := ws.packages.set pkgKey { p with targets := p.targets.set tKey (f t) } }
    | none => ws
  | none => ws

/-- The `if strings.HasSuffix(source.value, ".h")` of `resolveSources`: the
label goes to the headers of the target or to its sources, under the
condition key of the raw source. -/
def resolveSources.classify (source : conditioned Str) (label : Label) (t : Target) : Target :=
  if strings.HasSuffix source.value ".h".data then
    { t with hdrs := t.hdrs.appendCondition source.key label }
  else
    { t with srcs := t.srcs.appendCondition source.key label }

/-- The body of the innermost loop of `resolveSources`, for one raw source of
the target stored under `tKey` in the package stored under `pkgKey`, whose
name is `pkgName`. -/
def resolveSources.body (packages : List Str) (pkgKey pkgName tKey : Str) (ws : Workspace)
    (source : conditioned Str) : Workspace :=
  let label := resolveSource packages source.value
  let ws1 := if label.Package ≠ pkgName then resolveSources.export ws label else ws
  ws1.update pkgKey tKey (resolveSources.classify source label)

/-- The list `packages` of `resolveSources`: every package key with a `/`
appended, sorted. -/
def resolveSources.packageDirs (ord : MapOrder) (ws : Workspace) : List Str :=
  sort.Strings ((ord.iter ws.packages).map (fun e => e.1 ++ "/".data))

/-- Go `(*Workspace).resolveSources`.  The three loops run over the packages,
targets and raw sources that the workspace holds on entry: the loop body
changes neither the targets of a package nor the raw sources of a target, and
a package that `ws.pkg` creates on the way has no target. -/
def resolveSources (ord : MapOrder) (ws : Workspace) : Workspace :=
  let packages := resolveSources.packageDirs ord ws
  (ord.iter ws.packages).foldl
    (fun ws1 e =>
      (ord.iter e.2.targets).foldl
        (fun ws2 f =>
          (f.2.raw_sources.items ord).foldl
            (resolveSources.body packages e.1 e.2.name f.1) ws2)
        ws1)
    ws

/-! ## `main` and `addWorkarounds` of `main.go` -/

/-- Go `(*Workspace).AddSourceOverride`. -/
def Workspace.AddSourceOverride (ws : Workspace) (target : Exporter.Target) (path : Str)
    (contents : Str) : Workspace × Exporter.Target :=
  let path := strings.Trim path ['/']
  let r := ws.AddSource target path
  ({ r.1 with fileOverrides := r.1.fileOverrides.set path contents }, r.2)

/-- Go `(*Workspace).AddBulidGN`: the `BUILD.gn` of every package is added to
the sources.  The function `path.Join` of the Go standard library is the
parameter `pathJoin`. -/
def Workspace.AddBulidGN (ord : MapOrder) (pathJoin : List Str → Str) (ws : Workspace) :
    Workspace :=
  (ord.iter ws.packages).foldl
    (fun w pkg => { w with sources := w.sources ++ [pathJoin [pkg.1, "BUILD.gn".data]] }) ws

/-- The header that `addWorkarounds` writes for the registered field trials. -/
def addWorkarounds.header : Str :=
  "// This file was automatically generated. Do not edit.\n\n".data ++
  "#ifndef GEN_REGISTERED_FIELD_TRIALS_H_\n".data ++
  "#define GEN_REGISTERED_FIELD_TRIALS_H_\n\n".data ++
  "#include \"absl/strings/string_view.h\"\n\n".data ++
  "namespace webrtc \x7b\n\n".data ++
  "inline constexpr absl::string_view kRegisteredFieldTrials[] = \x7b\n".data ++
  "    \"\",\n".data ++
  "\x7d;\n\n".data ++
  "\x7d  // namespace webrtc\n\n".data ++
  "#endif  // GEN_REGISTERED_FIELD_TRIALS_H_\n".data

/-- Go `addWorkarounds`.  The function `labels.Parse` of the Bazel build
tools is the parameter `parse`.  The result is `none` when `ws.Target`
panics. -/
def addWorkarounds (parse : Str → Label) (ws : Workspace) : Option Workspace :=
  match ws.Target (parse "//experiments:registered_field_trials".data) with
  | none => none
  | some (ws1, t) =>
    let r := ws1.AddSourceOverride { t with Type_ := "cc_library".data }
      "experiments/registered_field_trials.h".data addWorkarounds.header
    let ws2 := r.1.store (parse "//experiments:registered_field_trials".data) r.2
    match ws2.Target (parse "//modules/audio_processing:debug_proto".data) with
    | none => none
    | some (ws3, debugProto) =>
      let r := ws3.AddSource { debugProto with Type_ := "proto_library".data }
        "modules/audio_processing/debug.proto".data
      let debugProto := r.2
      let ws4 := r.1.store (parse "//modules/audio_processing:debug_proto".data) debugProto
      match ws4.Target (parse "//modules/audio_processing:audioproc_debug_proto".data) with
      | none => none
      | some (ws5, debugCCProto) =>
        some (ws5.store (parse "//modules/audio_processing:audioproc_debug_proto".data)
          (Target.AppendDep { debugCCProto with Type_ := "cc_proto_library".data }
            debugProto.label))

/-- The root libraries of `main`. -/
def main.rootLibs : List Str :=
  ["//modules/audio_processing".data, "//api/audio:aec3_factory".data,
   "//api/task_queue:default_task_queue_factory".data, "//rtc_tools:unpack_aecdump".data]

/-- Go `main` up to the call of `ws.Generate`: the workspace that is handed
to `Generate`.  The decoded descriptions of the two variants are `descX86`
and `descArm`; the result is `none` when a step panics or a closure runs out
of fuel. -/
def main.workspace (ord : MapOrder) (format : Label → Str) (parse : Str → Label)
    (pathJoin : List Str → Str) (descX86 descArm : GoMap Label gn.Target) (fuel : Nat) :
    Option Workspace :=
  match loadDesc format descX86 (main.rootLibs.map parse) fuel,
        loadDesc format descArm (main.rootLibs.map parse) fuel with
  | Outcome.done sX86, Outcome.done sArm =>
    match Merge ord [("@platforms//cpu:x86_64".data, sX86.ws),
        ("//:neon_build".data, sArm.ws)] with
    | none => none
    | some ws => addWorkarounds parse (ws.AddBulidGN ord pathJoin)
  | _, _ => none

/-! ## Specification-side notions -/

/-- The values of a list, each kept at its first occurrence only: the list
"deduplicated by value, first-seen order preserved". -/
def firstOccurrences {T : Type} [DecidableEq T] : List T → List T
  | [] => []
  | x :: xs => x :: (firstOccurrences xs).filter (fun y => decide (y ≠ x))

/-- The position of the first occurrence of `a` in a list (the length of the
list when `a` does not occur). -/
def firstIndex {T : Type} [DecidableEq T] (a : T) : List T → Nat
  | [] => 0
  | x :: xs => if x = a then 0 else firstIndex a xs + 1

/-- Brute-force scan of the whole list for the longest string of `dirs` that
`source` starts with; `none` when `source` starts with none of them. -/
def longestMatchingPrefix (dirs : List Str) (source : Str) : Option Str :=
  dirs.foldl
    (fun best d =>
      if d.isPrefixOf source then
        match best with
        | none => some d
        | some b => if b.length < d.length then some d else some b
      else best)
    none

/-- Source resolution by brute force: the package is the longest matching
directory with the separator trimmed and the target is the rest of the path;
without a matching directory the label is the orphan label. -/
def bruteForceResolve (dirs : List Str) (source : Str) : Label :=
  match longestMatchingPrefix dirs source with
  | some d =>
    { Repository := [], Package := strings.TrimRight d ['/'], Target := source.drop d.length }
  | none => resolveOrphanSource source

/-- The invariant that `(*Workspace).Target` and `(*Package).target` establish
for every workspace they build: map keys are pairwise distinct and the target
stored under package `n` and name `m` carries the label `//n:m`. -/
def Workspace.WF (ws : Workspace) : Prop :=
  ws.packages.keys.Nodup ∧
    ∀ e ∈ ws.packages, e.2.targets.keys.Nodup ∧
      ∀ f ∈ e.2.targets, f.2.label = { Repository := [], Package := e.1, Target := f.1 }

/-- A pass-through dependency edge of the description: `d1` is what `resolve`
makes of a dependency of `p`, with the traverse flag set, not the zero label
(a dropped dependency) and without repository (still internal). -/
def passThrough (format : Label → Str) (gnTargets : GoMap Label gn.Target) (p d1 : Label) :
    Prop :=
  ∃ gt, gnTargets.get? p = some gt ∧
    ∃ d ∈ gt.Deps, resolve format d = some (d1, true) ∧ d1 ≠ Label.zero ∧ d1.Repository = []

/-- The labels reachable from the roots through pass-through dependencies. -/
inductive Reachable (format : Label → Str) (gnTargets : GoMap Label gn.Target)
    (roots : List Label) : Label → Prop where
  | root {l : Label} : l ∈ roots → Reachable format gnTargets roots l
  | step {p d1 : Label} : Reachable format gnTargets roots p →
      passThrough format gnTargets p d1 → Reachable format gnTargets roots d1

/-- The invariant of the worklist of `loadDesc` relative to the labels `V`
popped so far and a set `R` of labels: the queue has no label twice, its
labels are in `R`, without repository and not popped yet; every label of the
queue or of `V` is marked in `queued`, and a marked label without repository
is in the queue or in `V`. -/
def loadDesc.QueueInv (R : Label → Prop) (V : List Label) (queue : List Label)
    (queued : GoMap Label Bool) : Prop :=
  queue.Nodup ∧ (∀ l ∈ queue, l ∉ V ∧ R l ∧ l.Repository = []) ∧
    (∀ l, l ∈ queue ∨ l ∈ V → queued.getD l false = true) ∧
    (∀ l, queued.getD l false = true → l.Repository = [] → l ∈ queue ∨ l ∈ V)

/-- The invariant of the worklist loop of `loadDesc`: no label was popped
twice, the worklist invariant holds, the roots and the `edge` successors of
the popped labels are popped or waiting, every popped label is in `R` and has
a target in the workspace. -/
def loadDesc.Inv (R : Label → Prop) (edge : Label → Label → Prop) (roots : List Label)
    (s : loadDesc.State) : Prop :=
  s.visited.Nodup ∧ loadDesc.QueueInv R s.visited s.queue s.queued ∧
    (∀ r ∈ roots, r ∈ s.queue ∨ r ∈ s.visited) ∧
    (∀ p ∈ s.visited, ∀ d, edge p d → d ∈ s.queue ∨ d ∈ s.visited) ∧
    (∀ l ∈ s.visited, R l) ∧ (∀ l ∈ s.visited, (s.ws.lookup l).isSome)

/-- The invariant of a conditional set: no value is both in the unconditioned
list and in the list of some condition key. -/
def selectableList.Disjoint {T : Type} (sl : selectableList T) : Prop :=
  ∀ v ∈ sl.list, ∀ e ∈ sl.selections, v ∉ e.2

/-- The values that a call adds unconditionally. -/
def selectableList.Op.unconditioned {T : Type} : selectableList.Op T → List T
  | selectableList.Op.append values => values
  | selectableList.Op.appendCondition condition value => if condition = [] then [value] else []

/-- The values that a call adds under a condition key. -/
def selectableList.Op.conditioned {T : Type} : selectableList.Op T → List T
  | selectableList.Op.append _ => []
  | selectableList.Op.appendCondition condition value => if condition = [] then [] else [value]

/-- Well-formedness of a workspace can be checked by evaluation. -/
instance Workspace.decidableWF (ws : Workspace) : Decidable ws.WF := by
  unfold Workspace.WF
  infer_instance

/-- One pass of the innermost loop of `resolveSources`: the key and the name
of the package, the key of the target and the raw source. -/
structure resolveSources.Entry where
  pkgKey : Str
  pkgName : Str
  tKey : Str
  source : conditioned Str
deriving DecidableEq, Repr

/-- The passes of the innermost loop of `resolveSources`, in order. -/
def resolveSources.entries (ord : MapOrder) (ws : Workspace) : List resolveSources.Entry :=
  ((ord.iter ws.packages).map (fun e =>
    ((ord.iter e.2.targets).map (fun f =>
      (f.2.raw_sources.items ord).map (fun source =>
        (⟨e.1, e.2.name, f.1, source⟩ : resolveSources.Entry)))).flatten)).flatten

/-- The file name `f` is in the export set of the package `P`. -/
def Workspace.exported (ws : Workspace) (P f : Str) : Bool :=
  match ws.packages.get? P with
  | some p => (p.exportFiles.get? f).isSome
  | none => false

/-- The export set of the package `P`, if there is such a package. -/
def Workspace.exportSet (ws : Workspace) (P : Str) : Option (GoMap Str Bool) :=
  (ws.packages.get? P).map (fun p => p.exportFiles)

/-- The dependency labels recorded on a target: the unconditioned ones and
those under every condition key. -/
def Target.allDeps (t : Target) : List Label :=
  t.Deps.list ++ (t.Deps.selections.map (fun e => e.2)).flatten

/-- No dangling internal reference, the labels in `S` excepted: every
dependency label recorded on a target of the workspace has a repository, is
in `S`, or names a target of the workspace. -/
def Workspace.NoDanglingExcept (S : Label → Prop) (ws : Workspace) : Prop :=
  ∀ l t, ws.lookup l = some t → ∀ d ∈ t.allDeps,
    d.Repository ≠ [] ∨ S d ∨ (ws.lookup d).isSome = true

/-- The segments of a path: the pieces between its slashes.  The empty path
has one segment, the empty one. -/
def path.segments : Str → List Str
  | [] => [[]]
  | c :: cs =>
    if c = '/' then [] :: path.segments cs
    else
      match path.segments cs with
      | [] => [[c]]
      | seg :: segs => (c :: seg) :: segs

/-- The map `targetMerges` of `Merge` when its first loop has ended: for every
target label the variants of the target, each with the key of its workspace. -/
def Merge.targetMerges (ord : MapOrder) (workspaces : GoMap Str Workspace) :
    GoMap Label (List (conditioned Target)) :=
  ((Merge.wss ord workspaces).foldl (Merge.absorb ord) (NewWorkspace, [])).2

/-! ## The worklist loop of `loadDesc`, by pop discipline -/

/-- The body of the worklist loop of `loadDesc` once `label` is popped and
`rest` is what remains of the queue. -/
def loadDesc.process (format : Label → Str) (gnTargets : GoMap Label gn.Target)
    (s : loadDesc.State) (label : Label) (rest : List Label) : Option loadDesc.State :=
  match gnTargets.get? label, s.ws.Target label with
  | some gnTarget, some (ws1, target) =>
    match gnTarget.Deps.foldlM (loadDesc.handleDep format) ⟨target, rest, s.queued⟩ with
    | none => none
    | some d =>
      match loadDesc.targetType gnTarget.Type_ with
      | none => none
      | some ty =>
        let r1 := gnTarget.Sources.foldl (fun acc source => acc.1.AddSource acc.2 source)
          (ws1, { d.target with Type_ := ty })
        let r2 := gnTarget.Public.foldl (fun acc source => acc.1.AddSource acc.2 source) r1
        some
          { queue := d.queue
            queued := d.queued
            numBazelTargets := s.numBazelTargets + 1
            ws := r2.1.store label r2.2
            visited := s.visited ++ [label] }
  | _, _ => none

/-- One round of the worklist loop with the queue popped at the front (FIFO)
instead of at the end. -/
def loadDesc.stepFifo (format : Label → Str) (gnTargets : GoMap Label gn.Target)
    (s : loadDesc.State) : Option loadDesc.State :=
  match s.queue with
  | [] => none
  | label :: rest => loadDesc.process format gnTargets s label rest

/-- The worklist loop over an arbitrary round function, at most `fuel` rounds. -/
def loadDesc.loopWith (step : loadDesc.State → Option loadDesc.State) :
    Nat → loadDesc.State → Outcome loadDesc.State
  | fuel, s =>
    if s.queue = [] then Outcome.done s
    else
      match fuel with
      | 0 => Outcome.fuelOut
      | fuel + 1 =>
        match step s with
        | none => Outcome.panicked
        | some s1 => loadDesc.loopWith step fuel s1

/-- The closure of `loadDesc` with a FIFO worklist. -/
def loadDescFifo (format : Label → Str) (gnTargets : GoMap Label gn.Target)
    (roots : List Label) (fuel : Nat) : Outcome loadDesc.State :=
  loadDesc.loopWith (loadDesc.stepFifo format gnTargets) fuel (loadDesc.init roots)

/-- The label that the dependency loop records for one dependency: what
`resolve` makes of it, unless that is the zero label. -/
def loadDesc.recordedDep (format : Label → Str) (dep : Label) : Option Label :=
  match resolve format dep with
  | some (d1, _) => if d1 = Label.zero then none else some d1
  | none => none

/-- The dependencies that one round records on the target of an entry: what
`resolve` makes of the dependencies of the entry, the zero label left out. -/
def loadDesc.resolvedDeps (format : Label → Str) (gt : gn.Target) : List Label :=
  gt.Deps.filterMap (loadDesc.recordedDep format)

/-- The effect of one round on the target of the popped label: the resolved
dependencies are appended, the type is set and the sources and public headers
are appended to the raw sources. -/
def loadDesc.visit (format : Label → Str) (gt : gn.Target) (t : Target) : Target :=
  let t1 := (loadDesc.resolvedDeps format gt).foldl Target.AppendDep t
  let t2 := { t1 with Type_ := (loadDesc.targetType gt.Type_).getD [] }
  (gt.Sources ++ gt.Public).foldl
    (fun t source => { t with raw_sources := t.raw_sources.append [strings.Trim source ['/']] }) t2

/-- The target that `(*Package).target` creates for the label `l`. -/
def Target.fresh (l : Label) : Target :=
  { label := { Repository := [], Package := l.Package, Target := l.Target }
    Type_ := []
    raw_sources := newSelectableList
    hdrs := newSelectableList
    srcs := newSelectableList
    Deps := newSelectableList }

/-- The target of `l` after `k` rounds on `l`: none before the first round. -/
def loadDesc.targetAfter (format : Label → Str) (gnTargets : GoMap Label gn.Target)
    (l : Label) (k : Nat) : Option Target :=
  if k = 0 then none
  else (gnTargets.get? l).map (fun gt => (loadDesc.visit format gt)^[k] (Target.fresh l))

/-- One when the label is marked in `queued` and has no repository, zero
otherwise: the number of times such a label is pushed on the worklist. -/
def loadDesc.pushed (queued : GoMap Label Bool) (l : Label) : Nat :=
  if queued.getD l false = true ∧ l.Repository = [] then 1 else 0

/-- An entry is usable: it is present, its kind is supported and `resolve`
aborts on none of its dependencies. -/
def loadDesc.Usable (format : Label → Str) (gnTargets : GoMap Label gn.Target) (l : Label) :
    Prop :=
  ∃ gt, gnTargets.get? l = some gt ∧ (loadDesc.targetType gt.Type_).isSome ∧
    ∀ d ∈ gt.Deps, (resolve format d).isSome

/-- The packages of a workspace carry the name they are stored under. -/
def Workspace.Named (ws : Workspace) : Prop := ∀ e ∈ ws.packages, e.2.name = e.1

/-- The invariant of the worklist loop for every root list and every pop
discipline.  Waiting labels are reachable; popped labels are reachable,
without repository and usable; roots, waiting and popped labels are marked;
a root waits or was popped as often as it is listed, any other label once
when it is marked and without repository, and not at all otherwise; the
pass-through dependencies of popped labels are marked; the workspace is well
formed and holds for every label the target of as many rounds as the label
was popped; the counter counts the rounds. -/
def loadDesc.RunInv (format : Label → Str) (gnTargets : GoMap Label gn.Target)
    (roots : List Label) (s : loadDesc.State) : Prop :=
  (∀ l ∈ s.queue, Reachable format gnTargets roots l ∧ (l ∈ roots ∨ l.Repository = [])) ∧
  (∀ l ∈ s.visited, Reachable format gnTargets roots l ∧ l.Repository = [] ∧
    loadDesc.Usable format gnTargets l) ∧
  (∀ l, l ∈ roots ∨ l ∈ s.queue ∨ l ∈ s.visited → s.queued.getD l false = true) ∧
  (∀ l, s.queue.count l + s.visited.count l
    = if l ∈ roots then roots.count l
      else if s.queued.getD l false = true ∧ l.Repository = [] then 1 else 0) ∧
  (∀ p ∈ s.visited, ∀ d, passThrough format gnTargets p d → s.queued.getD d false = true) ∧
  (s.ws.WF ∧ s.ws.Named ∧
    ∀ l, l.Repository = [] →
      s.ws.lookup l = loadDesc.targetAfter format gnTargets l (s.visited.count l)) ∧
  s.numBazelTargets = s.visited.length

/-- The distinct dependency labels of a description: every label that some
entry of the description lists as a dependency, once. -/
def gn.depLabels (gnTargets : GoMap Label gn.Target) : List Label :=
  (((gnTargets.keys.filterMap (fun k => gnTargets.get? k)).map
    (fun gt => gt.Deps)).flatten).dedup

/-- The bound on the rounds of the worklist loop: the number of root entries
plus the number of distinct dependency labels. -/
def loadDesc.bound (gnTargets : GoMap Label gn.Target) (roots : List Label) : Nat :=
  roots.length + (gn.depLabels gnTargets).length

/-- A round function of the worklist loop: on a non-empty queue it pops some
label of the queue and runs the loop body of `loadDesc` on it. -/
def loadDesc.IsRound (format : Label → Str) (gnTargets : GoMap Label gn.Target)
    (step : loadDesc.State → Option loadDesc.State) : Prop :=
  ∀ s, s.queue ≠ [] → ∃ label rest, s.queue.Perm (label :: rest) ∧
    step s = loadDesc.process format gnTargets s label rest

/-! ## Example data -/

/-- The label `//p:t`. -/
def Examples.T : Label := ⟨[], "p".data, "t".data⟩

/-- The label `//d:D1`. -/
def Examples.D1 : Label := ⟨[], "d".data, "D1".data⟩

/-- The label `//d:D2`. -/
def Examples.D2 : Label := ⟨[], "d".data, "D2".data⟩

/-- The label `//d:D3`. -/
def Examples.D3 : Label := ⟨[], "d".data, "D3".data⟩

/-- A workspace with the single target `//p:t`, which has the dependencies
`deps` and the sources `srcs`. -/
def Examples.variant (deps : List Label) (srcs : List Str) : Workspace :=
  { packages :=
      [("p".data,
        { name := "p".data
          targets :=
            [("t".data,
              { label := Examples.T
                Type_ := "cc_library".data
                raw_sources := ⟨srcs, []⟩
                hdrs := newSelectableList
                srcs := newSelectableList
                Deps := ⟨deps, []⟩ })]
          exportFiles := [] })]
    sources := srcs
    fileOverrides := [] }

/-- Variant X of the merge scenario: `//p:t` depends on `D1` and `D2`. -/
def Examples.wsX : Workspace :=
  Examples.variant [Examples.D1, Examples.D2] ["p/a.cc".data, "p/b.h".data]

/-- Variant Y of the merge scenario: `//p:t` depends on `D1` and `D3`. -/
def Examples.wsY : Workspace :=
  Examples.variant [Examples.D1, Examples.D3] ["p/b.h".data, "p/c.cc".data]

/-- The two variants X and Y, both defining `//p:t`. -/
def Examples.bothVariants : GoMap Str Workspace :=
  [("X".data, Examples.wsX), ("Y".data, Examples.wsY)]

/-- Two variants of which only X defines `//p:t`; Y has no target at all. -/
def Examples.onlyX : GoMap Str Workspace :=
  [("X".data, Examples.wsX), ("Y".data, NewWorkspace)]

/-- The label `//a:a`; `Label.Format` prints it as `//a`. -/
def Examples.A : Label := ⟨[], "a".data, "a".data⟩

/-- The label `//a:b`. -/
def Examples.B : Label := ⟨[], "a".data, "b".data⟩

/-- The label `//third_party/foo:foo`, on which `resolve` panics. -/
def Examples.F : Label := ⟨[], "third_party/foo".data, "foo".data⟩

/-- The description of the closure scenario of the specification: `//a:a`
depends on `//a:b`; both are source sets. -/
def Examples.graph : GoMap Label gn.Target :=
  [(Examples.A, ⟨[Examples.B], false, "source_set".data, ["a/x.cc".data], []⟩),
   (Examples.B, ⟨[], false, "source_set".data, ["a/y.h".data], []⟩)]

/-- A description in which `//a:a` depends on `//a:b` and on a vendored
package that is not whitelisted. -/
def Examples.graphVendored : GoMap Label gn.Target :=
  [(Examples.A, ⟨[Examples.B, Examples.F], false, "source_set".data, [], []⟩),
   (Examples.B, ⟨[], false, "source_set".data, [], []⟩)]

/-- The label `@r//a:a`, which carries a repository. -/
def Examples.AR : Label := ⟨"r".data, "a".data, "a".data⟩

/-- A description whose only entry is the label `@r//a:a`, a source set. -/
def Examples.graphRepository : GoMap Label gn.Target :=
  [(Examples.AR, ⟨[], false, "source_set".data, [], []⟩)]

/-- Quoting of a plain string: the string between double quotes. -/
def Examples.quote (s : Str) : Str := '"' :: s ++ ['"']

/-- A formatter of character lists: the characters between brackets. -/
def Examples.brackets (l : List Char) : Str := '[' :: l ++ [']']

/-- A conditional set with the unconditioned values `u`, `v`, the value `x`
under the key `b` and the value `y` under the key `a`. -/
def Examples.cset : selectableList Char :=
  ⟨['u', 'v'], [("b".data, ['x']), ("a".data, ['y'])]⟩

/-- A conditional set without unconditioned values, with `x` under the key `b`. -/
def Examples.csetConditionalOnly : selectableList Char := ⟨[], [("b".data, ['x'])]⟩

/-- The final state of the closure scenario: `loadDesc` on the scenario graph
from the root `//a:a`. -/
def Examples.closure : loadDesc.State :=
  match loadDesc Label.Format Examples.graph [Examples.A] 10 with
  | Outcome.done s => s
  | _ => loadDesc.init []

/-- A description with a dependency cycle and a self-dependency: `//a:a`
depends on itself and on `//a:b`, which depends on `//a:a`. -/
def Examples.graphCyclic : GoMap Label gn.Target :=
  [(Examples.A, ⟨[Examples.A, Examples.B], false, "source_set".data, [], []⟩),
   (Examples.B, ⟨[Examples.A], false, "executable".data, [], []⟩)]

/-- The label `//third_party/libevent:event`. -/
def Examples.E : Label := ⟨[], "third_party/libevent".data, "event".data⟩

/-- The fixed label `@pkg_config//libevent:libevent`. -/
def Examples.libevent : Label := ⟨"pkg_config".data, "libevent".data, "libevent".data⟩

/-- A description in which `//a:a` depends on the vendored event library. -/
def Examples.graphLibevent : GoMap Label gn.Target :=
  [(Examples.A, ⟨[Examples.E], false, "source_set".data, [], []⟩)]

/-- A description in which `//a:a` depends on a target of an unsupported kind. -/
def Examples.graphGroup : GoMap Label gn.Target :=
  [(Examples.A, ⟨[Examples.B], false, "source_set".data, [], []⟩),
   (Examples.B, ⟨[], false, "group".data, [], []⟩)]

/-- A target `//a:a` with a source of its own package, one of the package
`b` and one that belongs to no package, all unconditioned, and under the
condition key `//:neon_build` a header of its own package and a source of the
package `b`. -/
def Examples.crossTarget : Target :=
  { label := Examples.A
    Type_ := "cc_library".data
    raw_sources :=
      ⟨["a/x.cc".data, "b/y.h".data, "c/z.h".data],
        [("//:neon_build".data, ["a/n.h".data, "b/n.cc".data])]⟩
    hdrs := newSelectableList
    srcs := newSelectableList
    Deps := newSelectableList }

/-- The package `a` with the target `Examples.crossTarget`. -/
def Examples.crossPackage : Package :=
  { name := "a".data, targets := [("a".data, Examples.crossTarget)], exportFiles := [] }

/-- A workspace with the package `Examples.crossPackage` and an empty package `b`. -/
def Examples.wsCross : Workspace :=
  { packages :=
      [("a".data, Examples.crossPackage),
       ("b".data, { name := "b".data, targets := [], exportFiles := [] })]
    sources := ["a/x.cc".data, "b/y.h".data, "c/z.h".data]
    fileOverrides := [] }

/-- A reading of absolute labels `//pkg:target` and `//pkg` after
`labels.Parse` of the Bazel build tools.  It instantiates the parameter
`parse` in the examples. -/
def Examples.parse (s : Str) : Label :=
  let body := s.drop 2
  let pkg := body.takeWhile (fun c => c ≠ ':')
  let rest := body.dropWhile (fun c => c ≠ ':')
  { Repository := []
    Package := pkg
    Target := if rest = [] then (path.Split pkg).2 else rest.drop 1 }

/-- The label `//modules/audio_processing`. -/
def Examples.AP : Label :=
  ⟨[], "modules/audio_processing".data, "audio_processing".data⟩

/-- The description of the x86 variant of the pipeline example: the four root
libraries; the audio processing library depends on the debug proto library,
on a library of abseil and on the vendored event library, and the tool on
the registered field trials. -/
def Examples.descX86 : GoMap Label gn.Target :=
  [(Examples.AP,
      ⟨[⟨[], "modules/audio_processing".data, "audioproc_debug_proto".data⟩,
        ⟨[], "third_party/abseil-cpp/absl/strings".data, "strings".data⟩, Examples.E],
       false, "static_library".data, ["modules/audio_processing/ap.cc".data], []⟩),
   (⟨[], "api/audio".data, "aec3_factory".data⟩,
      ⟨[Examples.AP], false, "source_set".data, [], []⟩),
   (⟨[], "api/task_queue".data, "default_task_queue_factory".data⟩,
      ⟨[], false, "source_set".data, [], []⟩),
   (⟨[], "rtc_tools".data, "unpack_aecdump".data⟩,
      ⟨[Examples.AP, ⟨[], "experiments".data, "registered_field_trials".data⟩],
       false, "executable".data, [], []⟩)]

/-- The description of the arm variant of the pipeline example: as the x86
variant, and the audio processing library depends on `//common_audio:neon`
too. -/
def Examples.descArm : GoMap Label gn.Target :=
  [(Examples.AP,
      ⟨[⟨[], "modules/audio_processing".data, "audioproc_debug_proto".data⟩,
        ⟨[], "common_audio".data, "neon".data⟩, Examples.E],
       false, "static_library".data, ["modules/audio_processing/ap.cc".data], []⟩),
   (⟨[], "common_audio".data, "neon".data⟩,
      ⟨[], false, "source_set".data, [], []⟩),
   (⟨[], "api/audio".data, "aec3_factory".data⟩,
      ⟨[Examples.AP], false, "source_set".data, [], []⟩),
   (⟨[], "api/task_queue".data, "default_task_queue_factory".data⟩,
      ⟨[], false, "source_set".data, [], []⟩),
   (⟨[], "rtc_tools".data, "unpack_aecdump".data⟩,
      ⟨[Examples.AP, ⟨[], "experiments".data, "registered_field_trials".data⟩],
       false, "executable".data, [], []⟩)]

/-- The workspace of the pipeline example. -/
def Examples.final : Workspace :=
  (main.workspace MapOrder.insertion Label.Format Examples.parse
    (fun parts => strings.Join parts "/".data) Examples.descX86 Examples.descArm 10).getD
    NewWorkspace

/-! # Theorems -/

/-! ## Go maps -/

namespace GoMap
variable {K V : Type} [DecidableEq K]

theorem get?_set_self (m : GoMap K V) (k : K) (v : V) : (m.set k v).get? k = some v := by
  induction m with
  | nil => simp [set, get?]
  | cons p m ih =>
    obtain ⟨k', v'⟩ := p
    by_cases h : k' = k
    · simp [set, get?, h]
    · simp [set, get?, h, ih]

theorem get?_set_ne (m : GoMap K V) {k k' : K} (h : k ≠ k') (v : V) :
    (m.set k v).get? k' = m.get? k' := by
  induction m with
  | nil => simp [set, get?, h]
  | cons p m ih =>
    obtain ⟨k1, v1⟩ := p
    by_cases h1 : k1 = k
    · subst h1; simp [set, get?, h]
    · by_cases h2 : k1 = k'
      · subst h2; simp [set, get?, h1]
      · simp [set, get?, h1, h2, ih]

theorem get?_set (m : GoMap K V) (k k' : K) (v : V) :
    (m.set k v).get? k' = if k = k' then some v else m.get? k' := by
  by_cases h : k = k'
  · subst h; simp [get?_set_self]
  · simp [h, get?_set_ne m h]

theorem get?_delete (m : GoMap K V) (k k' : K) :
    (m.delete k).get? k' = if k' = k then none else m.get? k' := by
  induction m with
  | nil => simp [delete, get?]
  | cons p m ih =>
    obtain ⟨k1, v1⟩ := p
    simp only [delete] at ih
    by_cases h1 : k1 = k
    · subst h1
      by_cases h2 : k' = k1
      · subst h2; simpa [delete, get?] using ih
      · have h3 : ¬ k1 = k' := fun e => h2 e.symm
        simpa [delete, get?, h2, h3] using ih
    · by_cases h2 : k1 = k'
      · subst h2; simp [delete, get?, h1, List.filter_cons]
      · simp only [delete, List.filter_cons, h1, ne_eq, not_false_eq_true, decide_True, if_true, get?, h2, if_false]
        simpa using ih

theorem mem_keys_iff (m : GoMap K V) (k : K) : k ∈ m.keys ↔ (m.get? k).isSome := by
  induction m with
  | nil => simp [keys, get?]
  | cons p m ih =>
    obtain ⟨k1, v1⟩ := p
    by_cases h : k1 = k
    · subst h; simp [keys, get?]
    · have h' : ¬ k = k1 := fun e => h e.symm
      simp only [keys] at ih
      simp [keys, get?, h, h', ih]

theorem get?_eq_none_iff (m : GoMap K V) (k : K) : m.get? k = none ↔ k ∉ m.keys := by
  rw [mem_keys_iff]; cases m.get? k <;> simp

theorem keys_set (m : GoMap K V) (k : K) (v : V) :
    (m.set k v).keys = if k ∈ m.keys then m.keys else m.keys ++ [k] := by
  induction m with
  | nil => simp [set, keys]
  | cons p m ih =>
    obtain ⟨k1, v1⟩ := p
    simp only [keys] at ih
    by_cases h : k1 = k
    · subst h; simp [set, keys]
    · have h' : ¬ k = k1 := fun e => h e.symm
      by_cases hm : k ∈ List.map Prod.fst m
      · simp [set, keys, h, h', ih, hm]
      · simp [set, keys, h, h', ih, hm]

theorem nodup_keys_set (m : GoMap K V) (k : K) (v : V) (h : m.keys.Nodup) :
    (m.set k v).keys.Nodup := by
  rw [keys_set]
  split
  · exact h
  · rename_i hk
    exact List.Nodup.append h (List.nodup_singleton k) (by simpa using hk)

theorem nodup_keys_delete (m : GoMap K V) (k : K) (h : m.keys.Nodup) :
    (m.delete k).keys.Nodup := by
  unfold keys delete at *
  exact (List.Nodup.sublist (List.Sublist.map _ (List.filter_sublist _)) h)

end GoMap


/-! ## `mergeSelect` -/

section MergeSelect

variable {T : Type} [DecidableEq T]

theorem MapOrder.mem_iter (ord : MapOrder) {α : Type} (l : List α) (a : α) :
    a ∈ ord.iter l ↔ a ∈ l := (ord.perm l).mem_iff

theorem get?_foldl_set_true (xs : List T) (m : GoMap T Bool) (k : T) :
    (xs.foldl (fun result x => result.set x true) m).get? k
      = if k ∈ xs then some true else m.get? k := by
  induction xs generalizing m with
  | nil => simp
  | cons x xs ih =>
    rw [List.foldl_cons, ih, GoMap.get?_set]
    by_cases h1 : k ∈ xs
    · simp [h1]
    · by_cases h2 : x = k
      · subst h2; simp
      · have h3 : ¬ k = x := fun e => h2 e.symm
        simp [h1, h2, h3]

theorem nodup_keys_foldl_set_true (xs : List T) (m : GoMap T Bool) (h : m.keys.Nodup) :
    (xs.foldl (fun result x => result.set x true) m).keys.Nodup := by
  induction xs generalizing m with
  | nil => simpa using h
  | cons x xs ih => exact ih _ (GoMap.nodup_keys_set m x true h)

theorem get?_sliceToMap (xs : List T) (k : T) :
    (sliceToMap xs).get? k = if k ∈ xs then some true else none := by
  simp [sliceToMap, get?_foldl_set_true, GoMap.get?]

theorem getD_sliceToMap (xs : List T) (k : T) :
    (sliceToMap xs).getD k false = decide (k ∈ xs) := by
  simp only [GoMap.getD, get?_sliceToMap]
  by_cases h : k ∈ xs <;> simp [h]

theorem nodup_keys_sliceToMap (xs : List T) : (sliceToMap xs).keys.Nodup :=
  nodup_keys_foldl_set_true xs [] (by simp [GoMap.keys])

theorem get?_foldl_delete (drop : List T) (m : GoMap T Bool) (k : T) :
    (drop.foldl (fun m v => m.delete v) m).get? k = if k ∈ drop then none else m.get? k := by
  induction drop generalizing m with
  | nil => simp
  | cons d drop ih =>
    rw [List.foldl_cons, ih, GoMap.get?_delete]
    by_cases h1 : k ∈ drop
    · simp [h1]
    · by_cases h2 : k = d <;> simp [h1, h2]

theorem nodup_keys_foldl_delete (drop : List T) (m : GoMap T Bool) (h : m.keys.Nodup) :
    (drop.foldl (fun m v => m.delete v) m).keys.Nodup := by
  induction drop generalizing m with
  | nil => simpa using h
  | cons d drop ih => exact ih _ (GoMap.nodup_keys_delete m d h)

theorem get?_narrow (ord : MapOrder) (m : GoMap T Bool) (input : conditioned (List T)) (k : T) :
    (mergeSelect.narrow ord m input).get? k = if k ∈ input.value then m.get? k else none := by
  simp only [mergeSelect.narrow, get?_foldl_delete, getD_sliceToMap]
  by_cases h : k ∈ input.value
  · simp [h]
  · simp only [h, if_false]
    by_cases hk : k ∈ m.keys
    · have : k ∈ List.filter (fun k => !decide (k ∈ input.value))
          (List.map Prod.fst (ord.iter m)) := by
        rw [List.mem_filter]
        refine ⟨?_, by simp [h]⟩
        have := hk
        simp only [GoMap.keys, List.mem_map] at this ⊢
        obtain ⟨p, hp, rfl⟩ := this
        exact ⟨p, (ord.mem_iter m p).2 hp, rfl⟩
      simp [this]
    · have := (GoMap.get?_eq_none_iff m k).2 hk
      simp [this]

theorem nodup_keys_narrow (ord : MapOrder) (m : GoMap T Bool) (input : conditioned (List T))
    (h : m.keys.Nodup) : (mergeSelect.narrow ord m input).keys.Nodup :=
  nodup_keys_foldl_delete _ m h

theorem get?_foldl_narrow (ord : MapOrder) (rest : List (conditioned (List T)))
    (m : GoMap T Bool) (k : T) :
    (rest.foldl (mergeSelect.narrow ord) m).get? k
      = if ∀ input ∈ rest, k ∈ input.value then m.get? k else none := by
  induction rest generalizing m with
  | nil => simp
  | cons r rest ih =>
    rw [List.foldl_cons, ih, get?_narrow]
    by_cases h1 : k ∈ r.value <;> by_cases h2 : ∀ input ∈ rest, k ∈ input.value <;>
      simp [h1, h2]

theorem nodup_keys_foldl_narrow (ord : MapOrder) (rest : List (conditioned (List T)))
    (m : GoMap T Bool) (h : m.keys.Nodup) :
    (rest.foldl (mergeSelect.narrow ord) m).keys.Nodup := by
  induction rest generalizing m with
  | nil => simpa using h
  | cons r rest ih => exact ih _ (nodup_keys_narrow ord m r h)

/-- The map `intersection` of `mergeSelect` after its first loop. -/
theorem get?_intersection (ord : MapOrder) (input0 : conditioned (List T))
    (rest : List (conditioned (List T))) (k : T) :
    (rest.foldl (mergeSelect.narrow ord) (sliceToMap input0.value)).get? k
      = if ∀ input ∈ input0 :: rest, k ∈ input.value then some true else none := by
  rw [get?_foldl_narrow, get?_sliceToMap]
  by_cases h1 : k ∈ input0.value <;> by_cases h2 : ∀ input ∈ rest, k ∈ input.value <;>
    simp [h1, h2]

theorem getD_intersection (ord : MapOrder) (input0 : conditioned (List T))
    (rest : List (conditioned (List T))) (k : T) :
    (rest.foldl (mergeSelect.narrow ord) (sliceToMap input0.value)).getD k false
      = decide (∀ input ∈ input0 :: rest, k ∈ input.value) := by
  unfold GoMap.getD
  rw [get?_intersection]
  by_cases h : ∀ input ∈ input0 :: rest, k ∈ input.value
  · rw [if_pos h, Option.getD_some, decide_eq_true h]
  · rw [if_neg h, Option.getD_none, decide_eq_false h]

theorem mem_iter_keys (ord : MapOrder) (m : GoMap T Bool) (k : T) :
    k ∈ (ord.iter m).map Prod.fst ↔ (m.get? k).isSome := by
  rw [← GoMap.mem_keys_iff]
  exact ((ord.perm m).map Prod.fst).mem_iff

omit [DecidableEq T] in
theorem nodup_iter_keys (ord : MapOrder) (m : GoMap T Bool) (h : m.keys.Nodup) :
    ((ord.iter m).map Prod.fst).Nodup :=
  ((ord.perm m).map Prod.fst).nodup_iff.2 h

/-- The selections not overwritten later: a key that no input of the list
carries keeps its entry. -/
theorem get?_foldl_addSelection_of_not_mem (inter : GoMap T Bool)
    (inputs : List (conditioned (List T))) (sels : GoMap Str (List T)) (key : Str)
    (h : key ∉ inputs.map (fun i => i.key)) :
    (inputs.foldl (mergeSelect.addSelection inter) sels).get? key = sels.get? key := by
  induction inputs generalizing sels with
  | nil => simp
  | cons i inputs ih =>
    simp only [List.map_cons, List.mem_cons, not_or] at h
    rw [List.foldl_cons, ih _ h.2]
    simp only [mergeSelect.addSelection]
    split
    · exact GoMap.get?_set_ne _ (fun e => h.1 e.symm) _
    · rfl

/-- With pairwise distinct keys, the entry of the key of an input is the
non-empty remainder of that input. -/
theorem get?_foldl_addSelection_of_mem (inter : GoMap T Bool)
    (inputs : List (conditioned (List T))) (sels : GoMap Str (List T))
    (hk : (inputs.map (fun i => i.key)).Nodup) (input : conditioned (List T))
    (hin : input ∈ inputs) (hs : sels.get? input.key = none) :
    (inputs.foldl (mergeSelect.addSelection inter) sels).get? input.key
      = if input.value.filter (fun v => !(inter.getD v false)) = [] then none
        else some (input.value.filter (fun v => !(inter.getD v false))) := by
  induction inputs generalizing sels with
  | nil => simp at hin
  | cons i inputs ih =>
    simp only [List.map_cons, List.nodup_cons] at hk
    rw [List.foldl_cons]
    rcases List.mem_cons.1 hin with rfl | hin'
    · rw [get?_foldl_addSelection_of_not_mem _ _ _ _ hk.1]
      unfold mergeSelect.addSelection
      by_cases he : input.value.filter (fun v => !(inter.getD v false)) = []
      · simp [he, hs]
      · have : 0 < (input.value.filter (fun v => !(inter.getD v false))).length :=
          List.length_pos.2 he
        simp only [gt_iff_lt, this, if_true, he, if_false]
        exact GoMap.get?_set_self _ _ _
    · apply ih _ hk.2 hin'
      have hne : i.key ≠ input.key := by
        intro e
        exact hk.1 (e ▸ List.mem_map_of_mem (fun i => i.key) hin')
      simp only [mergeSelect.addSelection]
      split
      · rw [GoMap.get?_set_ne _ hne]; exact hs
      · exact hs

/-- When no input has a value outside the intersection, nothing is stored. -/
theorem foldl_addSelection_eq_self (inter : GoMap T Bool)
    (inputs : List (conditioned (List T))) (sels : GoMap Str (List T))
    (h : ∀ input ∈ inputs, input.value.filter (fun v => !(inter.getD v false)) = []) :
    inputs.foldl (mergeSelect.addSelection inter) sels = sels := by
  induction inputs generalizing sels with
  | nil => rfl
  | cons i inputs ih =>
    rw [List.foldl_cons]
    have h1 := h i (List.mem_cons_self _ _)
    have : mergeSelect.addSelection inter sels i = sels := by
      simp [mergeSelect.addSelection, h1]
    rw [this]
    exact ih _ (fun input hi => h input (List.mem_cons_of_mem _ hi))

end MergeSelect


section MergeSelectClaims

variable {T : Type} [DecidableEq T]

/-- C2. For every non-empty list of inputs, `mergeSelect` returns a set, and a
value is in its unconditioned list if and only if it occurs in every input
list. -/
theorem mergeSelect_list_iff_in_every_input (ord : MapOrder)
    (inputs : List (conditioned (List T))) (hne : inputs ≠ []) :
    ∃ out, mergeSelect ord inputs = some out ∧
      ∀ v, v ∈ out.list ↔ ∀ input ∈ inputs, v ∈ input.value := by
  cases inputs with
  | nil => exact absurd rfl hne
  | cons input0 rest =>
    refine ⟨_, rfl, fun v => ?_⟩
    show v ∈ (ord.iter _).map Prod.fst ↔ _
    rw [mem_iter_keys, get?_intersection]
    by_cases h : ∀ input ∈ input0 :: rest, v ∈ input.value
    · rw [if_pos h]; simp only [Option.isSome_some, true_iff]; exact h
    · rw [if_neg h]; simp only [Option.isSome_none, Bool.false_eq_true, false_iff]; exact h

/-- C1. For every non-empty list of inputs with pairwise distinct keys (in
whatever order the inputs come) and every index `k`, the values of the
unconditioned list of `mergeSelect inputs` together with the values stored
under the key of input `k` (none when the key is absent) are exactly the
values of the list of input `k`. -/
theorem mergeSelect_recovers_each_input (ord : MapOrder)
    (inputs : List (conditioned (List T))) (hne : inputs ≠ [])
    (hkeys : (inputs.map (fun i => i.key)).Nodup) :
    ∃ out, mergeSelect ord inputs = some out ∧
      ∀ (k : Fin inputs.length) (v : T),
        (v ∈ out.list ∨ v ∈ out.selections.getD (inputs.get k).key [])
          ↔ v ∈ (inputs.get k).value := by
  cases inputs with
  | nil => exact absurd rfl hne
  | cons input0 rest =>
    refine ⟨_, rfl, fun k v => ?_⟩
    have hin : (input0 :: rest).get k ∈ input0 :: rest := List.get_mem _ _ _
    generalize (input0 :: rest).get k = input at hin
    show (v ∈ (ord.iter _).map Prod.fst ∨ v ∈ GoMap.getD _ input.key []) ↔ _
    rw [mem_iter_keys, get?_intersection]
    unfold GoMap.getD
    rw [get?_foldl_addSelection_of_mem _ _ [] hkeys input hin rfl]
    have hfilter : ∀ w, w ∈ input.value.filter (fun v =>
        !((rest.foldl (mergeSelect.narrow ord) (sliceToMap input0.value)).getD v false))
        ↔ w ∈ input.value ∧ ¬ ∀ i ∈ input0 :: rest, w ∈ i.value := by
      intro w
      rw [List.mem_filter, getD_intersection]
      simp only [Bool.not_eq_true', decide_eq_false_iff_not]
    by_cases hall : ∀ i ∈ input0 :: rest, v ∈ i.value
    · rw [if_pos hall]
      simp only [Option.isSome_some, true_or, true_iff]
      exact hall input hin
    · rw [if_neg hall]
      simp only [Option.isSome_none, Bool.false_eq_true, false_or]
      split
      · rename_i he
        simp only [Option.getD_none, List.not_mem_nil, false_iff]
        intro hv
        have : v ∈ input.value.filter (fun v =>
            !((rest.foldl (mergeSelect.narrow ord) (sliceToMap input0.value)).getD v false)) :=
          (hfilter v).2 ⟨hv, hall⟩
        rw [he] at this
        exact absurd this (List.not_mem_nil v)
      · simp only [Option.getD_some]
        rw [hfilter]
        exact ⟨fun h => h.1, fun h => ⟨h, hall⟩⟩

/-- C4 (as amended). For a single input `(key, xs)`, `mergeSelect` returns a
set whose unconditioned list holds every value of `xs` exactly once, in the
order in which the Go map of the values happens to be visited, and whose
conditional mapping is empty. -/
theorem mergeSelect_single_input (ord : MapOrder) (key : Str) (xs : List T) :
    ∃ out, mergeSelect ord [⟨key, xs⟩] = some out ∧
      out.list.Nodup ∧ (∀ v, v ∈ out.list ↔ v ∈ xs) ∧ out.selections = [] := by
  refine ⟨_, rfl, ?_, ?_, ?_⟩
  · exact nodup_iter_keys ord _ (nodup_keys_sliceToMap xs)
  · intro v
    show v ∈ (ord.iter (sliceToMap xs)).map Prod.fst ↔ _
    rw [mem_iter_keys, get?_sliceToMap]
    by_cases h : v ∈ xs <;> simp [h]
  · show mergeSelect.addSelection (sliceToMap xs) [] ⟨key, xs⟩ = []
    have : xs.filter (fun v => !((sliceToMap xs).getD v false)) = [] := by
      rw [List.filter_eq_nil_iff]
      intro a ha
      simp [getD_sliceToMap, ha]
    simp [mergeSelect.addSelection, this]

/-- C5. For every non-empty list of inputs whose lists all hold the same set
of values, `mergeSelect` returns a set with an empty conditional mapping. -/
theorem mergeSelect_set_equal_inputs (ord : MapOrder)
    (inputs : List (conditioned (List T))) (hne : inputs ≠ [])
    (heq : ∀ a ∈ inputs, ∀ b ∈ inputs, ∀ v, v ∈ a.value ↔ v ∈ b.value) :
    ∃ out, mergeSelect ord inputs = some out ∧ out.selections = [] := by
  cases inputs with
  | nil => exact absurd rfl hne
  | cons input0 rest =>
    refine ⟨_, rfl, ?_⟩
    show (input0 :: rest).foldl (mergeSelect.addSelection _) [] = []
    apply foldl_addSelection_eq_self
    intro input hin
    rw [List.filter_eq_nil_iff]
    intro a ha
    rw [getD_intersection]
    have : ∀ i ∈ input0 :: rest, a ∈ i.value := fun i hi => (heq input hin i hi a).1 ha
    simp only [decide_eq_true this, Bool.not_true, Bool.false_eq_true, not_false_eq_true]

end MergeSelectClaims

/-- C4, counterexample. For the single input `("k", [1, 1])` the unconditioned
list returned by `mergeSelect` is `[1]`, not the input list `[1, 1]`. -/
theorem mergeSelect_single_input_not_verbatim :
    mergeSelect MapOrder.insertion [⟨"k".data, [1, 1]⟩]
        = some ⟨[1], []⟩ ∧
      ¬ mergeSelect MapOrder.insertion [⟨"k".data, [1, 1]⟩]
        = some ⟨[1, 1], []⟩ := by
  decide

/-- C2, at a concrete input. -/
theorem mergeSelect_list_iff_in_every_input_witness :
    ([⟨"X".data, [1, 2]⟩, ⟨"Y".data, [1, 3]⟩] : List (conditioned (List Nat))) ≠ [] ∧
    ∃ out, mergeSelect MapOrder.insertion [⟨"X".data, [1, 2]⟩, ⟨"Y".data, [1, 3]⟩] = some out ∧
      ∀ v, v ∈ out.list ↔
        ∀ input ∈ ([⟨"X".data, [1, 2]⟩, ⟨"Y".data, [1, 3]⟩] : List (conditioned (List Nat))),
          v ∈ input.value :=
  ⟨by decide, mergeSelect_list_iff_in_every_input MapOrder.insertion _ (by decide)⟩

/-- C1, at a concrete input. -/
theorem mergeSelect_recovers_each_input_witness :
    (([⟨"X".data, [1, 2]⟩, ⟨"Y".data, [1, 3]⟩] : List (conditioned (List Nat))).map
        (fun i => i.key)).Nodup ∧
    ∃ out, mergeSelect MapOrder.insertion [⟨"X".data, [1, 2]⟩, ⟨"Y".data, [1, 3]⟩] = some out ∧
      ∀ (k : Fin 2) (v : Nat),
        (v ∈ out.list ∨ v ∈ out.selections.getD
            (([⟨"X".data, [1, 2]⟩, ⟨"Y".data, [1, 3]⟩] : List (conditioned (List Nat))).get k).key [])
          ↔ v ∈ (([⟨"X".data, [1, 2]⟩, ⟨"Y".data, [1, 3]⟩] :
              List (conditioned (List Nat))).get k).value :=
  ⟨by decide,
   mergeSelect_recovers_each_input MapOrder.insertion
     ([⟨"X".data, [1, 2]⟩, ⟨"Y".data, [1, 3]⟩] : List (conditioned (List Nat)))
     (by decide) (by decide)⟩

/-- C5, at a concrete input. -/
theorem mergeSelect_set_equal_inputs_witness :
    (∀ a ∈ ([⟨"X".data, [1, 2]⟩, ⟨"Y".data, [2, 1, 1]⟩] : List (conditioned (List Nat))),
      ∀ b ∈ ([⟨"X".data, [1, 2]⟩, ⟨"Y".data, [2, 1, 1]⟩] : List (conditioned (List Nat))),
      ∀ v, v ∈ a.value ↔ v ∈ b.value) ∧
    ∃ out, mergeSelect MapOrder.insertion [⟨"X".data, [1, 2]⟩, ⟨"Y".data, [2, 1, 1]⟩] = some out ∧
      out.selections = [] :=
  ⟨by
     intro a ha b hb v
     simp only [List.mem_cons, List.mem_singleton, List.not_mem_nil, or_false] at ha hb
     rcases ha with rfl | rfl <;> rcases hb with rfl | rfl <;>
       simp only [List.mem_cons, List.mem_singleton, List.not_mem_nil, or_false] <;> tauto,
   mergeSelect_set_equal_inputs MapOrder.insertion
     ([⟨"X".data, [1, 2]⟩, ⟨"Y".data, [2, 1, 1]⟩] : List (conditioned (List Nat)))
     (by decide) (by
     intro a ha b hb v
     simp only [List.mem_cons, List.mem_singleton, List.not_mem_nil, or_false] at ha hb
     rcases ha with rfl | rfl <;> rcases hb with rfl | rfl <;>
       simp only [List.mem_cons, List.mem_singleton, List.not_mem_nil, or_false] <;> tauto)⟩


/-! ## `mergeSlice` -/

section MergeSlice

variable {T : Type} [DecidableEq T]

theorem mem_firstOccurrences (l : List T) (a : T) : a ∈ firstOccurrences l ↔ a ∈ l := by
  induction l with
  | nil => simp [firstOccurrences]
  | cons x xs ih =>
    simp only [firstOccurrences, List.mem_cons, List.mem_filter, ih, decide_eq_true_eq]
    by_cases h : a = x <;> simp [h]

theorem nodup_firstOccurrences (l : List T) : (firstOccurrences l).Nodup := by
  induction l with
  | nil => simp [firstOccurrences]
  | cons x xs ih =>
    simp only [firstOccurrences, List.nodup_cons, List.mem_filter, decide_eq_true_eq]
    exact ⟨fun h => h.2 rfl, ih.filter _⟩

theorem firstOccurrences_append (a b : List T) :
    firstOccurrences (a ++ b)
      = firstOccurrences a ++ (firstOccurrences b).filter (fun y => decide (y ∉ a)) := by
  induction a with
  | nil => simp [firstOccurrences]
  | cons x xs ih =>
    show firstOccurrences (x :: (xs ++ b)) = firstOccurrences (x :: xs) ++ _
    simp only [firstOccurrences]
    rw [ih]
    simp only [List.filter_append, List.filter_filter, List.cons_append,
      List.cons.injEq, true_and, List.append_cancel_left_eq]
    apply List.filter_congr
    intro y _
    by_cases h1 : y = x <;> by_cases h2 : y ∈ xs <;> simp [h1, h2]

/-- The loop of `mergeSlice`, started with `known` the set of the values of `acc`. -/
theorem mergeSlice_loop (from_ acc : List T) (known : GoMap T Bool)
    (hknown : ∀ v, known.getD v false = decide (v ∈ acc)) :
    (from_.foldl
      (fun (acc : List T × GoMap T Bool) v =>
        if !(acc.2.getD v false) then (acc.1 ++ [v], acc.2.set v true) else acc)
      (acc, known)).1
      = acc ++ (firstOccurrences from_).filter (fun y => decide (y ∉ acc)) := by
  induction from_ generalizing acc known with
  | nil => simp [firstOccurrences]
  | cons v vs ih =>
    rw [List.foldl_cons]
    by_cases hv : v ∈ acc
    · have h1 : known.getD v false = true := by rw [hknown]; exact decide_eq_true hv
      simp only [h1, Bool.not_true, Bool.false_eq_true, if_false]
      rw [ih acc known hknown]
      simp only [firstOccurrences, List.filter_cons, hv, not_true_eq_false, decide_False,
        Bool.false_eq_true, if_false, List.filter_filter]
      congr 1
      apply List.filter_congr
      intro y _
      by_cases h2 : y ∈ acc
      · simp [h2]
      · have : y ≠ v := fun e => h2 (e ▸ hv)
        simp [h2, this]
    · have h1 : known.getD v false = false := by rw [hknown]; exact decide_eq_false hv
      simp only [h1, Bool.not_false, if_true]
      rw [ih (acc ++ [v]) (known.set v true)]
      · simp only [firstOccurrences, List.filter_cons, hv, not_false_eq_true, decide_True,
          if_true, List.filter_filter, List.append_assoc, List.singleton_append]
        congr 2
        apply List.filter_congr
        intro y _
        by_cases h2 : y ∈ acc <;> by_cases h3 : y = v <;> simp [h2, h3]
      · intro w
        unfold GoMap.getD
        rw [GoMap.get?_set]
        by_cases h3 : v = w
        · subst h3; simp
        · have h4 : ¬ w = v := fun e => h3 e.symm
          have := hknown w
          unfold GoMap.getD at this
          simp [h3, h4, this]

theorem mergeSlice_eq (to_ from_ : List T) :
    mergeSlice to_ from_
      = to_ ++ (firstOccurrences from_).filter (fun y => decide (y ∉ to_)) := by
  unfold mergeSlice
  apply mergeSlice_loop
  intro v
  unfold GoMap.getD
  rw [get?_foldl_set_true]
  by_cases h : v ∈ to_ <;> simp [h, GoMap.get?]

theorem mergeSlice_firstOccurrences (a b : List T) :
    mergeSlice (firstOccurrences a) b = firstOccurrences (a ++ b) := by
  rw [mergeSlice_eq, firstOccurrences_append]
  congr 1
  apply List.filter_congr
  intro y _
  simp [mem_firstOccurrences]

theorem firstIndex_filter_lt_iff (p : T → Bool) (l : List T) (a b : T) (ha : p a = true)
    (hb : p b = true) (hal : a ∈ l) :
    (firstIndex a (l.filter p) < firstIndex b (l.filter p)
      ↔ firstIndex a l < firstIndex b l) := by
  induction l with
  | nil => simp at hal
  | cons x xs ih =>
    by_cases hxa : x = a
    · subst hxa
      by_cases hxb : x = b
      · subst hxb; simp [List.filter_cons, ha, firstIndex]
      · simp [List.filter_cons, ha, firstIndex, hxb]
    · have hal' : a ∈ xs := by
        rcases List.mem_cons.1 hal with h | h
        · exact absurd h.symm hxa
        · exact h
      by_cases hxb : x = b
      · subst hxb
        simp [List.filter_cons, hb, firstIndex, hxa]
      · by_cases hpx : p x = true
        · simp only [List.filter_cons, hpx, if_true, firstIndex, hxa, hxb, if_false,
            Nat.add_lt_add_iff_right]
          exact ih hal'
        · simp only [List.filter_cons, hpx, if_false, firstIndex, hxa, hxb,
            Nat.add_lt_add_iff_right]
          exact ih hal'

/-- The order of `firstOccurrences l` is the order of first occurrence in `l`. -/
theorem firstIndex_firstOccurrences_lt_iff (l : List T) (a b : T) (ha : a ∈ l) :
    (firstIndex a (firstOccurrences l) < firstIndex b (firstOccurrences l)
      ↔ firstIndex a l < firstIndex b l) := by
  induction l with
  | nil => simp at ha
  | cons x xs ih =>
    by_cases hxa : x = a
    · subst hxa
      by_cases hxb : x = b
      · subst hxb; simp [firstOccurrences, firstIndex]
      · simp [firstOccurrences, firstIndex, hxb]
    · have ha' : a ∈ xs := by
        rcases List.mem_cons.1 ha with h | h
        · exact absurd h.symm hxa
        · exact h
      by_cases hxb : x = b
      · subst hxb
        simp [firstOccurrences, firstIndex, hxa]
      · simp only [firstOccurrences, firstIndex, hxa, hxb, if_false, Nat.add_lt_add_iff_right]
        rw [firstIndex_filter_lt_iff _ _ a b (by simpa using fun e => hxa e.symm)
          (by simpa using fun e => hxb e.symm) ((mem_firstOccurrences xs a).2 ha')]
        exact ih ha'

end MergeSlice


/-! ## `Workspace.Target` and writes through its pointer -/

theorem Workspace.lookup_store_self (ws : Workspace) (l : Label) (t : Exporter.Target)
    (h : (ws.packages.get? l.Package).isSome) : (ws.store l t).lookup l = some t := by
  unfold Workspace.store Workspace.lookup
  cases hp : ws.packages.get? l.Package with
  | none => rw [hp] at h; simp at h
  | some p => simp [GoMap.get?_set_self]

theorem Workspace.lookup_store_other (ws : Workspace) (l l2 : Label) (t : Exporter.Target)
    (h : ¬ (l2.Package = l.Package ∧ l2.Target = l.Target)) :
    (ws.store l t).lookup l2 = ws.lookup l2 := by
  unfold Workspace.store Workspace.lookup
  cases hp : ws.packages.get? l.Package with
  | none => simp
  | some p =>
    by_cases h1 : l.Package = l2.Package
    · have h2 : l.Target ≠ l2.Target := fun e => h ⟨h1.symm, e.symm⟩
      simp only []
      rw [← h1, GoMap.get?_set_self, hp]
      simp only []
      exact GoMap.get?_set_ne _ h2 _
    · simp only []
      rw [GoMap.get?_set_ne _ h1]

theorem Workspace.sources_store (ws : Workspace) (l : Label) (t : Exporter.Target) :
    (ws.store l t).sources = ws.sources := by
  unfold Workspace.store
  cases ws.packages.get? l.Package <;> rfl

/-- What `ws.Target(l)` returns for a label without repository: the workspace
afterwards holds the returned target under `l`; every other slot and the
source list are as before. -/
theorem Workspace.Target_spec (ws : Workspace) (l : Label) (h : l.Repository = []) :
    ∃ ws1 t, ws.Target l = some (ws1, t) ∧ ws1.sources = ws.sources ∧
      (ws1.packages.get? l.Package).isSome ∧ ws1.lookup l = some t ∧
      (∀ l2 : Label, ¬ (l2.Package = l.Package ∧ l2.Target = l.Target) →
        ws1.lookup l2 = ws.lookup l2) := by
  unfold Workspace.Target
  simp only [h, ne_eq, not_true_eq_false, if_false]
  cases hp : ws.packages.get? l.Package with
  | none =>
    have hpkg : ws.pkg l.Package =
        ({ ws with packages := ws.packages.set l.Package ⟨l.Package, [], []⟩ },
          ⟨l.Package, [], []⟩) := by
      simp [Workspace.pkg, hp]
    rw [hpkg]
    simp only [Package.target, GoMap.get?]
    refine ⟨_, _, rfl, rfl, ?_, ?_, ?_⟩
    · simp [GoMap.get?_set_self]
    · simp [Workspace.lookup, GoMap.get?_set_self, GoMap.set, GoMap.get?]
    · intro l2 h2
      simp only [Workspace.lookup]
      by_cases h1 : l.Package = l2.Package
      · have h3 : l.Target ≠ l2.Target := fun e => h2 ⟨h1.symm, e.symm⟩
        rw [← h1, GoMap.get?_set_self, hp]
        simp [GoMap.set, GoMap.get?, h3]
      · rw [GoMap.get?_set_ne _ h1, GoMap.get?_set_ne _ h1]
  | some p =>
    have hpkg : ws.pkg l.Package = (ws, p) := by simp [Workspace.pkg, hp]
    rw [hpkg]
    cases ht : p.targets.get? l.Target with
    | none =>
      simp only [Package.target, ht]
      refine ⟨_, _, rfl, rfl, ?_, ?_, ?_⟩
      · simp [GoMap.get?_set_self]
      · simp [Workspace.lookup, GoMap.get?_set_self]
      · intro l2 h2
        simp only [Workspace.lookup]
        by_cases h1 : l.Package = l2.Package
        · have h3 : l.Target ≠ l2.Target := fun e => h2 ⟨h1.symm, e.symm⟩
          rw [← h1, GoMap.get?_set_self, hp]
          simp only []
          exact GoMap.get?_set_ne _ h3 _
        · rw [GoMap.get?_set_ne _ h1]
    | some t =>
      simp only [Package.target, ht]
      refine ⟨_, _, rfl, rfl, ?_, ?_, ?_⟩
      · simp [GoMap.get?_set_self]
      · simp [Workspace.lookup, GoMap.get?_set_self, ht]
      · intro l2 h2
        simp only [Workspace.lookup]
        by_cases h1 : l.Package = l2.Package
        · rw [← h1, GoMap.get?_set_self, hp]
        · rw [GoMap.get?_set_ne _ h1]


/-! ## The second loop of `Merge` -/

theorem conditionField_cons {T : Type} [DecidableEq T] (ord : MapOrder)
    (first : conditioned Target) (rest : List (conditioned Target))
    (fieldFunc : Target → selectableList T) :
    ∃ sl, conditionField ord (first :: rest) fieldFunc = some sl := by
  unfold conditionField
  exact ⟨_, rfl⟩

/-- One round of the second loop of `Merge`, for a label without repository
and a non-empty list of variants of the target. -/
theorem Merge.emit_spec (ord : MapOrder) (out : Workspace) (L : Label)
    (targets : List (conditioned Target)) (hL : L.Repository = []) (hne : targets ≠ []) :
    ∃ out1 t, Merge.emit ord out (L, targets) = some out1 ∧ out1.sources = out.sources ∧
      out1.lookup L = some t ∧
      conditionField ord targets (fun t => t.Deps) = some t.Deps ∧
      conditionField ord targets (fun t => t.raw_sources) = some t.raw_sources ∧
      targets.head?.map (fun c => c.value.Type_) = some t.Type_ ∧
      (∀ l2 : Label, ¬ (l2.Package = L.Package ∧ l2.Target = L.Target) →
        out1.lookup l2 = out.lookup l2) := by
  obtain ⟨ws1, t0, hT, hsrc, hpk, _, hother⟩ := Workspace.Target_spec out L hL
  cases targets with
  | nil => exact absurd rfl hne
  | cons first rest =>
    obtain ⟨raw, hraw⟩ := conditionField_cons ord first rest (fun t => t.raw_sources)
    obtain ⟨deps, hdeps⟩ := conditionField_cons ord first rest (fun t => t.Deps)
    refine ⟨ws1.store L { t0 with Type_ := first.value.Type_, raw_sources := raw, Deps := deps },
      { t0 with Type_ := first.value.Type_, raw_sources := raw, Deps := deps }, ?_, ?_, ?_, ?_, ?_,
      ?_, ?_⟩
    · simp only [Merge.emit, hT, hraw, hdeps]
    · rw [Workspace.sources_store, hsrc]
    · exact Workspace.lookup_store_self ws1 L _ hpk
    · exact hdeps
    · exact hraw
    · rfl
    · intro l2 h2
      rw [Workspace.lookup_store_other ws1 L l2 _ h2, hother l2 h2]

/-- The second loop of `Merge` over entries with pairwise distinct labels
without repository and non-empty lists: it succeeds, keeps the source list,
leaves one merged target per entry and touches no other slot. -/
theorem Merge.foldlM_emit (ord : MapOrder) (es : List (Label × List (conditioned Target)))
    (out : Workspace) (hes : ∀ e ∈ es, e.1.Repository = [] ∧ e.2 ≠ [])
    (hnd : (es.map Prod.fst).Nodup) :
    ∃ out1, es.foldlM (Merge.emit ord) out = some out1 ∧ out1.sources = out.sources ∧
      (∀ e ∈ es, ∃ t, out1.lookup e.1 = some t ∧
        conditionField ord e.2 (fun t => t.Deps) = some t.Deps ∧
        conditionField ord e.2 (fun t => t.raw_sources) = some t.raw_sources ∧
        e.2.head?.map (fun c => c.value.Type_) = some t.Type_) ∧
      (∀ l2 : Label, l2.Repository = [] → l2 ∉ es.map Prod.fst →
        out1.lookup l2 = out.lookup l2) := by
  induction es generalizing out with
  | nil =>
    exact ⟨out, rfl, rfl, fun e he => absurd he (List.not_mem_nil e), fun _ _ _ => rfl⟩
  | cons e es ih =>
    obtain ⟨L, targets⟩ := e
    have hLe := hes (L, targets) (List.mem_cons_self _ _)
    simp only [List.map_cons, List.nodup_cons] at hnd
    obtain ⟨o1, t, hemit, hsrc1, hlk, hdeps, hraw, hty, hother⟩ :=
      Merge.emit_spec ord out L targets hLe.1 hLe.2
    obtain ⟨o2, hfold, hsrc2, hall, hframe⟩ :=
      ih o1 (fun e he => hes e (List.mem_cons_of_mem _ he)) hnd.2
    refine ⟨o2, ?_, ?_, ?_, ?_⟩
    · rw [List.foldlM_cons, hemit]
      exact hfold
    · rw [hsrc2, hsrc1]
    · intro e he
      rcases List.mem_cons.1 he with rfl | he'
      · refine ⟨t, ?_, hdeps, hraw, hty⟩
        rw [hframe L hLe.1 hnd.1]
        exact hlk
      · exact hall e he'
    · intro l2 hl2 hnot
      simp only [List.map_cons, List.mem_cons, not_or] at hnot
      rw [hframe l2 hl2 hnot.2]
      apply hother
      intro h
      apply hnot.1
      cases l2; cases L
      simp only at hl2 h
      have := hLe.1
      simp only at this
      simp [hl2, this, h.1, h.2]


/-! ## The first loop of `Merge` -/

namespace GoMap

variable {K V : Type} [DecidableEq K]

theorem filter_key_eq (m : GoMap K V) (k : K) (h : m.keys.Nodup) :
    m.filter (fun e => decide (e.1 = k)) = (m.get? k).toList.map (fun v => (k, v)) := by
  induction m with
  | nil => simp [get?]
  | cons p m ih =>
    obtain ⟨k1, v1⟩ := p
    simp only [keys, List.map_cons, List.nodup_cons] at h
    have ih' := ih h.2
    by_cases hk : k1 = k
    · subst hk
      have hnone : GoMap.get? m k1 = none := (get?_eq_none_iff m k1).2 h.1
      rw [hnone] at ih'
      simp only [Option.toList, List.map_nil] at ih'
      simp [List.filter_cons, get?, ih']
    · simp [List.filter_cons, get?, hk, ih']

theorem filter_key_eq_of_perm (m l : GoMap K V) (k : K) (h : m.keys.Nodup) (hp : l.Perm m) :
    l.filter (fun e => decide (e.1 = k)) = (m.get? k).toList.map (fun v => (k, v)) := by
  have h1 := hp.filter (fun e => decide (e.1 = k))
  rw [filter_key_eq m k h] at h1
  cases hg : m.get? k with
  | none =>
    rw [hg] at h1
    simpa using h1.eq_nil
  | some v =>
    rw [hg] at h1
    simpa using h1

theorem get?_of_mem (m : GoMap K V) (h : m.keys.Nodup) (k : K) (v : V) (hm : (k, v) ∈ m) :
    m.get? k = some v := by
  induction m with
  | nil => simp at hm
  | cons p m ih =>
    obtain ⟨k1, v1⟩ := p
    simp only [keys, List.map_cons, List.nodup_cons] at h
    rcases List.mem_cons.1 hm with heq | hm'
    · cases heq; simp [get?]
    · have : k1 ≠ k := by
        intro e
        subst e
        exact h.1 (List.mem_map_of_mem Prod.fst hm')
      simp [get?, this, ih h.2 hm']

theorem mem_of_get? (m : GoMap K V) (k : K) (v : V) (hg : m.get? k = some v) : (k, v) ∈ m := by
  induction m with
  | nil => simp [get?] at hg
  | cons p m ih =>
    obtain ⟨k1, v1⟩ := p
    by_cases hk : k1 = k
    · subst hk
      simp only [get?, if_true, Option.some.injEq] at hg
      subst hg
      exact List.mem_cons_self _ _
    · simp only [get?, hk, if_false] at hg
      exact List.mem_cons_of_mem _ (ih hg)

end GoMap

theorem flatten_map_filter_eq {α β : Type} (q : α → Bool) (f : α → List β) (l : List α)
    (h : ∀ x ∈ l, q x = false → f x = []) :
    (l.map f).flatten = ((l.filter q).map f).flatten := by
  induction l with
  | nil => rfl
  | cons x xs ih =>
    have ih' := ih (fun y hy => h y (List.mem_cons_of_mem _ hy))
    cases hq : q x with
    | true => simp [List.filter_cons, hq, ih']
    | false =>
      simp [List.filter_cons, hq, ih', h x (List.mem_cons_self _ _) hq]

/-- In a well-formed workspace the targets that carry the label `L` are the
one stored under `L`, if any. -/
theorem Workspace.filter_rangeTargets (ord : MapOrder) (ws : Workspace) (hwf : ws.WF)
    (L : Label) (hL : L.Repository = []) :
    (ws.rangeTargets ord).filter (fun t => decide (t.label = L)) = (ws.lookup L).toList := by
  obtain ⟨hnd, hpk⟩ := hwf
  unfold Workspace.rangeTargets
  rw [List.filter_flatten, List.map_map]
  have hinner : ∀ e ∈ ord.iter ws.packages,
      (List.filter (fun t => decide (t.label = L)) ∘
        fun pkg => (ord.iter pkg.2.targets).map Prod.snd) e
      = if e.1 = L.Package then (e.2.targets.get? L.Target).toList else [] := by
    intro e he
    have hwe := hpk e ((ord.mem_iter _ e).1 he)
    simp only [Function.comp]
    rw [List.filter_map]
    by_cases hep : e.1 = L.Package
    · rw [if_pos hep]
      have hcongr : List.filter ((fun t : Exporter.Target => decide (t.label = L)) ∘ Prod.snd)
          (ord.iter e.2.targets)
          = List.filter (fun f => decide (f.1 = L.Target)) (ord.iter e.2.targets) := by
        apply List.filter_congr
        intro f hf
        have hlab := hwe.2 f ((ord.mem_iter _ f).1 hf)
        simp only [Function.comp, hlab]
        cases L
        simp only at hL hep
        simp [hL, hep]
      rw [hcongr, GoMap.filter_key_eq_of_perm e.2.targets _ L.Target hwe.1 (ord.perm _)]
      cases e.2.targets.get? L.Target <;> simp
    · rw [if_neg hep]
      have : List.filter ((fun t : Exporter.Target => decide (t.label = L)) ∘ Prod.snd)
          (ord.iter e.2.targets) = [] := by
        rw [List.filter_eq_nil_iff]
        intro f hf
        have hlab := hwe.2 f ((ord.mem_iter _ f).1 hf)
        simp only [Function.comp, hlab]
        cases L
        simp only at hep
        simp [hep]
      rw [this]
      rfl
  rw [List.map_congr_left hinner]
  rw [flatten_map_filter_eq (fun e => decide (e.1 = L.Package))]
  · rw [GoMap.filter_key_eq_of_perm ws.packages _ L.Package hnd (ord.perm _)]
    unfold Workspace.lookup
    cases ws.packages.get? L.Package with
    | none => simp
    | some p => simp
  · intro x _ hx
    have : ¬ x.1 = L.Package := by simpa using hx
    rw [if_neg this]


/-- The pairs `(variant key, target)` that the first loop of `Merge` visits
while it processes the variant `cws`, in order. -/
theorem Merge.collect_eq (ord : MapOrder) (tm : GoMap Label (List (conditioned Target)))
    (cws : conditioned Workspace) :
    Merge.collect ord tm cws
      = ((cws.value.rangeTargets ord).map (fun t => (⟨cws.key, t⟩ : conditioned Target))).foldl
          (fun tm ct => tm.set ct.value.label (tm.getD ct.value.label [] ++ [ct])) tm := by
  unfold Merge.collect
  rw [List.foldl_map]

theorem Merge.foldl_collect (ord : MapOrder) (wss : List (conditioned Workspace))
    (tm : GoMap Label (List (conditioned Target))) :
    wss.foldl (Merge.collect ord) tm
      = ((wss.map (fun cws =>
            (cws.value.rangeTargets ord).map
              (fun t => (⟨cws.key, t⟩ : conditioned Target)))).flatten).foldl
          (fun tm ct => tm.set ct.value.label (tm.getD ct.value.label [] ++ [ct])) tm := by
  induction wss generalizing tm with
  | nil => rfl
  | cons w wss ih =>
    rw [List.foldl_cons, ih, Merge.collect_eq, List.map_cons, List.flatten_cons,
      List.foldl_append]

theorem Merge.foldl_absorb (ord : MapOrder) (wss : List (conditioned Workspace))
    (acc : Workspace × GoMap Label (List (conditioned Target))) :
    (wss.foldl (Merge.absorb ord) acc).1.packages = acc.1.packages ∧
    (wss.foldl (Merge.absorb ord) acc).1.sources
      = wss.foldl (fun s cws => mergeSlice s cws.value.sources) acc.1.sources ∧
    (wss.foldl (Merge.absorb ord) acc).2 = wss.foldl (Merge.collect ord) acc.2 := by
  induction wss generalizing acc with
  | nil => exact ⟨rfl, rfl, rfl⟩
  | cons w wss ih =>
    simp only [List.foldl_cons]
    obtain ⟨h1, h2, h3⟩ := ih (Merge.absorb ord acc w)
    exact ⟨h1, h2, h3⟩

theorem foldl_mergeSlice (wss : List (conditioned Workspace)) (a : List Str) :
    wss.foldl (fun s cws => mergeSlice s cws.value.sources) (firstOccurrences a)
      = firstOccurrences (a ++ (wss.map (fun cws => cws.value.sources)).flatten) := by
  induction wss generalizing a with
  | nil => simp
  | cons w wss ih =>
    rw [List.foldl_cons, mergeSlice_firstOccurrences, ih, List.map_cons, List.flatten_cons,
      List.append_assoc]

/-- Grouping by label: after the fold, the entry of `L` is its former entry
followed by the visited pairs whose target carries `L`. -/
theorem get?_foldl_group (xs : List (conditioned Target))
    (tm : GoMap Label (List (conditioned Target))) (L : Label) :
    (xs.foldl (fun tm ct => tm.set ct.value.label (tm.getD ct.value.label [] ++ [ct])) tm).get? L
      = if xs.filter (fun ct => decide (ct.value.label = L)) = [] then tm.get? L
        else some (tm.getD L [] ++ xs.filter (fun ct => decide (ct.value.label = L))) := by
  induction xs generalizing tm with
  | nil => simp
  | cons x xs ih =>
    rw [List.foldl_cons, ih]
    by_cases hx : x.value.label = L
    · subst hx
      have h1 : (tm.set x.value.label (tm.getD x.value.label [] ++ [x])).get? x.value.label
          = some (tm.getD x.value.label [] ++ [x]) := GoMap.get?_set_self _ _ _
      have h2 : (tm.set x.value.label (tm.getD x.value.label [] ++ [x])).getD x.value.label []
          = tm.getD x.value.label [] ++ [x] := by
        unfold GoMap.getD
        rw [GoMap.get?_set_self]
        rfl
      rw [h1, h2]
      by_cases hf : xs.filter (fun ct => decide (ct.value.label = x.value.label)) = []
      · simp [List.filter_cons, hf]
      · simp [List.filter_cons, hf]
    · have h1 : (tm.set x.value.label (tm.getD x.value.label [] ++ [x])).get? L = tm.get? L :=
        GoMap.get?_set_ne _ hx _
      have h2 : (tm.set x.value.label (tm.getD x.value.label [] ++ [x])).getD L []
          = tm.getD L [] := by
        have h3 := h1
        unfold GoMap.getD at h3 ⊢
        rw [h3]
      rw [h1, h2]
      simp [List.filter_cons, hx]

theorem nodup_keys_foldl_group (xs : List (conditioned Target))
    (tm : GoMap Label (List (conditioned Target))) (h : tm.keys.Nodup) :
    (xs.foldl (fun tm ct => tm.set ct.value.label (tm.getD ct.value.label [] ++ [ct]))
      tm).keys.Nodup := by
  induction xs generalizing tm with
  | nil => exact h
  | cons x xs ih => exact ih _ (GoMap.nodup_keys_set _ _ _ h)

/-- The variants of the target `L`: one pair per variant that defines `L`,
in processing order. -/
theorem Merge.filter_visited (ord : MapOrder) (wss : List (conditioned Workspace))
    (hwf : ∀ cws ∈ wss, cws.value.WF) (L : Label) (hL : L.Repository = []) :
    ((wss.map (fun cws =>
        (cws.value.rangeTargets ord).map
          (fun t => (⟨cws.key, t⟩ : conditioned Target)))).flatten).filter
      (fun ct => decide (ct.value.label = L))
      = wss.filterMap (fun cws =>
          (cws.value.lookup L).map (fun t => (⟨cws.key, t⟩ : conditioned Target))) := by
  induction wss with
  | nil => rfl
  | cons w wss ih =>
    have ih' := ih (fun c hc => hwf c (List.mem_cons_of_mem _ hc))
    rw [List.map_cons, List.flatten_cons, List.filter_append, ih']
    rw [List.filter_map]
    have : List.filter ((fun ct : conditioned Target => decide (ct.value.label = L)) ∘
        fun t => (⟨w.key, t⟩ : conditioned Target)) (w.value.rangeTargets ord)
        = (w.value.lookup L).toList := by
      rw [← Workspace.filter_rangeTargets ord w.value (hwf w (List.mem_cons_self _ _)) L hL]
      rfl
    rw [this]
    cases hlk : w.value.lookup L with
    | none => simp [List.filterMap_cons, hlk]
    | some t => simp [List.filterMap_cons, hlk]


theorem Workspace.repository_of_mem_rangeTargets (ord : MapOrder) (ws : Workspace)
    (hwf : ws.WF) (t : Exporter.Target) (ht : t ∈ ws.rangeTargets ord) :
    t.label.Repository = [] := by
  unfold Workspace.rangeTargets at ht
  rw [List.mem_flatten] at ht
  obtain ⟨l, hl, htl⟩ := ht
  rw [List.mem_map] at hl
  obtain ⟨e, he, rfl⟩ := hl
  rw [List.mem_map] at htl
  obtain ⟨f, hf, rfl⟩ := htl
  have := (hwf.2 e ((ord.mem_iter _ e).1 he)).2 f ((ord.mem_iter _ f).1 hf)
  rw [this]

theorem Merge.wss_WF (ord : MapOrder) (workspaces : GoMap Str Workspace)
    (hwf : ∀ kv ∈ workspaces, kv.2.WF) : ∀ cws ∈ Merge.wss ord workspaces, cws.value.WF := by
  intro cws hc
  unfold Merge.wss at hc
  rw [List.mem_map] at hc
  obtain ⟨kv, hkv, rfl⟩ := hc
  exact hwf kv ((ord.mem_iter _ kv).1 hkv)

/-- The function `Merge` on well-formed variants: it returns a workspace whose source list
holds the first occurrences of the concatenated source lists and which has,
for each label that some variant defines, a target merged from the variants
of that label. -/
theorem Merge.spec (ord : MapOrder) (workspaces : GoMap Str Workspace)
    (hwf : ∀ kv ∈ workspaces, kv.2.WF) :
    ∃ out, Merge ord workspaces = some out ∧
      out.sources = firstOccurrences
        ((Merge.wss ord workspaces).map (fun cws => cws.value.sources)).flatten ∧
      ∀ L : Label, L.Repository = [] →
        (Merge.wss ord workspaces).filterMap (fun cws =>
          (cws.value.lookup L).map (fun t => (⟨cws.key, t⟩ : conditioned Target))) ≠ [] →
        ∃ t, out.lookup L = some t ∧
          conditionField ord ((Merge.wss ord workspaces).filterMap (fun cws =>
            (cws.value.lookup L).map (fun t => (⟨cws.key, t⟩ : conditioned Target))))
            (fun t => t.Deps) = some t.Deps ∧
          conditionField ord ((Merge.wss ord workspaces).filterMap (fun cws =>
            (cws.value.lookup L).map (fun t => (⟨cws.key, t⟩ : conditioned Target))))
            (fun t => t.raw_sources) = some t.raw_sources ∧
          ((Merge.wss ord workspaces).filterMap (fun cws =>
            (cws.value.lookup L).map (fun t => (⟨cws.key, t⟩ : conditioned Target)))).head?.map
            (fun c => c.value.Type_) = some t.Type_ := by
  have hwss := Merge.wss_WF ord workspaces hwf
  unfold Merge
  generalize Merge.wss ord workspaces = wss at hwss
  simp only []
  obtain ⟨_, hsrc, htm⟩ := Merge.foldl_absorb ord wss (NewWorkspace, [])
  rw [Merge.foldl_collect] at htm
  generalize List.foldl (Merge.absorb ord) (NewWorkspace, []) wss = acc at hsrc htm
  obtain ⟨out0, tm⟩ := acc
  simp only at hsrc htm
  have hget : ∀ L : Label, L.Repository = [] → tm.get? L =
      if wss.filterMap (fun cws =>
          (cws.value.lookup L).map (fun t => (⟨cws.key, t⟩ : conditioned Target))) = []
      then none
      else some (wss.filterMap (fun cws =>
          (cws.value.lookup L).map (fun t => (⟨cws.key, t⟩ : conditioned Target)))) := by
    intro L hL
    rw [htm, get?_foldl_group, Merge.filter_visited ord wss hwss L hL]
    rfl
  have hkeys : tm.keys.Nodup := by
    rw [htm]
    exact nodup_keys_foldl_group _ [] List.nodup_nil
  have hes : ∀ e ∈ ord.iter tm, e.1.Repository = [] ∧ e.2 ≠ [] := by
    intro e he
    have hmem : (e.1, e.2) ∈ tm := (ord.mem_iter _ e).1 he
    have hg := GoMap.get?_of_mem tm hkeys e.1 e.2 hmem
    have hg2 := hg
    rw [htm, get?_foldl_group] at hg2
    split at hg2
    · simp [GoMap.get?] at hg2
    · rename_i hne
      obtain ⟨x, hx⟩ := List.exists_mem_of_ne_nil _ hne
      rw [List.mem_filter] at hx
      obtain ⟨hxin, hxl⟩ := hx
      have hxl' : x.value.label = e.1 := by simpa using hxl
      rw [List.mem_flatten] at hxin
      obtain ⟨l, hl, hxl2⟩ := hxin
      rw [List.mem_map] at hl
      obtain ⟨cws, hc, rfl⟩ := hl
      rw [List.mem_map] at hxl2
      obtain ⟨t, ht, rfl⟩ := hxl2
      have hrepo := Workspace.repository_of_mem_rangeTargets ord cws.value (hwss cws hc) t ht
      have hrepo' : e.1.Repository = [] := by rw [← hxl']; exact hrepo
      refine ⟨hrepo', ?_⟩
      rw [hget e.1 hrepo'] at hg
      split at hg
      · simp at hg
      · rename_i hne2
        simp only [Option.some.injEq] at hg
        rw [← hg]
        exact hne2
  have hnd : ((ord.iter tm).map Prod.fst).Nodup :=
    ((ord.perm tm).map Prod.fst).nodup_iff.2 hkeys
  obtain ⟨out1, hfold, hsrc1, hall, _⟩ := Merge.foldlM_emit ord (ord.iter tm) out0 hes hnd
  refine ⟨out1, hfold, ?_, ?_⟩
  · rw [hsrc1, hsrc]
    have := foldl_mergeSlice wss []
    simpa [firstOccurrences, NewWorkspace] using this
  · intro L hL hne
    have hg := hget L hL
    rw [if_neg hne] at hg
    have hmem := GoMap.mem_of_get? tm L _ hg
    exact hall _ ((ord.mem_iter _ _).2 hmem)


/-! ## `Merge`: the merged targets and the merged source list -/

/-- Everything the Merge claims need to know about a successful `mergeSelect`. -/
theorem mergeSelect_facts {T : Type} [DecidableEq T] (ord : MapOrder)
    (inputs : List (conditioned (List T))) (out : selectableList T)
    (h : mergeSelect ord inputs = some out) :
    (∀ v, v ∈ out.list ↔ ∀ input ∈ inputs, v ∈ input.value) ∧ out.list.Nodup ∧
    (∀ key, key ∉ inputs.map (fun i => i.key) → out.selections.get? key = none) ∧
    ((inputs.map (fun i => i.key)).Nodup → ∀ input ∈ inputs,
      out.selections.get? input.key
        = if input.value.filter (fun v => decide (v ∉ out.list)) = [] then none
          else some (input.value.filter (fun v => decide (v ∉ out.list)))) ∧
    ((∀ input ∈ inputs, ∀ v ∈ input.value, v ∈ out.list) → out.selections = []) := by
  cases inputs with
  | nil => simp [mergeSelect] at h
  | cons input0 rest =>
    simp only [mergeSelect, Option.some.injEq] at h
    subst h
    have hmem : ∀ v, v ∈ (ord.iter (rest.foldl (mergeSelect.narrow ord)
        (sliceToMap input0.value))).map Prod.fst ↔ ∀ input ∈ input0 :: rest, v ∈ input.value := by
      intro v
      rw [mem_iter_keys, get?_intersection]
      by_cases hv : ∀ input ∈ input0 :: rest, v ∈ input.value
      · rw [if_pos hv]; simp only [Option.isSome_some, true_iff]; exact hv
      · rw [if_neg hv]; simp only [Option.isSome_none, Bool.false_eq_true, false_iff]; exact hv
    have hfilter : ∀ xs : List T,
        xs.filter (fun v => !((rest.foldl (mergeSelect.narrow ord)
          (sliceToMap input0.value)).getD v false))
        = xs.filter (fun v => decide (v ∉ (ord.iter (rest.foldl (mergeSelect.narrow ord)
          (sliceToMap input0.value))).map Prod.fst)) := by
      intro xs
      apply List.filter_congr
      intro v _
      rw [getD_intersection]
      by_cases hv : ∀ input ∈ input0 :: rest, v ∈ input.value
      · rw [decide_eq_true hv, decide_eq_false (fun hn => hn ((hmem v).2 hv))]
        rfl
      · have hnot : v ∉ (ord.iter (rest.foldl (mergeSelect.narrow ord)
            (sliceToMap input0.value))).map Prod.fst := fun hn => hv ((hmem v).1 hn)
        rw [decide_eq_false hv, decide_eq_true hnot]
        rfl
    refine ⟨hmem, ?_, ?_, ?_, ?_⟩
    · exact nodup_iter_keys ord _
        (nodup_keys_foldl_narrow ord rest _ (nodup_keys_sliceToMap input0.value))
    · intro key hkey
      show GoMap.get? (List.foldl _ _ _) key = none
      rw [get?_foldl_addSelection_of_not_mem _ _ _ _ hkey]
      rfl
    · intro hnd input hin
      show GoMap.get? (List.foldl _ _ _) input.key = _
      rw [get?_foldl_addSelection_of_mem _ _ [] hnd input hin rfl, hfilter]
    · intro hall
      show List.foldl _ _ _ = []
      apply foldl_addSelection_eq_self
      intro input hin
      rw [hfilter, List.filter_eq_nil_iff]
      intro v hv
      simp only [decide_eq_true_eq, not_not]
      exact hall input hin v hv

theorem nodup_map_filterMap {α β γ : Type} (f : α → Option β) (g : β → γ) (k : α → γ)
    (l : List α) (hfg : ∀ x y, f x = some y → g y = k x) (hnd : (l.map k).Nodup) :
    ((l.filterMap f).map g).Nodup := by
  have hsub : List.Sublist ((l.filterMap f).map g) (l.map k) := by
    clear hnd
    induction l with
    | nil => simp
    | cons x xs ih =>
      cases hfx : f x with
      | none =>
        rw [List.filterMap_cons_none hfx, List.map_cons]
        exact List.Sublist.cons _ ih
      | some y =>
        rw [List.filterMap_cons_some hfx, List.map_cons, List.map_cons, hfg x y hfx]
        exact List.Sublist.cons₂ _ ih
  exact hnd.sublist hsub

theorem Merge.nodup_keys_wss (ord : MapOrder) (workspaces : GoMap Str Workspace)
    (hkeys : workspaces.keys.Nodup) :
    ((Merge.wss ord workspaces).map (fun cws => cws.key)).Nodup := by
  unfold Merge.wss
  rw [List.map_map]
  exact ((ord.perm workspaces).map _).nodup_iff.2 hkeys

theorem Merge.mem_wss (ord : MapOrder) (workspaces : GoMap Str Workspace)
    (cws : conditioned Workspace) :
    cws ∈ Merge.wss ord workspaces ↔ (cws.key, cws.value) ∈ workspaces := by
  unfold Merge.wss
  rw [List.mem_map]
  constructor
  · rintro ⟨kv, hkv, rfl⟩
    exact (ord.mem_iter _ kv).1 hkv
  · intro h
    exact ⟨(cws.key, cws.value), (ord.mem_iter _ _).2 h, rfl⟩

/-- The inputs that `conditionField` hands to `mergeSelect` for the label `L`. -/
theorem Merge.mem_inputs (ord : MapOrder) (workspaces : GoMap Str Workspace) (L : Label)
    {T : Type} (fieldFunc : Target → selectableList T) (input : conditioned (List T)) :
    input ∈ ((Merge.wss ord workspaces).filterMap (fun cws =>
        (cws.value.lookup L).map (fun t => (⟨cws.key, t⟩ : conditioned Target)))).map
        (fun ct => (⟨ct.key, (fieldFunc ct.value).list⟩ : conditioned (List T)))
      ↔ ∃ kv ∈ workspaces, ∃ tk, kv.2.lookup L = some tk ∧
          input = ⟨kv.1, (fieldFunc tk).list⟩ := by
  simp only [List.mem_map, List.mem_filterMap, Option.map_eq_some']
  constructor
  · rintro ⟨ct, ⟨cws, hc, tk, htk, rfl⟩, rfl⟩
    exact ⟨(cws.key, cws.value), (Merge.mem_wss ord workspaces cws).1 hc, tk, htk, rfl⟩
  · rintro ⟨kv, hkv, tk, htk, rfl⟩
    exact ⟨⟨kv.1, tk⟩, ⟨⟨kv.1, kv.2⟩, (Merge.mem_wss ord workspaces ⟨kv.1, kv.2⟩).2 hkv, tk, htk,
      rfl⟩, rfl⟩


theorem filterMap_eq_singleton {α β γ : Type} (f : α → Option β) (k : α → γ) (l : List α)
    (a : α) (b : β) (hnd : (l.map k).Nodup) (ha : a ∈ l) (hfa : f a = some b)
    (hother : ∀ x ∈ l, k x ≠ k a → f x = none) : l.filterMap f = [b] := by
  induction l with
  | nil => simp at ha
  | cons x xs ih =>
    simp only [List.map_cons, List.nodup_cons] at hnd
    rcases List.mem_cons.1 ha with rfl | hin
    · rw [List.filterMap_cons_some hfa]
      have : xs.filterMap f = [] := by
        rw [List.filterMap_eq_nil_iff]
        intro y hy
        apply hother y (List.mem_cons_of_mem _ hy)
        intro e
        exact hnd.1 (e ▸ List.mem_map_of_mem k hy)
      rw [this]
    · have hx : f x = none := by
        apply hother x (List.mem_cons_self _ _)
        intro e
        exact hnd.1 (e ▸ List.mem_map_of_mem k hin)
      rw [List.filterMap_cons_none hx]
      exact ih hnd.2 hin (fun y hy => hother y (List.mem_cons_of_mem _ hy))

/-- C3 (as amended). For every map of variant workspaces and every target
label `L` that variant `X` defines and no other variant defines, the merged
target that `Merge` produces has, in `Deps` and in `raw_sources`, an
unconditioned list that holds exactly the values of the list of `X`, each
once, and an empty conditional mapping: the variants without the target
hand no input to the merge. -/
theorem Merge_target_of_one_variant (ord : MapOrder) (workspaces : GoMap Str Workspace)
    (hkeys : workspaces.keys.Nodup) (hwf : ∀ kv ∈ workspaces, kv.2.WF)
    (L : Label) (X : Str) (wsX : Workspace) (tX : Target)
    (hX : (X, wsX) ∈ workspaces) (hdef : wsX.lookup L = some tX) (hlab : tX.label = L)
    (hothers : ∀ kv ∈ workspaces, kv.1 ≠ X → kv.2.lookup L = none) :
    ∃ out t, Merge ord workspaces = some out ∧ out.lookup L = some t ∧
      (∀ d, d ∈ t.Deps.list ↔ d ∈ tX.Deps.list) ∧ t.Deps.list.Nodup ∧
      t.Deps.selections = [] ∧
      (∀ s, s ∈ t.raw_sources.list ↔ s ∈ tX.raw_sources.list) ∧ t.raw_sources.list.Nodup ∧
      t.raw_sources.selections = [] := by
  have hL : L.Repository = [] := by
    have hin : tX ∈ wsX.rangeTargets ord := by
      have h1 := Workspace.filter_rangeTargets ord wsX (hwf _ hX)
        ⟨[], L.Package, L.Target⟩ rfl
      have h2 : wsX.lookup ⟨[], L.Package, L.Target⟩ = some tX := hdef
      rw [h2] at h1
      have h3 : tX ∈ List.filter (fun t => decide (t.label = ⟨[], L.Package, L.Target⟩))
          (wsX.rangeTargets ord) := by rw [h1]; simp
      exact (List.mem_filter.1 h3).1
    rw [← hlab]
    exact Workspace.repository_of_mem_rangeTargets ord wsX (hwf _ hX) tX hin
  have hvar : (Merge.wss ord workspaces).filterMap (fun cws =>
      (cws.value.lookup L).map (fun t => (⟨cws.key, t⟩ : conditioned Target)))
      = [⟨X, tX⟩] := by
    apply filterMap_eq_singleton _ (fun cws => cws.key) _ ⟨X, wsX⟩ _
      (Merge.nodup_keys_wss ord workspaces hkeys)
      ((Merge.mem_wss ord workspaces ⟨X, wsX⟩).2 hX)
    · simp only [hdef, Option.map_some']
    · intro cws hc hne
      have := hothers (cws.key, cws.value) ((Merge.mem_wss ord workspaces cws).1 hc) hne
      simp only at this
      rw [this]
      rfl
  obtain ⟨out, hout, _, htargets⟩ := Merge.spec ord workspaces hwf
  obtain ⟨t, hlk, hdeps, hraw, _⟩ := htargets L hL (by rw [hvar]; simp)
  rw [hvar] at hdeps hraw
  obtain ⟨d1, d2, _, _, d5⟩ := mergeSelect_facts ord _ _ hdeps
  obtain ⟨r1, r2, _, _, r5⟩ := mergeSelect_facts ord _ _ hraw
  simp only [List.map_cons, List.map_nil, List.mem_singleton, forall_eq] at d1 d5 r1 r5
  exact ⟨out, t, hout, hlk, d1, d2, d5 (fun v hv => (d1 v).2 hv), r1, r2,
    r5 (fun v hv => (r1 v).2 hv)⟩

/-- C3, counterexample. Of the two variants X and Y only X defines `//p:t`,
with the dependencies `D1` and `D2`.  The merged target has the unconditioned
dependency list `[D1, D2]`, not the empty one, and nothing under the key X. -/
theorem Merge_one_variant_target_is_unconditioned :
    ((Merge MapOrder.insertion Examples.onlyX).bind (fun out => out.lookup Examples.T)).map
        (fun t => t.Deps) = some ⟨[Examples.D1, Examples.D2], []⟩ ∧
    ((Merge MapOrder.insertion Examples.onlyX).bind (fun out => out.lookup Examples.T)).map
        (fun t => t.raw_sources) = some ⟨["p/a.cc".data, "p/b.h".data], []⟩ := by
  decide

/-- C3 (as amended), at the variants X and Y of which only X defines `//p:t`. -/
theorem Merge_target_of_one_variant_witness :
    Examples.onlyX.keys.Nodup ∧ (∀ kv ∈ Examples.onlyX, kv.2.WF) ∧
    ∃ out t, Merge MapOrder.insertion Examples.onlyX = some out ∧
      out.lookup Examples.T = some t ∧
      (∀ d, d ∈ t.Deps.list ↔ d ∈ [Examples.D1, Examples.D2]) ∧ t.Deps.list.Nodup ∧
      t.Deps.selections = [] ∧
      (∀ s, s ∈ t.raw_sources.list ↔ s ∈ ["p/a.cc".data, "p/b.h".data]) ∧
      t.raw_sources.list.Nodup ∧ t.raw_sources.selections = [] :=
  ⟨by decide, by decide,
   Merge_target_of_one_variant MapOrder.insertion Examples.onlyX (by decide) (by decide)
     Examples.T "X".data Examples.wsX
     { label := Examples.T
       Type_ := "cc_library".data
       raw_sources := ⟨["p/a.cc".data, "p/b.h".data], []⟩
       hdrs := newSelectableList
       srcs := newSelectableList
       Deps := ⟨[Examples.D1, Examples.D2], []⟩ }
     (by decide) (by decide) (by decide) (by decide)⟩

/-- C6. For every non-empty map of well-formed variant workspaces with
distinct keys and every target label `L` that every variant defines, the
merged target of `L` has as unconditioned `Deps` values exactly the labels
present in the dependency list of every variant; under each variant key it
stores the dependency list of that variant with the common labels removed, in
the original order, and the key is absent when nothing remains; no other key
is present. -/
theorem Merge_deps_of_common_target (ord : MapOrder) (workspaces : GoMap Str Workspace)
    (hne : workspaces ≠ []) (hkeys : workspaces.keys.Nodup)
    (hwf : ∀ kv ∈ workspaces, kv.2.WF) (L : Label)
    (hdef : ∀ kv ∈ workspaces, ∃ tk, kv.2.lookup L = some tk ∧ tk.label = L) :
    ∃ out t, Merge ord workspaces = some out ∧ out.lookup L = some t ∧
      (∀ d, d ∈ t.Deps.list ↔
        ∀ kv ∈ workspaces, ∀ tk, kv.2.lookup L = some tk → d ∈ tk.Deps.list) ∧
      (∀ kv ∈ workspaces, ∀ tk, kv.2.lookup L = some tk →
        t.Deps.selections.get? kv.1
          = if tk.Deps.list.filter (fun d => decide (d ∉ t.Deps.list)) = [] then none
            else some (tk.Deps.list.filter (fun d => decide (d ∉ t.Deps.list)))) ∧
      (∀ key, key ∉ workspaces.keys → t.Deps.selections.get? key = none) := by
  obtain ⟨kv0, hkv0⟩ := List.exists_mem_of_ne_nil _ hne
  obtain ⟨t0, ht0, hlab0⟩ := hdef kv0 hkv0
  have hL : L.Repository = [] := by
    have hin : t0 ∈ kv0.2.rangeTargets ord := by
      have h1 := Workspace.filter_rangeTargets ord kv0.2 (hwf _ hkv0)
        ⟨[], L.Package, L.Target⟩ rfl
      have h2 : kv0.2.lookup ⟨[], L.Package, L.Target⟩ = some t0 := ht0
      rw [h2] at h1
      have h3 : t0 ∈ List.filter (fun t => decide (t.label = ⟨[], L.Package, L.Target⟩))
          (kv0.2.rangeTargets ord) := by rw [h1]; simp
      exact (List.mem_filter.1 h3).1
    rw [← hlab0]
    exact Workspace.repository_of_mem_rangeTargets ord kv0.2 (hwf _ hkv0) t0 hin
  obtain ⟨out, hout, _, htargets⟩ := Merge.spec ord workspaces hwf
  have hvne : (Merge.wss ord workspaces).filterMap (fun cws =>
      (cws.value.lookup L).map (fun t => (⟨cws.key, t⟩ : conditioned Target))) ≠ [] := by
    intro he
    rw [List.filterMap_eq_nil_iff] at he
    have := he ⟨kv0.1, kv0.2⟩ ((Merge.mem_wss ord workspaces ⟨kv0.1, kv0.2⟩).2 hkv0)
    simp [ht0] at this
  obtain ⟨t, hlk, hdeps, _, _⟩ := htargets L hL hvne
  unfold conditionField at hdeps
  obtain ⟨d1, _, d3, d4, _⟩ := mergeSelect_facts ord _ _ hdeps
  have hkn : ((((Merge.wss ord workspaces).filterMap (fun cws =>
      (cws.value.lookup L).map (fun t => (⟨cws.key, t⟩ : conditioned Target)))).map
      (fun ct => (⟨ct.key, ct.value.Deps.list⟩ : conditioned (List Label)))).map
      (fun i => i.key)).Nodup := by
    rw [List.map_map]
    apply nodup_map_filterMap _ _ (fun cws => cws.key) _ _
      (Merge.nodup_keys_wss ord workspaces hkeys)
    intro x y hxy
    simp only [Option.map_eq_some'] at hxy
    obtain ⟨tk, _, rfl⟩ := hxy
    rfl
  refine ⟨out, t, hout, hlk, ?_, ?_, ?_⟩
  · intro d
    rw [d1]
    constructor
    · intro h kv hkv tk htk
      exact h ⟨kv.1, tk.Deps.list⟩
        ((Merge.mem_inputs ord workspaces L (fun t => t.Deps) _).2 ⟨kv, hkv, tk, htk, rfl⟩)
    · intro h input hin
      obtain ⟨kv, hkv, tk, htk, rfl⟩ :=
        (Merge.mem_inputs ord workspaces L (fun t => t.Deps) _).1 hin
      exact h kv hkv tk htk
  · intro kv hkv tk htk
    exact d4 hkn ⟨kv.1, tk.Deps.list⟩
      ((Merge.mem_inputs ord workspaces L (fun t => t.Deps) _).2 ⟨kv, hkv, tk, htk, rfl⟩)
  · intro key hkey
    apply d3
    intro hin
    rw [List.mem_map] at hin
    obtain ⟨input, hinput, rfl⟩ := hin
    obtain ⟨kv, hkv, tk, _, rfl⟩ :=
      (Merge.mem_inputs ord workspaces L (fun t => t.Deps) _).1 hinput
    exact hkey (List.mem_map_of_mem Prod.fst hkv)

/-- C6, at the scenario of the specification: variant X has `T.deps = [D1, D2]`,
variant Y has `T.deps = [D1, D3]`; the merged `T.deps` is unconditioned `[D1]`
with `[D2]` under X and `[D3]` under Y. -/
theorem Merge_deps_of_common_target_witness :
    (Examples.bothVariants ≠ [] ∧ Examples.bothVariants.keys.Nodup ∧
      (∀ kv ∈ Examples.bothVariants, kv.2.WF) ∧
      ∀ kv ∈ Examples.bothVariants, ∃ tk, kv.2.lookup Examples.T = some tk ∧
        tk.label = Examples.T) ∧
    (∃ out t, Merge MapOrder.insertion Examples.bothVariants = some out ∧
      out.lookup Examples.T = some t ∧
      (∀ d, d ∈ t.Deps.list ↔
        ∀ kv ∈ Examples.bothVariants, ∀ tk, kv.2.lookup Examples.T = some tk →
          d ∈ tk.Deps.list) ∧
      (∀ kv ∈ Examples.bothVariants, ∀ tk, kv.2.lookup Examples.T = some tk →
        t.Deps.selections.get? kv.1
          = if tk.Deps.list.filter (fun d => decide (d ∉ t.Deps.list)) = [] then none
            else some (tk.Deps.list.filter (fun d => decide (d ∉ t.Deps.list)))) ∧
      (∀ key, key ∉ Examples.bothVariants.keys → t.Deps.selections.get? key = none)) ∧
    ((Merge MapOrder.insertion Examples.bothVariants).bind
        (fun out => out.lookup Examples.T)).map (fun t => t.Deps)
      = some ⟨[Examples.D1], [("X".data, [Examples.D2]), ("Y".data, [Examples.D3])]⟩ :=
  ⟨⟨by decide, by decide, by decide, by decide⟩,
   Merge_deps_of_common_target MapOrder.insertion Examples.bothVariants (by decide) (by decide)
     (by decide) Examples.T (by decide),
   by decide⟩

/-- C9. `Merge` on well-formed variants returns a workspace whose flat source
list holds every path of the source list of any variant and no other path,
holds no path twice, and orders the paths by their first occurrence in the
concatenation of the source lists of the variants in processing order; and
`mergeSlice to_ from_` always starts with `to_`. -/
theorem Merge_sources_union_first_seen (ord : MapOrder) (workspaces : GoMap Str Workspace)
    (hwf : ∀ kv ∈ workspaces, kv.2.WF) :
    ∃ out, Merge ord workspaces = some out ∧
      (∀ p, p ∈ out.sources ↔ ∃ kv ∈ workspaces, p ∈ kv.2.sources) ∧
      out.sources.Nodup ∧
      (∀ a b, a ∈ out.sources → b ∈ out.sources →
        (firstIndex a out.sources < firstIndex b out.sources ↔
          firstIndex a ((Merge.wss ord workspaces).map (fun cws => cws.value.sources)).flatten
            < firstIndex b
                ((Merge.wss ord workspaces).map (fun cws => cws.value.sources)).flatten)) ∧
      ∀ to_ from_ : List Str, to_ <+: mergeSlice to_ from_ := by
  obtain ⟨out, hout, hsrc, _⟩ := Merge.spec ord workspaces hwf
  refine ⟨out, hout, ?_, ?_, ?_, ?_⟩
  · intro p
    rw [hsrc, mem_firstOccurrences, List.mem_flatten]
    constructor
    · rintro ⟨l, hl, hp⟩
      rw [List.mem_map] at hl
      obtain ⟨cws, hc, rfl⟩ := hl
      exact ⟨(cws.key, cws.value), (Merge.mem_wss ord workspaces cws).1 hc, hp⟩
    · rintro ⟨kv, hkv, hp⟩
      exact ⟨kv.2.sources, List.mem_map.2
        ⟨⟨kv.1, kv.2⟩, (Merge.mem_wss ord workspaces ⟨kv.1, kv.2⟩).2 hkv, rfl⟩, hp⟩
  · rw [hsrc]
    exact nodup_firstOccurrences _
  · intro a b ha _
    rw [hsrc] at ha ⊢
    exact firstIndex_firstOccurrences_lt_iff _ a b ((mem_firstOccurrences _ a).1 ha)
  · intro to_ from_
    rw [mergeSlice_eq]
    exact List.prefix_append _ _

/-- C9, at the variants X (sources `p/a.cc`, `p/b.h`) and Y (sources `p/b.h`,
`p/c.cc`): the merged source list is `p/a.cc`, `p/b.h`, `p/c.cc`. -/
theorem Merge_sources_union_first_seen_witness :
    (∀ kv ∈ Examples.bothVariants, kv.2.WF) ∧
    (∃ out, Merge MapOrder.insertion Examples.bothVariants = some out ∧
      (∀ p, p ∈ out.sources ↔ ∃ kv ∈ Examples.bothVariants, p ∈ kv.2.sources) ∧
      out.sources.Nodup ∧
      (∀ a b, a ∈ out.sources → b ∈ out.sources →
        (firstIndex a out.sources < firstIndex b out.sources ↔
          firstIndex a ((Merge.wss MapOrder.insertion Examples.bothVariants).map
              (fun cws => cws.value.sources)).flatten
            < firstIndex b ((Merge.wss MapOrder.insertion Examples.bothVariants).map
                (fun cws => cws.value.sources)).flatten)) ∧
      ∀ to_ from_ : List Str, to_ <+: mergeSlice to_ from_) ∧
    (Merge MapOrder.insertion Examples.bothVariants).map (fun out => out.sources)
      = some ["p/a.cc".data, "p/b.h".data, "p/c.cc".data] :=
  ⟨by decide, Merge_sources_union_first_seen MapOrder.insertion Examples.bothVariants (by decide),
   by decide⟩


/-! ## The order of Go strings -/

theorem strLess_irrefl (a : Str) : strLess a a = false := by
  induction a with
  | nil => rfl
  | cons c cs ih => simp [strLess, ih]

theorem strLess_nil_right (a : Str) : strLess a [] = false := by
  cases a <;> rfl

/-- The order is a strict weak order: what is below `z` is below `y` or `y` is
below `z`. -/
theorem strLess_cotrans (x y z : Str) (h : strLess x z = true) :
    strLess x y = true ∨ strLess y z = true := by
  induction x generalizing y z with
  | nil =>
    cases z with
    | nil => simp [strLess] at h
    | cons c cs =>
      cases y with
      | nil => right; rfl
      | cons b bs => left; rfl
  | cons a as ih =>
    cases z with
    | nil => simp [strLess] at h
    | cons c cs =>
      cases y with
      | nil => right; rfl
      | cons b bs =>
        simp only [strLess] at h ⊢
        by_cases hac : a < c
        · by_cases hab : a < b
          · left; simp [hab]
          · right
            have hbc : b < c := lt_of_le_of_lt (not_lt.1 hab) hac
            simp [hbc]
        · by_cases hca : c < a
          · simp [hac, hca] at h
          · simp only [hac, hca, if_false] at h
            have heq : a = c := le_antisymm (not_lt.1 hca) (not_lt.1 hac)
            subst heq
            by_cases hab : a < b
            · left; simp [hab]
            · by_cases hba : b < a
              · right; simp [hba]
              · rcases ih bs cs h with h1 | h1
                · left; simp [hab, hba, h1]
                · right; simp [hab, hba, h1]

theorem strLess_of_prefix_ne (p s : Str) (hp : p <+: s) (hne : p ≠ s) : strLess p s = true := by
  induction p generalizing s with
  | nil =>
    cases s with
    | nil => exact absurd rfl hne
    | cons c cs => rfl
  | cons a as ih =>
    cases s with
    | nil => simp at hp
    | cons c cs =>
      rw [List.cons_prefix_cons] at hp
      obtain ⟨rfl, hp'⟩ := hp
      have hne' : as ≠ cs := fun e => hne (by rw [e])
      simp [strLess, ih cs hp' hne']

/-- What lies between a string and one of its extensions starts with that string. -/
theorem prefix_of_between (p x s : Str) (hp : p <+: s) (hpx : strLess x p = false)
    (hxs : strLess x s = true) : p <+: x := by
  induction p generalizing x s with
  | nil => exact List.nil_prefix
  | cons a as ih =>
    cases s with
    | nil => simp at hp
    | cons c cs =>
      rw [List.cons_prefix_cons] at hp
      obtain ⟨rfl, hp'⟩ := hp
      cases x with
      | nil => simp [strLess] at hpx
      | cons b bs =>
        simp only [strLess] at hpx hxs
        by_cases hba : b < a
        · simp [hba] at hpx
        · by_cases hab : a < b
          · simp [hba, hab] at hxs
          · have heq : a = b := le_antisymm (not_lt.1 hba) (not_lt.1 hab)
            subst heq
            simp only [lt_self_iff_false, if_false] at hpx hxs
            rw [List.cons_prefix_cons]
            exact ⟨rfl, ih bs cs hp' hpx hxs⟩


/-! ## `sort.Search` -/

theorem sort.Search.loop_bounds (f : Nat → Bool) (fuel i j : Nat) (hij : i ≤ j) :
    i ≤ sort.Search.loop f fuel i j ∧ sort.Search.loop f fuel i j ≤ j := by
  induction fuel generalizing i j with
  | zero => exact ⟨Nat.le_refl _, hij⟩
  | succ fuel ih =>
    unfold sort.Search.loop
    by_cases hlt : i < j
    · simp only [hlt, if_true]
      have h1 : i ≤ (i + j) / 2 := by omega
      have h2 : (i + j) / 2 < j := by omega
      cases hf : f ((i + j) / 2) with
      | false =>
        simp only [Bool.not_false, if_true]
        have := ih ((i + j) / 2 + 1) j (by omega)
        omega
      | true =>
        simp only [Bool.not_true, Bool.false_eq_true, if_false]
        have := ih i ((i + j) / 2) h1
        omega
    · simp only [hlt, if_false]
      exact ⟨Nat.le_refl _, hij⟩

/-- Binary search on a predicate that is monotone below `n`: the result
separates the indices where the predicate fails from those where it holds. -/
theorem sort.Search.loop_separates (f : Nat → Bool) (n : Nat)
    (hmono : ∀ k k1, k ≤ k1 → k1 < n → f k = true → f k1 = true)
    (fuel i j : Nat) (hij : i ≤ j) (hjn : j ≤ n) (hfuel : j - i ≤ fuel)
    (hlo : ∀ k, k < i → f k = false) (hhi : ∀ k, j ≤ k → k < n → f k = true) :
    (∀ k, k < sort.Search.loop f fuel i j → f k = false) ∧
    (∀ k, sort.Search.loop f fuel i j ≤ k → k < n → f k = true) := by
  induction fuel generalizing i j with
  | zero =>
    have : i = j := by omega
    subst this
    exact ⟨hlo, hhi⟩
  | succ fuel ih =>
    unfold sort.Search.loop
    by_cases hlt : i < j
    · simp only [hlt, if_true]
      have h1 : i ≤ (i + j) / 2 := by omega
      have h2 : (i + j) / 2 < j := by omega
      cases hf : f ((i + j) / 2) with
      | false =>
        simp only [Bool.not_false, if_true]
        apply ih ((i + j) / 2 + 1) j (by omega) hjn (by omega) _ hhi
        intro k hk
        cases hfk : f k with
        | false => rfl
        | true =>
          have := hmono k ((i + j) / 2) (by omega) (by omega) hfk
          rw [hf] at this
          exact absurd this (by simp)
      | true =>
        simp only [Bool.not_true, Bool.false_eq_true, if_false]
        apply ih i ((i + j) / 2) h1 (by omega) (by omega) hlo
        intro k hk hkn
        exact hmono _ k hk hkn hf
    · simp only [hlt, if_false]
      have : i = j := by omega
      subst this
      exact ⟨hlo, hhi⟩

theorem sort.SearchStrings_le_length (a : List Str) (x : Str) :
    sort.SearchStrings a x ≤ a.length :=
  (sort.Search.loop_bounds _ a.length 0 a.length (Nat.zero_le _)).2

/-- In a sorted list, `sort.SearchStrings a x` is the number of strings below
`x`: they are the ones before the returned index. -/
theorem sort.SearchStrings_spec (a : List Str) (x : Str)
    (hsorted : a.Pairwise (fun p q => strLess q p = false)) :
    (∀ k, k < sort.SearchStrings a x → strLess (a.getD k []) x = true) ∧
    (∀ k, sort.SearchStrings a x ≤ k → k < a.length → strLess (a.getD k []) x = false) := by
  have hidx := List.pairwise_iff_getElem.1 hsorted
  have hmono : ∀ k k1, k ≤ k1 → k1 < a.length →
      (!(strLess (a.getD k []) x)) = true → (!(strLess (a.getD k1 []) x)) = true := by
    intro k k1 hk hk1 hfk
    rcases Nat.eq_or_lt_of_le hk with rfl | hlt
    · exact hfk
    · have hkl : k < a.length := by omega
      have hs := hidx k k1 hkl hk1 hlt
      rw [← List.getD_eq_getElem a [] hkl, ← List.getD_eq_getElem a [] hk1] at hs
      cases h1 : strLess (a.getD k1 []) x with
      | false => rfl
      | true =>
        rcases strLess_cotrans _ (a.getD k []) _ h1 with h2 | h2
        · rw [hs] at h2; exact absurd h2 (by simp)
        · rw [h2] at hfk; exact absurd hfk (by simp)
  have hspec := sort.Search.loop_separates (fun i => !(strLess (a.getD i []) x)) a.length hmono
    a.length 0 a.length (Nat.zero_le _) (Nat.le_refl _) (by omega)
    (fun k hk => absurd hk (Nat.not_lt_zero k)) (fun k hk hkn => absurd hkn (by omega))
  constructor
  · intro k hk
    have := hspec.1 k hk
    simpa using this
  · intro k hk hkn
    have := hspec.2 k hk hkn
    simpa using this

/-- The candidate of `resolveSource` in a sorted list: the last string below
the source, which is the greatest of the strings below the source. -/
theorem candidate_spec (dirs : List Str) (source : Str)
    (hsorted : dirs.Pairwise (fun p q => strLess q p = false)) :
    (sort.SearchStrings dirs source = 0 → ∀ d ∈ dirs, strLess d source = false) ∧
    (sort.SearchStrings dirs source ≠ 0 →
      dirs.getD (sort.SearchStrings dirs source - 1) [] ∈ dirs ∧
      strLess (dirs.getD (sort.SearchStrings dirs source - 1) []) source = true ∧
      ∀ d ∈ dirs, strLess d source = true →
        strLess (dirs.getD (sort.SearchStrings dirs source - 1) []) d = false) := by
  obtain ⟨hlo, hhi⟩ := sort.SearchStrings_spec dirs source hsorted
  have hle := sort.SearchStrings_le_length dirs source
  have hidx := List.pairwise_iff_getElem.1 hsorted
  constructor
  · intro h0 d hd
    obtain ⟨k, hk, rfl⟩ := List.mem_iff_getElem.1 hd
    rw [← List.getD_eq_getElem dirs [] hk]
    exact hhi k (by omega) hk
  · intro hne
    have hc : sort.SearchStrings dirs source - 1 < dirs.length := by omega
    refine ⟨?_, hlo _ (by omega), ?_⟩
    · rw [List.getD_eq_getElem dirs [] hc]
      exact List.getElem_mem hc
    · intro d hd hds
      obtain ⟨k, hk, rfl⟩ := List.mem_iff_getElem.1 hd
      have hki : k < sort.SearchStrings dirs source := by
        by_contra hge
        have := hhi k (by omega) hk
        rw [List.getD_eq_getElem dirs [] hk, hds] at this
        exact absurd this (by simp)
      rcases Nat.eq_or_lt_of_le (show k ≤ sort.SearchStrings dirs source - 1 by omega) with
        heq | hlt
      · rw [List.getD_eq_getElem dirs [] hc]
        have : dirs[sort.SearchStrings dirs source - 1] = dirs[k] := by
          congr 1
          exact heq.symm
        rw [this]
        exact strLess_irrefl _
      · rw [List.getD_eq_getElem dirs [] hc]
        exact hidx k _ hk hc hlt


/-! ## `path.Split`, `strings.TrimRight`, `strings.CutPrefix` -/

theorem path.lastSlash_spec (p : Str) :
    (path.lastSlash p = -1 ∧ '/' ∉ p) ∨
    (∃ before after, p = before ++ '/' :: after ∧ '/' ∉ after ∧
      path.lastSlash p = (before.length : Int)) := by
  induction p with
  | nil => left; exact ⟨rfl, List.not_mem_nil _⟩
  | cons c cs ih =>
    rcases ih with ⟨hr, hno⟩ | ⟨before, after, hcs, hno, hr⟩
    · by_cases hc : c = '/'
      · right
        refine ⟨[], cs, by simp [hc], hno, ?_⟩
        simp [path.lastSlash, hr, hc]
      · left
        refine ⟨by simp [path.lastSlash, hr, hc], ?_⟩
        intro hmem
        rcases List.mem_cons.1 hmem with h | h
        · exact hc h.symm
        · exact hno h
    · right
      refine ⟨c :: before, after, by simp [hcs], hno, ?_⟩
      have hnn : (0 : Int) ≤ (before.length : Int) := Int.ofNat_nonneg _
      simp only [path.lastSlash, hr, hnn, if_true, List.length_cons]
      push_cast
      rfl

/-- The function `path.Split` cuts right after the last slash. -/
theorem path.Split_spec (p : Str) :
    ('/' ∉ p ∧ path.Split p = ([], p)) ∨
    (∃ before after, p = before ++ '/' :: after ∧ '/' ∉ after ∧
      path.Split p = (before ++ ['/'], after)) := by
  rcases path.lastSlash_spec p with ⟨hr, hno⟩ | ⟨before, after, hp, hno, hr⟩
  · left
    refine ⟨hno, ?_⟩
    simp [path.Split, hr]
  · right
    refine ⟨before, after, hp, hno, ?_⟩
    have h1 : ((before.length : Int) + 1).toNat = before.length + 1 := by omega
    simp only [path.Split, hr, h1]
    subst hp
    have e : before ++ '/' :: after = (before ++ ['/']) ++ after := by simp
    rw [e]
    have hl : (before ++ ['/']).length = before.length + 1 := by simp
    rw [← hl, List.take_left, List.drop_left]

theorem dropWhile_slash_spec (r : Str) :
    ∃ k, r = List.replicate k '/' ++ r.dropWhile (fun c => decide (c = '/')) ∧
      (r.dropWhile (fun c => decide (c = '/'))).head? ≠ some '/' := by
  induction r with
  | nil => exact ⟨0, rfl, by simp⟩
  | cons c cs ih =>
    by_cases hc : c = '/'
    · obtain ⟨k, hk, hh⟩ := ih
      refine ⟨k + 1, ?_, ?_⟩
      · subst hc
        simp only [List.dropWhile_cons, decide_True, if_true, List.replicate_succ,
          List.cons_append]
        rw [← hk]
      · subst hc
        simpa [List.dropWhile_cons] using hh
    · refine ⟨0, ?_, ?_⟩
      · simp [List.dropWhile_cons, hc]
      · simp [List.dropWhile_cons, hc]

theorem strings.TrimRight_slash_eq (s : Str) :
    strings.TrimRight s ['/'] = (s.reverse.dropWhile (fun c => decide (c = '/'))).reverse := by
  unfold strings.TrimRight
  congr 2
  funext c
  simp

/-- The result of `strings.TrimRight s "/"` is `s` without the slashes at its end. -/
theorem strings.TrimRight_slash_spec (s : Str) :
    ∃ k, s = strings.TrimRight s ['/'] ++ List.replicate k '/' ∧
      (strings.TrimRight s ['/']).getLast? ≠ some '/' := by
  obtain ⟨k, hk, hh⟩ := dropWhile_slash_spec s.reverse
  rw [strings.TrimRight_slash_eq]
  refine ⟨k, ?_, ?_⟩
  · have := congrArg List.reverse hk
    simpa using this
  · simpa [List.getLast?_reverse] using hh

theorem strings.HasPrefix_iff (s pre : Str) : strings.HasPrefix s pre = true ↔ pre <+: s := by
  unfold strings.HasPrefix
  exact List.isPrefixOf_iff_prefix

theorem strings.CutPrefix_of_prefix (s pre : Str) (h : pre <+: s) :
    strings.CutPrefix s pre = (s.drop pre.length, true) := by
  simp [strings.CutPrefix, (strings.HasPrefix_iff s pre).2 h]

theorem strings.CutPrefix_of_not_prefix (s pre : Str) (h : ¬ pre <+: s) :
    strings.CutPrefix s pre = (s, false) := by
  have : strings.HasPrefix s pre = false := by
    cases hb : strings.HasPrefix s pre with
    | false => rfl
    | true => exact absurd ((strings.HasPrefix_iff s pre).1 hb) h
  simp [strings.CutPrefix, this]

/-- The orphan label: the target is what follows the last slash and the
package is what precedes it, without the slashes at its end. -/
theorem resolveOrphanSource_spec (source : Str) :
    (resolveOrphanSource source).Repository = [] ∧
    '/' ∉ (resolveOrphanSource source).Target ∧
    (('/' ∉ source ∧ (resolveOrphanSource source).Package = [] ∧
        (resolveOrphanSource source).Target = source) ∨
      (∃ k, source = (resolveOrphanSource source).Package ++ List.replicate (k + 1) '/'
            ++ (resolveOrphanSource source).Target ∧
          (resolveOrphanSource source).Package.getLast? ≠ some '/')) := by
  rcases path.Split_spec source with ⟨hno, hs⟩ | ⟨before, after, hp, hno, hs⟩
  · have hlab : resolveOrphanSource source = ⟨[], [], source⟩ := by
      simp [resolveOrphanSource, hs, strings.TrimRight]
    rw [hlab]
    exact ⟨rfl, hno, Or.inl ⟨hno, rfl, rfl⟩⟩
  · have hlab : resolveOrphanSource source
        = ⟨[], strings.TrimRight (before ++ ['/']) ['/'], after⟩ := by
      simp [resolveOrphanSource, hs]
    rw [hlab]
    refine ⟨rfl, hno, Or.inr ?_⟩
    obtain ⟨k, hk, hlast⟩ := strings.TrimRight_slash_spec (before ++ ['/'])
    cases k with
    | zero =>
      exfalso
      simp only [List.replicate_zero, List.append_nil] at hk
      rw [← hk] at hlast
      simp at hlast
    | succ k =>
      refine ⟨k, ?_, hlast⟩
      simp only []
      rw [← hk, hp]
      simp


/-! ## `resolveSource` -/

theorem longestMatchingPrefix.fold_of_no_match (source : Str) (dirs : List Str)
    (best : Option Str) (h : ∀ d ∈ dirs, ¬ d <+: source) :
    dirs.foldl
      (fun best d =>
        if d.isPrefixOf source then
          match best with
          | none => some d
          | some b => if b.length < d.length then some d else some b
        else best)
      best = best := by
  induction dirs generalizing best with
  | nil => rfl
  | cons d ds ih =>
    have hd : d.isPrefixOf source = false := by
      cases hb : d.isPrefixOf source with
      | false => rfl
      | true => exact absurd (List.isPrefixOf_iff_prefix.1 hb) (h d (List.mem_cons_self _ _))
    rw [List.foldl_cons]
    simp only [hd, Bool.false_eq_true, if_false]
    exact ih best (fun x hx => h x (List.mem_cons_of_mem _ hx))

theorem longestMatchingPrefix.fold_some (source : Str) (dirs : List Str)
    (best : Option Str) (r : Str)
    (h : dirs.foldl
      (fun best d =>
        if d.isPrefixOf source then
          match best with
          | none => some d
          | some b => if b.length < d.length then some d else some b
        else best)
      best = some r) :
    best = some r ∨ (r ∈ dirs ∧ r <+: source) := by
  induction dirs generalizing best with
  | nil => left; exact h
  | cons d ds ih =>
    rw [List.foldl_cons] at h
    rcases ih _ h with h1 | ⟨h1, h2⟩
    · by_cases hd : d.isPrefixOf source = true
      · simp only [hd, if_true] at h1
        cases best with
        | none =>
          simp only [Option.some.injEq] at h1
          subst h1
          right
          exact ⟨List.mem_cons_self _ _, List.isPrefixOf_iff_prefix.1 hd⟩
        | some b =>
          simp only at h1
          split at h1
          · simp only [Option.some.injEq] at h1
            subst h1
            right
            exact ⟨List.mem_cons_self _ _, List.isPrefixOf_iff_prefix.1 hd⟩
          · left; exact h1
      · simp only [hd, if_false] at h1
        left; exact h1
    · right
      exact ⟨List.mem_cons_of_mem _ h1, h2⟩

theorem longestMatchingPrefix.fold_none (source : Str) (dirs : List Str)
    (best : Option Str)
    (h : dirs.foldl
      (fun best d =>
        if d.isPrefixOf source then
          match best with
          | none => some d
          | some b => if b.length < d.length then some d else some b
        else best)
      best = none) :
    best = none ∧ ∀ d ∈ dirs, ¬ d <+: source := by
  induction dirs generalizing best with
  | nil => exact ⟨h, fun d hd => absurd hd (List.not_mem_nil d)⟩
  | cons d ds ih =>
    rw [List.foldl_cons] at h
    obtain ⟨h1, h2⟩ := ih _ h
    by_cases hd : d.isPrefixOf source = true
    · simp only [hd, if_true] at h1
      cases best with
      | none => simp at h1
      | some b =>
        simp only at h1
        split at h1 <;> simp at h1
    · simp only [hd, if_false] at h1
      refine ⟨h1, ?_⟩
      intro x hx
      rcases List.mem_cons.1 hx with rfl | hx'
      · intro hp
        exact hd (List.isPrefixOf_iff_prefix.2 hp)
      · exact h2 x hx'

theorem resolveSource_of_no_match (dirs : List Str) (source : Str)
    (hno : ∀ d ∈ dirs, ¬ d <+: source) :
    resolveSource dirs source = resolveOrphanSource source := by
  unfold resolveSource
  by_cases h0 : sort.SearchStrings dirs source = 0
  · simp only [h0, if_true]
  · simp only [h0, if_false]
    have hle := sort.SearchStrings_le_length dirs source
    have hc : sort.SearchStrings dirs source - 1 < dirs.length := by omega
    have hmem : dirs.getD (sort.SearchStrings dirs source - 1) [] ∈ dirs := by
      rw [List.getD_eq_getElem dirs [] hc]
      exact List.getElem_mem hc
    rw [strings.CutPrefix_of_not_prefix _ _ (hno _ hmem)]

/-- C8. When the source starts with none of the strings of the list (sorted
or not), `resolveSource` returns the orphan label: the target is the part of
the path after its last `/` and the package is the part before the last `/`
without the `/` at its end; a path without `/` gets the empty package. -/
theorem resolveSource_orphan_of_no_match (dirs : List Str) (source : Str)
    (hno : ∀ d ∈ dirs, ¬ d <+: source) :
    resolveSource dirs source = resolveOrphanSource source ∧
    (resolveSource dirs source).Repository = [] ∧
    '/' ∉ (resolveSource dirs source).Target ∧
    (('/' ∉ source ∧ (resolveSource dirs source).Package = [] ∧
        (resolveSource dirs source).Target = source) ∨
      (∃ k, source = (resolveSource dirs source).Package ++ List.replicate (k + 1) '/'
            ++ (resolveSource dirs source).Target ∧
          (resolveSource dirs source).Package.getLast? ≠ some '/')) := by
  rw [resolveSource_of_no_match dirs source hno]
  exact ⟨rfl, resolveOrphanSource_spec source⟩

/-- C8, at the scenario of the specification: `z/w.cc` against the prefixes
`a/` and `a/b/` gives the orphan label with package `z` and target `w.cc`. -/
theorem resolveSource_orphan_of_no_match_witness :
    (∀ d ∈ ["a/".data, "a/b/".data], ¬ d <+: "z/w.cc".data) ∧
    (resolveSource ["a/".data, "a/b/".data] "z/w.cc".data
        = resolveOrphanSource "z/w.cc".data ∧
      (resolveSource ["a/".data, "a/b/".data] "z/w.cc".data).Repository = [] ∧
      '/' ∉ (resolveSource ["a/".data, "a/b/".data] "z/w.cc".data).Target ∧
      (('/' ∉ "z/w.cc".data ∧
          (resolveSource ["a/".data, "a/b/".data] "z/w.cc".data).Package = [] ∧
          (resolveSource ["a/".data, "a/b/".data] "z/w.cc".data).Target = "z/w.cc".data) ∨
        (∃ k, "z/w.cc".data
              = (resolveSource ["a/".data, "a/b/".data] "z/w.cc".data).Package
                ++ List.replicate (k + 1) '/'
                ++ (resolveSource ["a/".data, "a/b/".data] "z/w.cc".data).Target ∧
            (resolveSource ["a/".data, "a/b/".data] "z/w.cc".data).Package.getLast?
              ≠ some '/'))) ∧
    resolveSource ["a/".data, "a/b/".data] "z/w.cc".data = ⟨[], "z".data, "w.cc".data⟩ :=
  ⟨by decide,
   resolveSource_orphan_of_no_match ["a/".data, "a/b/".data] "z/w.cc".data (by decide),
   by decide⟩

/-- C7. For every lexicographically sorted list of package prefixes in which
no prefix is a proper prefix of another, and every source path that is not
itself one of the prefixes, `resolveSource` returns the label that a
brute-force scan for the longest matching prefix gives: the package is that
prefix with the separator trimmed and the target is the rest of the path, and
the label is the orphan label when no prefix matches.  The prefixes need not
even end in `/` for this. -/
theorem resolveSource_eq_bruteForceResolve (dirs : List Str) (source : Str)
    (hsorted : dirs.Pairwise (fun p q => strLess q p = false))
    (hnest : ∀ p ∈ dirs, ∀ q ∈ dirs, p <+: q → p = q) (hsrc : source ∉ dirs) :
    resolveSource dirs source = bruteForceResolve dirs source := by
  obtain ⟨hzero, hpos⟩ := candidate_spec dirs source hsorted
  have hless : ∀ d ∈ dirs, d <+: source → strLess d source = true := by
    intro d hd hp
    apply strLess_of_prefix_ne d source hp
    intro e
    exact hsrc (e ▸ hd)
  by_cases h0 : sort.SearchStrings dirs source = 0
  · have hno : ∀ d ∈ dirs, ¬ d <+: source := by
      intro d hd hp
      have h1 := hzero h0 d hd
      rw [hless d hd hp] at h1
      exact absurd h1 (by simp)
    rw [resolveSource_of_no_match dirs source hno]
    unfold bruteForceResolve longestMatchingPrefix
    rw [longestMatchingPrefix.fold_of_no_match source dirs none hno]
  · obtain ⟨hcmem, hclt, hcmax⟩ := hpos h0
    have huniq : ∀ d ∈ dirs, d <+: source →
        d = dirs.getD (sort.SearchStrings dirs source - 1) [] := by
      intro d hd hp
      have h1 := hcmax d hd (hless d hd hp)
      exact hnest d hd _ hcmem (prefix_of_between d _ source hp h1 hclt)
    by_cases hcp : dirs.getD (sort.SearchStrings dirs source - 1) [] <+: source
    · have hcode : resolveSource dirs source
          = ⟨[], strings.TrimRight (dirs.getD (sort.SearchStrings dirs source - 1) []) ['/'],
              source.drop (dirs.getD (sort.SearchStrings dirs source - 1) []).length⟩ := by
        unfold resolveSource
        simp only [h0, if_false]
        rw [strings.CutPrefix_of_prefix _ _ hcp]
      rw [hcode]
      unfold bruteForceResolve
      cases hl : longestMatchingPrefix dirs source with
      | none =>
        exfalso
        exact (longestMatchingPrefix.fold_none source dirs none hl).2 _ hcmem hcp
      | some r =>
        rcases longestMatchingPrefix.fold_some source dirs none r hl with h1 | ⟨h1, h2⟩
        · simp at h1
        · rw [huniq r h1 h2]
    · have hno : ∀ d ∈ dirs, ¬ d <+: source := by
        intro d hd hp
        exact hcp (huniq d hd hp ▸ hp)
      rw [resolveSource_of_no_match dirs source hno]
      unfold bruteForceResolve longestMatchingPrefix
      rw [longestMatchingPrefix.fold_of_no_match source dirs none hno]

/-- C7, at the prefixes `a/` and `b/c/` and the source `b/c/x.cc`: both the
binary search and the brute-force scan give package `b/c` and target `x.cc`. -/
theorem resolveSource_eq_bruteForceResolve_witness :
    (["a/".data, "b/c/".data].Pairwise (fun p q => strLess q p = false) ∧
      (∀ p ∈ ["a/".data, "b/c/".data], ∀ q ∈ ["a/".data, "b/c/".data], p <+: q → p = q) ∧
      "b/c/x.cc".data ∉ ["a/".data, "b/c/".data]) ∧
    resolveSource ["a/".data, "b/c/".data] "b/c/x.cc".data
      = bruteForceResolve ["a/".data, "b/c/".data] "b/c/x.cc".data ∧
    resolveSource ["a/".data, "b/c/".data] "b/c/x.cc".data = ⟨[], "b/c".data, "x.cc".data⟩ :=
  ⟨⟨by decide, by decide, by decide⟩,
   resolveSource_eq_bruteForceResolve ["a/".data, "b/c/".data] "b/c/x.cc".data
     (by decide) (by decide) (by decide),
   by decide⟩


/-! ## The worklist loop of `loadDesc` -/

theorem getD_set_true (m : GoMap Label Bool) (k l : Label) :
    (m.set k true).getD l false = true ↔ l = k ∨ m.getD l false = true := by
  unfold GoMap.getD
  rw [GoMap.get?_set]
  by_cases h : k = l
  · subst h; simp
  · have h1 : ¬ l = k := fun e => h e.symm
    simp [h, h1]

/-- One round of the dependency loop keeps the worklist invariant, keeps what
waits in the queue, and leaves the resolved dependency popped or waiting when
it is a pass-through dependency. -/
theorem loadDesc.handleDep_spec (format : Label → Str) (R : Label → Prop) (V : List Label)
    (ds : loadDesc.DepState) (dep : Label)
    (hinv : loadDesc.QueueInv R V ds.queue ds.queued)
    (hres : (resolve format dep).isSome)
    (hreach : ∀ d1, resolve format dep = some (d1, true) → d1 ≠ Label.zero →
      d1.Repository = [] → R d1) :
    ∃ ds1, loadDesc.handleDep format ds dep = some ds1 ∧
      loadDesc.QueueInv R V ds1.queue ds1.queued ∧
      (∀ l ∈ ds.queue, l ∈ ds1.queue) ∧
      (∀ d1, resolve format dep = some (d1, true) → d1 ≠ Label.zero →
        d1.Repository = [] → d1 ∈ ds1.queue ∨ d1 ∈ V) := by
  obtain ⟨hnd, hq, hmark, hmarked⟩ := hinv
  cases hr : resolve format dep with
  | none => rw [hr] at hres; simp at hres
  | some r =>
    obtain ⟨d1, flag⟩ := r
    unfold loadDesc.handleDep
    simp only [hr]
    by_cases hz : d1 = Label.zero
    · refine ⟨ds, by simp [hz], ⟨hnd, hq, hmark, hmarked⟩, fun l hl => hl, ?_⟩
      intro d2 h2 hne _
      simp only [Option.some.injEq, Prod.mk.injEq] at h2
      exact absurd (h2.1 ▸ hz) hne
    · simp only [hz, if_false]
      cases flag with
      | false =>
        refine ⟨{ ds with target := ds.target.AppendDep d1 }, by simp,
          ⟨hnd, hq, hmark, hmarked⟩, fun l hl => hl, ?_⟩
        intro d2 h2 _ _
        simp at h2
      | true =>
        simp only [if_true]
        by_cases hqd : ds.queued.getD d1 false = true
        · refine ⟨{ ds with target := ds.target.AppendDep d1 }, by simp [hqd],
            ⟨hnd, hq, hmark, hmarked⟩, fun l hl => hl, ?_⟩
          intro d2 h2 _ hrepo
          simp only [Option.some.injEq, Prod.mk.injEq, and_true] at h2
          subst h2
          exact hmarked d1 hqd hrepo
        · simp only [hqd, Bool.false_eq_true, if_false]
          have hnq : d1 ∉ ds.queue := fun h => hqd (hmark d1 (Or.inl h))
          have hnv : d1 ∉ V := fun h => hqd (hmark d1 (Or.inr h))
          by_cases hrepo : d1.Repository = []
          · refine ⟨(⟨ds.target.AppendDep d1, ds.queue ++ [d1], ds.queued.set d1 true⟩ :
              loadDesc.DepState), by simp [hrepo], ⟨?_, ?_, ?_, ?_⟩, ?_, ?_⟩
            · exact List.Nodup.append hnd (List.nodup_singleton d1) (by simpa using hnq)
            · intro l hl
              rcases List.mem_append.1 hl with h | h
              · exact hq l h
              · have : l = d1 := by simpa using h
                subst this
                exact ⟨hnv, hreach l hr hz hrepo, hrepo⟩
            · intro l hl
              rw [getD_set_true]
              rcases hl with h | h
              · rcases List.mem_append.1 h with h1 | h1
                · exact Or.inr (hmark l (Or.inl h1))
                · exact Or.inl (by simpa using h1)
              · exact Or.inr (hmark l (Or.inr h))
            · intro l hl hlr
              rw [getD_set_true] at hl
              rcases hl with h | h
              · exact Or.inl (List.mem_append.2 (Or.inr (by simp [h])))
              · rcases hmarked l h hlr with h1 | h1
                · exact Or.inl (List.mem_append.2 (Or.inl h1))
                · exact Or.inr h1
            · intro l hl
              exact List.mem_append.2 (Or.inl hl)
            · intro d2 h2 _ _
              simp only [Option.some.injEq, Prod.mk.injEq, and_true] at h2
              subst h2
              exact Or.inl (List.mem_append.2 (Or.inr (by simp)))
          · refine ⟨(⟨ds.target.AppendDep d1, ds.queue, ds.queued.set d1 true⟩ :
              loadDesc.DepState), by simp [hrepo], ⟨hnd, hq, ?_, ?_⟩, fun l hl => hl, ?_⟩
            · intro l hl
              rw [getD_set_true]
              exact Or.inr (hmark l hl)
            · intro l hl hlr
              rw [getD_set_true] at hl
              rcases hl with h | h
              · exact absurd (h ▸ hlr) hrepo
              · exact hmarked l h hlr
            · intro d2 h2 _ hrepo2
              simp only [Option.some.injEq, Prod.mk.injEq, and_true] at h2
              subst h2
              exact absurd hrepo2 hrepo

/-- The dependency loop of `loadDesc` over all dependencies of a target. -/
theorem loadDesc.foldlM_handleDep (format : Label → Str) (R : Label → Prop) (V : List Label)
    (deps : List Label) (ds : loadDesc.DepState)
    (hinv : loadDesc.QueueInv R V ds.queue ds.queued)
    (hres : ∀ dep ∈ deps, (resolve format dep).isSome)
    (hreach : ∀ dep ∈ deps, ∀ d1, resolve format dep = some (d1, true) → d1 ≠ Label.zero →
      d1.Repository = [] → R d1) :
    ∃ ds1, deps.foldlM (loadDesc.handleDep format) ds = some ds1 ∧
      loadDesc.QueueInv R V ds1.queue ds1.queued ∧
      (∀ l ∈ ds.queue, l ∈ ds1.queue) ∧
      (∀ dep ∈ deps, ∀ d1, resolve format dep = some (d1, true) → d1 ≠ Label.zero →
        d1.Repository = [] → d1 ∈ ds1.queue ∨ d1 ∈ V) := by
  induction deps generalizing ds with
  | nil =>
    exact ⟨ds, rfl, hinv, fun l hl => hl, fun dep hd => absurd hd (List.not_mem_nil dep)⟩
  | cons dep deps ih =>
    obtain ⟨ds1, h1, hinv1, hmono1, hcov1⟩ := loadDesc.handleDep_spec format R V ds dep hinv
      (hres dep (List.mem_cons_self _ _)) (hreach dep (List.mem_cons_self _ _))
    obtain ⟨ds2, h2, hinv2, hmono2, hcov2⟩ := ih ds1 hinv1
      (fun d hd => hres d (List.mem_cons_of_mem _ hd))
      (fun d hd => hreach d (List.mem_cons_of_mem _ hd))
    refine ⟨ds2, ?_, hinv2, fun l hl => hmono2 l (hmono1 l hl), ?_⟩
    · rw [List.foldlM_cons, h1]
      exact h2
    · intro d hd d1 hr hz hrepo
      rcases List.mem_cons.1 hd with rfl | hd'
      · rcases hcov1 d1 hr hz hrepo with h | h
        · exact Or.inl (hmono2 d1 h)
        · exact Or.inr h
      · exact hcov2 d hd' d1 hr hz hrepo


theorem Workspace.packages_foldl_AddSource (srcs : List Str) (w : Workspace)
    (t : Exporter.Target) :
    (srcs.foldl (fun acc source => Workspace.AddSource acc.1 acc.2 source) (w, t)).1.packages
      = w.packages := by
  induction srcs generalizing w t with
  | nil => rfl
  | cons x xs ih =>
    rw [List.foldl_cons]
    exact ih _ _

theorem Workspace.lookup_congr (w1 w2 : Workspace) (h : w1.packages = w2.packages)
    (l : Label) : w1.lookup l = w2.lookup l := by
  unfold Workspace.lookup
  rw [h]

theorem Workspace.lookup_same_slot (w : Workspace) (l1 l2 : Label)
    (h : l1.Package = l2.Package ∧ l1.Target = l2.Target) : w.lookup l1 = w.lookup l2 := by
  unfold Workspace.lookup
  rw [h.1, h.2]

/-- One round of the worklist loop: it does not abort on a label whose entry
is usable, keeps the loop invariant and pops one more label. -/
theorem loadDesc.step_spec (format : Label → Str) (gnTargets : GoMap Label gn.Target)
    (roots : List Label) (s : loadDesc.State)
    (hinv : loadDesc.Inv (Reachable format gnTargets roots) (passThrough format gnTargets)
      roots s)
    (hq : s.queue ≠ [])
    (hgraph : ∀ l, Reachable format gnTargets roots l →
      ∃ gt, gnTargets.get? l = some gt ∧ (loadDesc.targetType gt.Type_).isSome ∧
        ∀ d ∈ gt.Deps, (resolve format d).isSome) :
    ∃ s1, loadDesc.step format gnTargets s = some s1 ∧
      loadDesc.Inv (Reachable format gnTargets roots) (passThrough format gnTargets)
        roots s1 ∧
      s1.visited.length = s.visited.length + 1 := by
  obtain ⟨hvnd, ⟨hqnd, hqel, hmark, hmarked⟩, hroots, hclosed, hvR, hvws⟩ := hinv
  cases hlast : s.queue.getLast? with
  | none => exact absurd (List.getLast?_eq_none_iff.1 hlast) hq
  | some label =>
    have hsplit : s.queue.dropLast ++ [label] = s.queue :=
      List.dropLast_append_getLast? label (by simp [hlast])
    have hlq : label ∈ s.queue := by rw [← hsplit]; simp
    obtain ⟨hlv, hlR, hlrepo⟩ := hqel label hlq
    have hqnd' : (s.queue.dropLast ++ [label]).Nodup := by rw [hsplit]; exact hqnd
    have hldrop : label ∉ s.queue.dropLast := by
      intro h
      have := (List.nodup_append.1 hqnd').2.2
      exact this h (by simp)
    obtain ⟨gt, hgt, hty, hres⟩ := hgraph label hlR
    obtain ⟨ws1, target, hT, _, hpk, _, hother⟩ := Workspace.Target_spec s.ws label hlrepo
    have hinv0 : loadDesc.QueueInv (Reachable format gnTargets roots) (s.visited ++ [label])
        s.queue.dropLast s.queued := by
      refine ⟨(List.nodup_append.1 hqnd').1, ?_, ?_, ?_⟩
      · intro l hl
        have hlq' : l ∈ s.queue := by rw [← hsplit]; exact List.mem_append.2 (Or.inl hl)
        obtain ⟨h1, h2, h3⟩ := hqel l hlq'
        refine ⟨?_, h2, h3⟩
        intro hmem
        rcases List.mem_append.1 hmem with h | h
        · exact h1 h
        · have : l = label := by simpa using h
          exact hldrop (this ▸ hl)
      · intro l hl
        apply hmark
        rcases hl with h | h
        · left; rw [← hsplit]; exact List.mem_append.2 (Or.inl h)
        · rcases List.mem_append.1 h with h1 | h1
          · right; exact h1
          · left
            have : l = label := by simpa using h1
            rw [this]; exact hlq
      · intro l hl hr
        rcases hmarked l hl hr with h | h
        · rw [← hsplit] at h
          rcases List.mem_append.1 h with h1 | h1
          · left; exact h1
          · right; exact List.mem_append.2 (Or.inr h1)
        · right; exact List.mem_append.2 (Or.inl h)
    obtain ⟨d, hfold, hinv1, hmono, hcov⟩ := loadDesc.foldlM_handleDep format
      (Reachable format gnTargets roots) (s.visited ++ [label]) gt.Deps
      ⟨target, s.queue.dropLast, s.queued⟩ hinv0 hres
      (fun dep hdep d1 hr hz hrepo =>
        Reachable.step hlR ⟨gt, hgt, dep, hdep, hr, hz, hrepo⟩)
    cases htyeq : loadDesc.targetType gt.Type_ with
    | none => rw [htyeq] at hty; simp at hty
    | some ty =>
      have hstep : loadDesc.step format gnTargets s = some
          { queue := d.queue
            queued := d.queued
            numBazelTargets := s.numBazelTargets + 1
            ws := Workspace.store
              (gt.Public.foldl (fun acc source => Workspace.AddSource acc.1 acc.2 source)
                (gt.Sources.foldl (fun acc source => Workspace.AddSource acc.1 acc.2 source)
                  (ws1, { d.target with Type_ := ty }))).1 label
              (gt.Public.foldl (fun acc source => Workspace.AddSource acc.1 acc.2 source)
                (gt.Sources.foldl (fun acc source => Workspace.AddSource acc.1 acc.2 source)
                  (ws1, { d.target with Type_ := ty }))).2
            visited := s.visited ++ [label] } := by
        unfold loadDesc.step
        simp only [hlast, hgt, hT, hfold, htyeq]
      refine ⟨_, hstep, ?_, ?_⟩
      · refine ⟨?_, hinv1, ?_, ?_, ?_, ?_⟩
        · exact List.Nodup.append hvnd (List.nodup_singleton label) (by simpa using hlv)
        · intro r hr
          rcases hroots r hr with h | h
          · rw [← hsplit] at h
            rcases List.mem_append.1 h with h1 | h1
            · left; exact hmono r h1
            · right; exact List.mem_append.2 (Or.inr h1)
          · right; exact List.mem_append.2 (Or.inl h)
        · intro p hp d1 hedge
          rcases List.mem_append.1 hp with h | h
          · rcases hclosed p h d1 hedge with h1 | h1
            · rw [← hsplit] at h1
              rcases List.mem_append.1 h1 with h2 | h2
              · left; exact hmono d1 h2
              · right; exact List.mem_append.2 (Or.inr h2)
            · right; exact List.mem_append.2 (Or.inl h1)
          · have hpl : p = label := by simpa using h
            subst hpl
            obtain ⟨gt1, hgt1, dep, hdep, hr, hz, hrepo⟩ := hedge
            rw [hgt] at hgt1
            cases hgt1
            exact hcov dep hdep d1 hr hz hrepo
        · intro l hl
          rcases List.mem_append.1 hl with h | h
          · exact hvR l h
          · have : l = label := by simpa using h
            rw [this]; exact hlR
        · intro l hl
          have hpkgs : ∀ (w : Workspace) (t : Exporter.Target),
              ((gt.Public.foldl (fun acc source => Workspace.AddSource acc.1 acc.2 source)
                (gt.Sources.foldl (fun acc source => Workspace.AddSource acc.1 acc.2 source)
                  (w, t))).1).packages = w.packages := by
            intro w t
            have h1 := Workspace.packages_foldl_AddSource gt.Sources w t
            generalize gt.Sources.foldl
              (fun acc source => Workspace.AddSource acc.1 acc.2 source) (w, t) = r1 at h1
            obtain ⟨w1, t1⟩ := r1
            rw [Workspace.packages_foldl_AddSource gt.Public w1 t1]
            exact h1
          by_cases hslot : l.Package = label.Package ∧ l.Target = label.Target
          · show (Workspace.lookup (Workspace.store _ label _) l).isSome = true
            rw [Workspace.lookup_same_slot _ l label hslot, Workspace.lookup_store_self]
            · rfl
            · rw [hpkgs]; exact hpk
          · show (Workspace.lookup (Workspace.store _ label _) l).isSome = true
            rw [Workspace.lookup_store_other _ _ _ _ hslot,
              Workspace.lookup_congr _ ws1 (hpkgs _ _), hother l hslot]
            rcases List.mem_append.1 hl with h | h
            · exact hvws l h
            · have : l = label := by simpa using h
              exact absurd (this ▸ ⟨rfl, rfl⟩) hslot
      · simp


/-- Every reachable label is a root or what `resolve` makes of a dependency of
some entry of the description. -/
theorem Reachable.mem_universe (format : Label → Str) (gnTargets : GoMap Label gn.Target)
    (roots : List Label) (l : Label) (h : Reachable format gnTargets roots l) :
    l ∈ roots ++ (gnTargets.map (fun e =>
      e.2.Deps.filterMap (fun d => (resolve format d).map Prod.fst))).flatten := by
  cases h with
  | root hr => exact List.mem_append.2 (Or.inl hr)
  | step _ hedge =>
    obtain ⟨gt, hgt, d, hd, hr, _, _⟩ := hedge
    apply List.mem_append.2
    right
    rw [List.mem_flatten]
    refine ⟨_, List.mem_map.2 ⟨(_, gt), GoMap.mem_of_get? gnTargets _ gt hgt, rfl⟩, ?_⟩
    rw [List.mem_filterMap]
    exact ⟨d, hd, by rw [hr]; rfl⟩

theorem loadDesc.loop_done (format : Label → Str) (gnTargets : GoMap Label gn.Target)
    (fuel : Nat) (s : loadDesc.State) (h : s.queue = []) :
    loadDesc.loop format gnTargets fuel s = Outcome.done s := by
  unfold loadDesc.loop
  simp [h]

theorem loadDesc.loop_step (format : Label → Str) (gnTargets : GoMap Label gn.Target)
    (fuel : Nat) (s s1 : loadDesc.State) (h : s.queue ≠ [])
    (hs : loadDesc.step format gnTargets s = some s1) :
    loadDesc.loop format gnTargets (fuel + 1) s = loadDesc.loop format gnTargets fuel s1 := by
  rw [loadDesc.loop]
  simp [h, hs]

/-- The worklist loop runs to completion from every state that satisfies the
loop invariant, given fuel for the labels not popped yet. -/
theorem loadDesc.loop_completes (format : Label → Str) (gnTargets : GoMap Label gn.Target)
    (roots : List Label) (B : Nat)
    (hgraph : ∀ l, Reachable format gnTargets roots l →
      ∃ gt, gnTargets.get? l = some gt ∧ (loadDesc.targetType gt.Type_).isSome ∧
        ∀ d ∈ gt.Deps, (resolve format d).isSome)
    (hB : ∀ s, loadDesc.Inv (Reachable format gnTargets roots)
      (passThrough format gnTargets) roots s → s.visited.length ≤ B)
    (n : Nat) (s : loadDesc.State)
    (hinv : loadDesc.Inv (Reachable format gnTargets roots) (passThrough format gnTargets)
      roots s)
    (hn : B + 1 - s.visited.length = n) :
    ∃ s1, (∀ fuel, n ≤ fuel → loadDesc.loop format gnTargets fuel s = Outcome.done s1) ∧
      loadDesc.Inv (Reachable format gnTargets roots) (passThrough format gnTargets)
        roots s1 ∧
      s1.queue = [] := by
  induction n generalizing s with
  | zero =>
    have := hB s hinv
    omega
  | succ n ih =>
    by_cases hq : s.queue = []
    · exact ⟨s, fun fuel _ => loadDesc.loop_done format gnTargets fuel s hq, hinv, hq⟩
    · obtain ⟨s1, hstep, hinv1, hlen⟩ :=
        loadDesc.step_spec format gnTargets roots s hinv hq hgraph
      obtain ⟨s2, hrun, hinv2, hq2⟩ := ih s1 hinv1 (by omega)
      refine ⟨s2, ?_, hinv2, hq2⟩
      intro fuel hfuel
      cases fuel with
      | zero => omega
      | succ fuel =>
        rw [loadDesc.loop_step format gnTargets fuel s s1 hq hstep]
        exact hrun fuel (by omega)

theorem loadDesc.init_inv (format : Label → Str) (gnTargets : GoMap Label gn.Target)
    (roots : List Label) (hnodup : roots.Nodup) (hrepo : ∀ r ∈ roots, r.Repository = []) :
    loadDesc.Inv (Reachable format gnTargets roots) (passThrough format gnTargets) roots
      (loadDesc.init roots) := by
  have hget : ∀ l, (loadDesc.init roots).queued.getD l false = decide (l ∈ roots) := by
    intro l
    unfold loadDesc.init GoMap.getD
    simp only []
    rw [get?_foldl_set_true]
    by_cases h : l ∈ roots <;> simp [h, GoMap.get?]
  refine ⟨List.nodup_nil, ⟨hnodup, ?_, ?_, ?_⟩, ?_, ?_, ?_, ?_⟩
  · intro l hl
    exact ⟨List.not_mem_nil l, Reachable.root hl, hrepo l hl⟩
  · intro l hl
    rw [hget]
    rcases hl with h | h
    · exact decide_eq_true h
    · exact absurd h (List.not_mem_nil l)
  · intro l hl _
    rw [hget] at hl
    exact Or.inl (of_decide_eq_true hl)
  · intro r hr
    exact Or.inl hr
  · intro p hp
    exact absurd hp (List.not_mem_nil p)
  · intro l hl
    exact absurd hl (List.not_mem_nil l)
  · intro l hl
    exact absurd hl (List.not_mem_nil l)

/-- C10 (as amended). For every descriptor graph and every list of pairwise
distinct root labels without repository, such that every label reachable from
the roots through pass-through dependencies is present with a supported kind
and `resolve` aborts on none of its dependencies: the closure loop of
`loadDesc` runs to completion, pops each reachable label exactly once, leaves
a target for it in the workspace, and pops no label that is not reachable. -/
theorem loadDesc_visits_reachable_once (format : Label → Str)
    (gnTargets : GoMap Label gn.Target) (roots : List Label)
    (hnodup : roots.Nodup) (hrepo : ∀ r ∈ roots, r.Repository = [])
    (hgraph : ∀ l, Reachable format gnTargets roots l →
      ∃ gt, gnTargets.get? l = some gt ∧ (loadDesc.targetType gt.Type_).isSome ∧
        ∀ d ∈ gt.Deps, (resolve format d).isSome) :
    ∃ N s, (∀ fuel, N ≤ fuel → loadDesc format gnTargets roots fuel = Outcome.done s) ∧
      s.visited.Nodup ∧
      (∀ l, l ∈ s.visited ↔ Reachable format gnTargets roots l) ∧
      (∀ l ∈ s.visited, (s.ws.lookup l).isSome) := by
  have hB : ∀ s, loadDesc.Inv (Reachable format gnTargets roots)
      (passThrough format gnTargets) roots s →
      s.visited.length ≤ (roots ++ (gnTargets.map (fun e =>
        e.2.Deps.filterMap (fun d => (resolve format d).map Prod.fst))).flatten).length := by
    intro s hs
    obtain ⟨hvnd, _, _, _, hvR, _⟩ := hs
    apply List.Subperm.length_le
    apply List.Nodup.subperm hvnd
    intro l hl
    exact Reachable.mem_universe format gnTargets roots l (hvR l hl)
  obtain ⟨s, hrun, hinv, hq⟩ := loadDesc.loop_completes format gnTargets roots _ hgraph hB _
    (loadDesc.init roots) (loadDesc.init_inv format gnTargets roots hnodup hrepo) rfl
  obtain ⟨hvnd, _, hroots, hclosed, hvR, hvws⟩ := hinv
  refine ⟨_, s, hrun, hvnd, ?_, hvws⟩
  intro l
  constructor
  · exact hvR l
  · intro hl
    induction hl with
    | root hr =>
      rcases hroots _ hr with h | h
      · rw [hq] at h; exact absurd h (List.not_mem_nil _)
      · exact h
    | step _ hedge ih =>
      rcases hclosed _ ih _ hedge with h | h
      · rw [hq] at h; exact absurd h (List.not_mem_nil _)
      · exact h

/-- C10, counterexample. With the root `//a:a` listed twice, the loop pops
`//a:a` twice although every visited label is present with a supported kind.
Moreover the loop aborts, leaving the reachable `//a:b` unprocessed, when
`resolve` panics on a dependency of `//a:a`, and it aborts on a root that
carries a repository. -/
theorem loadDesc_duplicate_root_popped_twice :
    (match loadDesc Label.Format Examples.graph [Examples.A, Examples.A] 10 with
      | Outcome.done s => some s.visited
      | _ => none) = some [Examples.A, Examples.B, Examples.A] ∧
    loadDesc Label.Format Examples.graphVendored [Examples.A] 10 = Outcome.panicked ∧
    loadDesc Label.Format Examples.graphRepository [Examples.AR] 10 = Outcome.panicked := by
  decide


/-- In the scenario graph only `//a:a` and `//a:b` are reachable from `//a:a`. -/
theorem Examples.reachable_graph (l : Label)
    (h : Reachable Label.Format Examples.graph [Examples.A] l) :
    l = Examples.A ∨ l = Examples.B := by
  induction h with
  | root hr => left; simpa using hr
  | step _ hedge ih =>
    obtain ⟨gt, hgt, d, hd, hr, _, _⟩ := hedge
    rcases ih with rfl | rfl
    · have hA : Examples.graph.get? Examples.A
          = some ⟨[Examples.B], false, "source_set".data, ["a/x.cc".data], []⟩ := by decide
      rw [hA] at hgt
      cases hgt
      have hd' : d = Examples.B := by simpa using hd
      subst hd'
      have hB : resolve Label.Format Examples.B = some (Examples.B, true) := by decide
      rw [hB] at hr
      cases hr
      right; rfl
    · have hB : Examples.graph.get? Examples.B
          = some ⟨[], false, "source_set".data, ["a/y.h".data], []⟩ := by decide
      rw [hB] at hgt
      cases hgt
      simp at hd

theorem Examples.graph_usable (l : Label)
    (h : Reachable Label.Format Examples.graph [Examples.A] l) :
    ∃ gt, Examples.graph.get? l = some gt ∧ (loadDesc.targetType gt.Type_).isSome ∧
      ∀ d ∈ gt.Deps, (resolve Label.Format d).isSome := by
  rcases Examples.reachable_graph l h with rfl | rfl
  · exact ⟨⟨[Examples.B], false, "source_set".data, ["a/x.cc".data], []⟩, by decide, by decide,
      by decide⟩
  · exact ⟨⟨[], false, "source_set".data, ["a/y.h".data], []⟩, by decide, by decide, by decide⟩

/-- C10 (as amended), at the closure scenario of the specification: from the
root `//a:a` the loop pops `//a:a` and then `//a:b`, each once. -/
theorem loadDesc_visits_reachable_once_witness :
    ([Examples.A].Nodup ∧ (∀ r ∈ [Examples.A], r.Repository = []) ∧
      ∀ l, Reachable Label.Format Examples.graph [Examples.A] l →
        ∃ gt, Examples.graph.get? l = some gt ∧ (loadDesc.targetType gt.Type_).isSome ∧
          ∀ d ∈ gt.Deps, (resolve Label.Format d).isSome) ∧
    (∃ N s, (∀ fuel, N ≤ fuel →
        loadDesc Label.Format Examples.graph [Examples.A] fuel = Outcome.done s) ∧
      s.visited.Nodup ∧
      (∀ l, l ∈ s.visited ↔ Reachable Label.Format Examples.graph [Examples.A] l) ∧
      (∀ l ∈ s.visited, (s.ws.lookup l).isSome)) ∧
    (match loadDesc Label.Format Examples.graph [Examples.A] 10 with
      | Outcome.done s => some s.visited
      | _ => none) = some [Examples.A, Examples.B] :=
  ⟨⟨by decide, by decide, Examples.graph_usable⟩,
   loadDesc_visits_reachable_once Label.Format Examples.graph [Examples.A] (by decide)
     (by decide) Examples.graph_usable,
   by decide⟩


/-! ## `resolve` -/

/-- The label that `resolve` returns for the vendored event library. -/
theorem resolve_of_libevent (format : Label → Str) (l : Label)
    (h : l.Package = "third_party/libevent".data ∨
      l.Package = "base/third_party/libevent".data) :
    resolve format l = some (⟨"pkg_config".data, "libevent".data, "libevent".data⟩, false) := by
  have h1 : strings.CutPrefix l.Package "third_party/abseil-cpp/".data
      = (l.Package, false) := by
    rcases h with h | h <;> rw [h] <;> decide
  have h2 : ¬ l.Package = "third_party/protobuf".data := by
    rcases h with h | h <;> rw [h] <;> decide
  unfold resolve
  rw [h1]
  simp only [h2, if_false]
  rw [if_pos h]

/-- The cases of `resolve` on a package that starts with `third_party`. -/
theorem resolve_of_third_party (format : Label → Str) (l : Label)
    (h : strings.HasPrefix l.Package "third_party".data = true) :
    resolve format l =
      if strings.HasPrefix l.Package "third_party/abseil-cpp/".data = true then
        some ({ l with Repository := "com_google_absl".data,
                       Package := l.Package.drop "third_party/abseil-cpp/".data.length }, false)
      else if l.Package = "third_party/protobuf".data then some (Label.zero, false)
      else if l.Package = "third_party/libevent".data then
        some (⟨"pkg_config".data, "libevent".data, "libevent".data⟩, false)
      else if l.Package = "third_party/rnnoise".data ∨ l.Package = "third_party/pffft".data then
        some (l, true)
      else none := by
  unfold resolve strings.CutPrefix
  by_cases ha : strings.HasPrefix l.Package "third_party/abseil-cpp/".data = true
  · simp only [ha, if_true]
  · simp only [ha, if_false, Bool.false_eq_true]
    by_cases hp : l.Package = "third_party/protobuf".data
    · simp only [hp, if_true]
    · simp only [hp, if_false]
      by_cases hl : l.Package = "third_party/libevent".data
      · simp only [hl, true_or, if_true]
      · have hb : ¬ l.Package = "base/third_party/libevent".data := by
          intro e
          rw [e] at h
          exact absurd h (by decide)
        simp only [hl, hb, or_self, if_false, h, if_true]


/-- C15. For every label whose package starts with `third_party`: `resolve`
aborts if and only if the package is not under `third_party/abseil-cpp/`, is
not `third_party/protobuf`, is not `third_party/libevent` and is not one of
the whitelisted `third_party/rnnoise` and `third_party/pffft`; for the two
whitelisted packages it returns the label unchanged with the traverse flag
set. -/
theorem resolve_third_party_aborts_iff (format : Label → Str) (l : Label)
    (h : strings.HasPrefix l.Package "third_party".data = true) :
    (resolve format l = none ↔
      (strings.HasPrefix l.Package "third_party/abseil-cpp/".data = false ∧
        l.Package ≠ "third_party/protobuf".data ∧ l.Package ≠ "third_party/libevent".data ∧
        l.Package ≠ "third_party/rnnoise".data ∧ l.Package ≠ "third_party/pffft".data)) ∧
    ((l.Package = "third_party/rnnoise".data ∨ l.Package = "third_party/pffft".data) →
      resolve format l = some (l, true)) := by
  rw [resolve_of_third_party format l h]
  constructor
  · by_cases ha : strings.HasPrefix l.Package "third_party/abseil-cpp/".data = true
    · simp [ha]
    · have ha' : strings.HasPrefix l.Package "third_party/abseil-cpp/".data = false := by
        simpa using ha
      by_cases hp : l.Package = "third_party/protobuf".data
      · rw [if_neg ha, if_pos hp]
        simp only [false_iff, not_and, reduceCtorEq]
        intro _ h2
        exact absurd hp h2
      · by_cases hl : l.Package = "third_party/libevent".data
        · rw [if_neg ha, if_neg hp, if_pos hl]
          simp only [false_iff, not_and, reduceCtorEq]
          intro _ _ h3
          exact absurd hl h3
        · by_cases hw : l.Package = "third_party/rnnoise".data ∨
              l.Package = "third_party/pffft".data
          · rw [if_neg ha, if_neg hp, if_neg hl, if_pos hw]
            simp only [false_iff, not_and, reduceCtorEq]
            intro _ _ _ h4 h5
            rcases hw with hw | hw
            · exact h4 hw
            · exact h5 hw
          · rw [if_neg ha, if_neg hp, if_neg hl, if_neg hw]
            simp only [true_iff]
            exact ⟨ha', hp, hl, fun e => hw (Or.inl e), fun e => hw (Or.inr e)⟩
  · intro hw
    have ha : ¬ strings.HasPrefix l.Package "third_party/abseil-cpp/".data = true := by
      rcases hw with hw | hw <;> rw [hw] <;> decide
    have hp : ¬ l.Package = "third_party/protobuf".data := by
      rcases hw with hw | hw <;> rw [hw] <;> decide
    have hl : ¬ l.Package = "third_party/libevent".data := by
      rcases hw with hw | hw <;> rw [hw] <;> decide
    rw [if_neg ha, if_neg hp, if_neg hl, if_pos hw]

/-- C15, at the label `//third_party/foo:foo`, whose package is vendored and
not whitelisted: `resolve` aborts on it. -/
theorem resolve_third_party_aborts_iff_witness :
    strings.HasPrefix Examples.F.Package "third_party".data = true ∧
    ((resolve Label.Format Examples.F = none ↔
      (strings.HasPrefix Examples.F.Package "third_party/abseil-cpp/".data = false ∧
        Examples.F.Package ≠ "third_party/protobuf".data ∧
        Examples.F.Package ≠ "third_party/libevent".data ∧
        Examples.F.Package ≠ "third_party/rnnoise".data ∧
        Examples.F.Package ≠ "third_party/pffft".data)) ∧
    ((Examples.F.Package = "third_party/rnnoise".data ∨
        Examples.F.Package = "third_party/pffft".data) →
      resolve Label.Format Examples.F = some (Examples.F, true))) ∧
    resolve Label.Format Examples.F = none :=
  ⟨by decide, resolve_third_party_aborts_iff Label.Format Examples.F (by decide), by decide⟩


/-! ## `append` and `appendCondition` -/

section Mutators

variable {T : Type}

theorem GoMap.exists_mem_set_append (m : GoMap Str (List T)) (k : Str) (x v : T) :
    (∃ e ∈ m.set k (m.getD k [] ++ [x]), v ∈ e.2) ↔ (∃ e ∈ m, v ∈ e.2) ∨ v = x := by
  induction m with
  | nil => simp [GoMap.set, GoMap.getD, GoMap.get?]
  | cons p m ih =>
    obtain ⟨k1, v1⟩ := p
    by_cases hk : k1 = k
    · subst hk
      simp only [GoMap.set, GoMap.getD, GoMap.get?, if_true, Option.getD_some, List.mem_cons,
        exists_eq_or_imp, List.mem_append, List.mem_singleton]
      by_cases hP : ∃ a ∈ m, v ∈ a.2 <;> by_cases h1 : v ∈ v1 <;> by_cases h2 : v = x <;>
        simp [hP, h1, h2]
    · have hget : GoMap.getD ((k1, v1) :: m) k [] = GoMap.getD m k [] := by
        simp [GoMap.getD, GoMap.get?, hk]
      rw [hget]
      simp only [GoMap.set, hk, if_false, List.mem_cons, exists_eq_or_imp, ih]
      by_cases hP : ∃ a ∈ m, v ∈ a.2 <;> by_cases h1 : v ∈ v1 <;> by_cases h2 : v = x <;>
        simp [hP, h1, h2]

/-- What a sequence of mutating calls makes of a set: the unconditioned list
grows by the values added unconditionally, and the values under the condition
keys are the former ones and the values added under a condition. -/
theorem selectableList.foldl_apply (ops : List (selectableList.Op T)) (sl : selectableList T) :
    (ops.foldl selectableList.apply sl).list
        = sl.list ++ (ops.map selectableList.Op.unconditioned).flatten ∧
    ∀ v, (∃ e ∈ (ops.foldl selectableList.apply sl).selections, v ∈ e.2) ↔
      (∃ e ∈ sl.selections, v ∈ e.2) ∨ v ∈ (ops.map selectableList.Op.conditioned).flatten := by
  induction ops generalizing sl with
  | nil => simp
  | cons op ops ih =>
    obtain ⟨h1, h2⟩ := ih (sl.apply op)
    rw [List.foldl_cons]
    cases op with
    | append values =>
      constructor
      · rw [h1]
        simp [selectableList.apply, selectableList.append, selectableList.Op.unconditioned]
      · intro v
        rw [h2]
        simp [selectableList.apply, selectableList.append, selectableList.Op.conditioned]
    | appendCondition condition value =>
      by_cases hc : condition = []
      · constructor
        · rw [h1]
          simp [selectableList.apply, selectableList.appendCondition, selectableList.append,
            selectableList.Op.unconditioned, hc]
        · intro v
          rw [h2]
          simp [selectableList.apply, selectableList.appendCondition, selectableList.append,
            selectableList.Op.conditioned, hc]
      · constructor
        · rw [h1]
          simp [selectableList.apply, selectableList.appendCondition,
            selectableList.Op.unconditioned, hc]
        · intro v
          rw [h2]
          have : (sl.apply (selectableList.Op.appendCondition condition value)).selections
              = sl.selections.set condition (sl.selections.getD condition [] ++ [value]) := by
            simp [selectableList.apply, selectableList.appendCondition, hc]
          rw [this, GoMap.exists_mem_set_append]
          have hcond : (List.map selectableList.Op.conditioned
              (selectableList.Op.appendCondition condition value :: ops)).flatten
              = value :: (List.map selectableList.Op.conditioned ops).flatten := by
            simp [selectableList.Op.conditioned, hc]
          rw [hcond, List.mem_cons]
          by_cases hP : ∃ e ∈ sl.selections, v ∈ e.2 <;> by_cases h3 : v = value <;>
            simp [hP, h3]

/-- C20 (as amended). The mutating operations do not check the invariant of
a conditional set.  For every set reached from `newSelectableList` by a
sequence of `append` and `appendCondition` calls (an empty condition behaving
as `append`), no value is both in the unconditioned list and in the list of
some condition key if and only if no value was passed both to an
unconditional call and to a call with a condition. -/
theorem selectableList.run_disjoint_iff (ops : List (selectableList.Op T)) :
    (selectableList.run ops).Disjoint ↔
      ∀ v, v ∈ (ops.map selectableList.Op.unconditioned).flatten →
        v ∉ (ops.map selectableList.Op.conditioned).flatten := by
  obtain ⟨h1, h2⟩ := selectableList.foldl_apply ops (newSelectableList : selectableList T)
  unfold selectableList.run selectableList.Disjoint
  rw [h1]
  simp only [newSelectableList, List.nil_append]
  constructor
  · intro h v hv hc
    have h3 := (h2 v).2 (Or.inr hc)
    obtain ⟨e, he, hve⟩ := h3
    exact h v hv e he hve
  · intro h v hv e he hve
    have h3 := (h2 v).1 ⟨e, he, hve⟩
    rcases h3 with ⟨e1, he1, _⟩ | h3
    · simp [newSelectableList] at he1
    · exact h v hv h3

end Mutators

/-- C20, counterexample. After `append(1)` and `appendCondition("c", 1)` the
value `1` is both in the unconditioned list and under the key `c`. -/
theorem selectableList.run_not_disjoint :
    selectableList.run
        [selectableList.Op.append [1], selectableList.Op.appendCondition "c".data 1]
      = ⟨[1], [("c".data, [1])]⟩ ∧
    ¬ (selectableList.run
        [selectableList.Op.append [1],
          selectableList.Op.appendCondition "c".data 1]).Disjoint := by
  constructor
  · decide
  · unfold selectableList.Disjoint
    decide


/-! ## `sort.Slice` and `render` -/

theorem strLess_asymm (a b : Str) (h : strLess a b = true) : strLess b a = false := by
  induction a generalizing b with
  | nil => exact strLess_nil_right b
  | cons x xs ih =>
    cases b with
    | nil => simp [strLess] at h
    | cons y ys =>
      simp only [strLess] at h ⊢
      by_cases hxy : x < y
      · have hyx : ¬ y < x := not_lt.2 (le_of_lt hxy)
        simp [hyx, hxy]
      · by_cases hyx : y < x
        · simp [hxy, hyx] at h
        · simp only [hxy, hyx, if_false] at h ⊢
          exact ih ys h

theorem strLess_trichotomy (a b : Str) (h1 : strLess a b = false) (h2 : strLess b a = false) :
    a = b := by
  induction a generalizing b with
  | nil =>
    cases b with
    | nil => rfl
    | cons y ys => simp [strLess] at h1
  | cons x xs ih =>
    cases b with
    | nil => simp [strLess] at h2
    | cons y ys =>
      simp only [strLess] at h1 h2
      by_cases hxy : x < y
      · simp [hxy] at h1
      · by_cases hyx : y < x
        · simp [hyx] at h2
        · simp only [hxy, hyx, if_false] at h1 h2
          have : x = y := le_antisymm (not_lt.1 hyx) (not_lt.1 hxy)
          rw [this, ih ys h1 h2]

section Sorting

variable {α : Type}

theorem sort.insert_perm (less : α → α → Bool) (x : α) (l : List α) :
    (sort.insert less x l).Perm (x :: l) := by
  induction l with
  | nil => exact List.Perm.refl _
  | cons y ys ih =>
    unfold sort.insert
    split
    · exact List.Perm.refl _
    · exact ((List.Perm.cons y ih).trans (List.Perm.swap x y ys))

theorem sort.Slice_perm (less : α → α → Bool) (l : List α) : (sort.Slice less l).Perm l := by
  induction l with
  | nil => exact List.Perm.refl _
  | cons x xs ih =>
    show (sort.insert less x (sort.Slice less xs)).Perm (x :: xs)
    exact (sort.insert_perm less x _).trans (List.Perm.cons x ih)

theorem sort.insert_sorted (less : α → α → Bool)
    (hasymm : ∀ a b, less a b = true → less b a = false)
    (hcotrans : ∀ a b c, less a c = true → less a b = true ∨ less b c = true)
    (x : α) (l : List α) (h : l.Pairwise (fun a b => less b a = false)) :
    (sort.insert less x l).Pairwise (fun a b => less b a = false) := by
  induction l with
  | nil => simp [sort.insert]
  | cons y ys ih =>
    rw [List.pairwise_cons] at h
    unfold sort.insert
    by_cases hxy : less x y = true
    · simp only [hxy, if_true]
      rw [List.pairwise_cons]
      refine ⟨?_, List.pairwise_cons.2 h⟩
      intro z hz
      rcases List.mem_cons.1 hz with rfl | hz'
      · exact hasymm x z hxy
      · cases hzx : less z x with
        | false => rfl
        | true =>
          rcases hcotrans z y x hzx with h1 | h1
          · rw [h.1 z hz'] at h1; exact absurd h1 (by simp)
          · rw [hasymm x y hxy] at h1; exact absurd h1 (by simp)
    · simp only [hxy, Bool.false_eq_true, if_false]
      rw [List.pairwise_cons]
      refine ⟨?_, ih h.2⟩
      intro z hz
      have hz' := (sort.insert_perm less x ys).mem_iff.1 hz
      rcases List.mem_cons.1 hz' with rfl | hz''
      · simpa using hxy
      · exact h.1 z hz''

theorem sort.Slice_sorted (less : α → α → Bool)
    (hasymm : ∀ a b, less a b = true → less b a = false)
    (hcotrans : ∀ a b c, less a c = true → less a b = true ∨ less b c = true)
    (l : List α) : (sort.Slice less l).Pairwise (fun a b => less b a = false) := by
  induction l with
  | nil => exact List.Pairwise.nil
  | cons x xs ih => exact sort.insert_sorted less hasymm hcotrans x _ ih

end Sorting

/-- Two lists with the same entries, both strictly ascending by key, are equal. -/
theorem eq_of_perm_of_ascending {T : Type} (l1 l2 : List (conditioned T)) (hp : l1.Perm l2)
    (h1 : l1.Pairwise (fun a b => strLess a.key b.key = true))
    (h2 : l2.Pairwise (fun a b => strLess a.key b.key = true)) : l1 = l2 := by
  haveI : IsAntisymm (conditioned T) (fun a b => strLess a.key b.key = true) :=
    ⟨fun a b hab hba => by
      rw [strLess_asymm _ _ hab] at hba
      exact absurd hba (by simp)⟩
  exact List.eq_of_perm_of_sorted hp h1 h2

/-- Sorting entries with pairwise distinct keys by key gives a strictly
ascending permutation of them. -/
theorem sort.Slice_by_key {T : Type} (l : List (conditioned T))
    (hnd : (l.map (fun c => c.key)).Nodup) :
    (sort.Slice (fun a b => strLess a.key b.key) l).Perm l ∧
    (sort.Slice (fun a b => strLess a.key b.key) l).Pairwise
      (fun a b => strLess a.key b.key = true) := by
  have hperm := sort.Slice_perm (fun a b : conditioned T => strLess a.key b.key) l
  refine ⟨hperm, ?_⟩
  have hsorted := sort.Slice_sorted (fun a b : conditioned T => strLess a.key b.key)
    (fun a b h => strLess_asymm _ _ h) (fun a b c h => strLess_cotrans _ b.key _ h) l
  have hnd' : ((sort.Slice (fun a b : conditioned T => strLess a.key b.key) l).map
      (fun c => c.key)).Nodup := (hperm.map _).nodup_iff.2 hnd
  have hne := List.pairwise_map.1 hnd'
  have hboth := hsorted.and hne
  refine hboth.imp ?_
  intro a b hab
  cases h : strLess a.key b.key with
  | true => rfl
  | false => exact absurd (strLess_trichotomy _ _ h hab.1) hab.2


/-- C19 (as amended). For every conditional set with pairwise distinct
condition keys and every formatter, `render` returns the parts joined by
`" + "`, where the parts are the formatted unconditioned list, present only
when that list is not empty, followed by one `select` expression per
condition key in ascending key order, with the quoted key, the formatted
values of the key and the formatted empty list as default; the result does
not depend on the order in which the keys were added nor on the order in
which the map is visited. -/
theorem selectableList.render_spec {T : Type} (ord : MapOrder) (quote : Str → Str)
    (formatter : List T → Str) (sl : selectableList T) (hkeys : sl.selections.keys.Nodup) :
    (∃ sels : List (conditioned (List T)),
      sels.Perm (sl.selections.map (fun cv => ⟨cv.1, cv.2⟩)) ∧
      sels.Pairwise (fun a b => strLess a.key b.key = true) ∧
      sl.render ord quote formatter
        = strings.Join
            ((if sl.list.length = 0 then [] else [formatter sl.list]) ++
              sels.map (fun sel =>
                "select(\x7b".data ++ quote sel.key ++ ": ".data ++ formatter sel.value
                  ++ ", \"//conditions:default\": ".data ++ formatter [] ++ "\x7d)".data))
            " + ".data) ∧
    (∀ (ord2 : MapOrder) (sl2 : selectableList T), sl2.list = sl.list →
      sl2.selections.Perm sl.selections →
      sl2.render ord2 quote formatter = sl.render ord quote formatter) := by
  have hnd : ∀ (o : MapOrder) (m : GoMap Str (List T)), m.Perm sl.selections →
      (((o.iter m).map (fun cv => (⟨cv.1, cv.2⟩ : conditioned (List T)))).map
        (fun c => c.key)).Nodup := by
    intro o m hm
    rw [List.map_map]
    exact ((((o.perm m).trans hm).map _).nodup_iff).2 hkeys
  have hparts : (if sl.list.length > 0 then [formatter sl.list] else [])
      = (if sl.list.length = 0 then [] else [formatter sl.list]) := by
    cases sl.list <;> simp
  constructor
  · obtain ⟨hp, hs⟩ := sort.Slice_by_key _ (hnd ord sl.selections (List.Perm.refl _))
    refine ⟨_, hp.trans ((ord.perm sl.selections).map _), hs, ?_⟩
    unfold selectableList.render
    simp only [hparts]
    rfl
  · intro ord2 sl2 hlist hsel
    obtain ⟨hp1, hs1⟩ := sort.Slice_by_key _ (hnd ord sl.selections (List.Perm.refl _))
    obtain ⟨hp2, hs2⟩ := sort.Slice_by_key _ (hnd ord2 sl2.selections hsel)
    have heq := eq_of_perm_of_ascending _ _
      ((hp2.trans (((ord2.perm sl2.selections).trans hsel).map _)).trans
        ((hp1.trans ((ord.perm sl.selections).map _)).symm)) hs2 hs1
    unfold selectableList.render
    simp only [hlist, heq]

/-- C19, counterexample. For the set with no unconditioned value and `x`
under the key `b`, `render` returns the `select` expression alone, not the
formatted empty list followed by it; for the empty set it returns the empty
string. -/
theorem selectableList.render_omits_empty_list :
    Examples.csetConditionalOnly.render MapOrder.insertion Examples.quote Examples.brackets
      = "select(\x7b\"b\": [x], \"//conditions:default\": []\x7d)".data ∧
    Examples.csetConditionalOnly.render MapOrder.insertion Examples.quote Examples.brackets
      ≠ "[] + select(\x7b\"b\": [x], \"//conditions:default\": []\x7d)".data ∧
    (newSelectableList : selectableList Char).render MapOrder.insertion Examples.quote
      Examples.brackets = [] := by
  decide

/-- C19 (as amended), at the set with `u`, `v` unconditioned, `x` under `b`
and `y` under `a`: the key `a` is rendered before the key `b`. -/
theorem selectableList.render_spec_witness :
    Examples.cset.selections.keys.Nodup ∧
    ((∃ sels : List (conditioned (List Char)),
      sels.Perm (Examples.cset.selections.map (fun cv => ⟨cv.1, cv.2⟩)) ∧
      sels.Pairwise (fun a b => strLess a.key b.key = true) ∧
      Examples.cset.render MapOrder.insertion Examples.quote Examples.brackets
        = strings.Join
            ((if Examples.cset.list.length = 0 then [] else
                [Examples.brackets Examples.cset.list]) ++
              sels.map (fun sel =>
                "select(\x7b".data ++ Examples.quote sel.key ++ ": ".data
                  ++ Examples.brackets sel.value
                  ++ ", \"//conditions:default\": ".data ++ Examples.brackets []
                  ++ "\x7d)".data))
            " + ".data) ∧
    (∀ (ord2 : MapOrder) (sl2 : selectableList Char), sl2.list = Examples.cset.list →
      sl2.selections.Perm Examples.cset.selections →
      sl2.render ord2 Examples.quote Examples.brackets
        = Examples.cset.render MapOrder.insertion Examples.quote Examples.brackets)) ∧
    Examples.cset.render MapOrder.insertion Examples.quote Examples.brackets
      = ("[uv] + select(\x7b\"a\": [y], \"//conditions:default\": []\x7d)"
          ++ " + select(\x7b\"b\": [x], \"//conditions:default\": []\x7d)").data :=
  ⟨by decide,
   selectableList.render_spec MapOrder.insertion Examples.quote Examples.brackets Examples.cset
     (by decide),
   by decide⟩


/-! ## Well-formed workspaces under `Workspace.Target` -/

theorem GoMap.mem_set {K V : Type} [DecidableEq K] (m : GoMap K V) (k : K) (v : V)
    (e : K × V) (h : e ∈ m.set k v) : e = (k, v) ∨ e ∈ m := by
  induction m with
  | nil =>
    left
    simpa [GoMap.set] using h
  | cons p m ih =>
    obtain ⟨k1, v1⟩ := p
    by_cases hk : k1 = k
    · simp only [GoMap.set, hk, if_true, List.mem_cons] at h
      rcases h with h | h
      · exact Or.inl h
      · exact Or.inr (List.mem_cons_of_mem _ h)
    · simp only [GoMap.set, hk, if_false, List.mem_cons] at h
      rcases h with h | h
      · right
        rw [h]
        exact List.mem_cons_self _ _
      · rcases ih h with h1 | h1
        · exact Or.inl h1
        · exact Or.inr (List.mem_cons_of_mem _ h1)

/-- Storing, under an existing package, a target that carries the label of
its slot keeps the workspace well formed. -/
theorem Workspace.store_WF (ws : Workspace) (l : Label) (t : Exporter.Target)
    (hwf : ws.WF) (hn : ws.Named)
    (ht : t.label = { Repository := [], Package := l.Package, Target := l.Target }) :
    (ws.store l t).WF ∧ (ws.store l t).Named := by
  unfold Workspace.store
  cases hp : ws.packages.get? l.Package with
  | none => exact ⟨hwf, hn⟩
  | some p =>
    have hpm : (l.Package, p) ∈ ws.packages := GoMap.mem_of_get? _ _ _ hp
    obtain ⟨hknd, hpk⟩ := hwf
    have hp1 := hpk _ hpm
    constructor
    · refine ⟨GoMap.nodup_keys_set _ _ _ hknd, ?_⟩
      intro e he
      rcases GoMap.mem_set _ _ _ e he with rfl | he'
      · refine ⟨GoMap.nodup_keys_set _ _ _ hp1.1, ?_⟩
        intro f hf
        rcases GoMap.mem_set _ _ _ f hf with rfl | hf'
        · exact ht
        · exact hp1.2 f hf'
      · exact hpk e he'
    · intro e he
      rcases GoMap.mem_set _ _ _ e he with rfl | he'
      · exact hn (l.Package, p) hpm
      · exact hn e he'

/-- On a well-formed workspace `ws.Target(l)` leaves a well-formed workspace
and returns the stored target of `l`, or a fresh one when there is none; in
both cases the target carries the label of its slot. -/
theorem Workspace.Target_WF (ws ws1 : Workspace) (l : Label) (t : Exporter.Target)
    (hwf : ws.WF) (hn : ws.Named) (h : ws.Target l = some (ws1, t)) :
    ws1.WF ∧ ws1.Named ∧ l.Repository = [] ∧
    t.label = { Repository := [], Package := l.Package, Target := l.Target } ∧
    (ws.lookup l = some t ∨ (ws.lookup l = none ∧ t = Target.fresh l)) := by
  unfold Workspace.Target at h
  by_cases hrepo : l.Repository = []
  · simp only [hrepo, ne_eq, not_true_eq_false, if_false] at h
    obtain ⟨hknd, hpk⟩ := hwf
    cases hp : ws.packages.get? l.Package with
    | none =>
      have hpkg : ws.pkg l.Package =
          ({ ws with packages := ws.packages.set l.Package ⟨l.Package, [], []⟩ },
            ⟨l.Package, [], []⟩) := by
        simp [Workspace.pkg, hp]
      rw [hpkg] at h
      simp only [Package.target, GoMap.get?, Option.some.injEq, Prod.mk.injEq] at h
      obtain ⟨h1, h2⟩ := h
      subst h1 h2
      refine ⟨⟨?_, ?_⟩, ?_, hrepo, rfl, Or.inr ⟨by simp [Workspace.lookup, hp], rfl⟩⟩
      · exact GoMap.nodup_keys_set _ _ _ (GoMap.nodup_keys_set _ _ _ hknd)
      · intro e he
        rcases GoMap.mem_set _ _ _ e he with rfl | he'
        · refine ⟨by simp [GoMap.set, GoMap.keys], ?_⟩
          intro f hf
          simp only [GoMap.set, List.mem_singleton] at hf
          subst hf
          rfl
        · rcases GoMap.mem_set _ _ _ e he' with rfl | he''
          · exact ⟨by simp [GoMap.keys], fun f hf => absurd hf (List.not_mem_nil f)⟩
          · exact hpk e he''
      · intro e he
        rcases GoMap.mem_set _ _ _ e he with rfl | he'
        · rfl
        · rcases GoMap.mem_set _ _ _ e he' with rfl | he''
          · rfl
          · exact hn e he''
    | some p =>
      have hpm : (l.Package, p) ∈ ws.packages := GoMap.mem_of_get? _ _ _ hp
      have hp1 := hpk _ hpm
      have hname : p.name = l.Package := hn _ hpm
      have hpkg : ws.pkg l.Package = (ws, p) := by simp [Workspace.pkg, hp]
      rw [hpkg] at h
      cases ht : p.targets.get? l.Target with
      | none =>
        simp only [Package.target, ht, Option.some.injEq, Prod.mk.injEq] at h
        obtain ⟨h1, h2⟩ := h
        subst h1 h2
        refine ⟨⟨GoMap.nodup_keys_set _ _ _ hknd, ?_⟩, ?_, hrepo, ?_,
          Or.inr ⟨by simp [Workspace.lookup, hp, ht], ?_⟩⟩
        · intro e he
          rcases GoMap.mem_set _ _ _ e he with rfl | he'
          · refine ⟨GoMap.nodup_keys_set _ _ _ hp1.1, ?_⟩
            intro f hf
            rcases GoMap.mem_set _ _ _ f hf with rfl | hf'
            · simp [hname]
            · exact hp1.2 f hf'
          · exact hpk e he'
        · intro e he
          rcases GoMap.mem_set _ _ _ e he with rfl | he'
          · exact hname
          · exact hn e he'
        · simp [hname]
        · simp [Target.fresh, hname]
      | some t0 =>
        simp only [Package.target, ht, Option.some.injEq, Prod.mk.injEq] at h
        obtain ⟨h1, h2⟩ := h
        subst h1 h2
        have htm : (l.Target, t0) ∈ p.targets := GoMap.mem_of_get? _ _ _ ht
        refine ⟨⟨GoMap.nodup_keys_set _ _ _ hknd, ?_⟩, ?_, hrepo, hp1.2 _ htm,
          Or.inl (by simp [Workspace.lookup, hp, ht])⟩
        · intro e he
          rcases GoMap.mem_set _ _ _ e he with rfl | he'
          · exact hp1
          · exact hpk e he'
        · intro e he
          rcases GoMap.mem_set _ _ _ e he with rfl | he'
          · exact hname
          · exact hn e he'
  · simp [hrepo] at h


/-! ## The dependency loop, for every run -/

/-- The traverse flag is only returned with the label unchanged. -/
theorem resolve_flag_true (format : Label → Str) (l d1 : Label)
    (h : resolve format l = some (d1, true)) : d1 = l := by
  unfold resolve strings.CutPrefix at h
  by_cases ha : strings.HasPrefix l.Package "third_party/abseil-cpp/".data = true
  · simp [ha] at h
  · simp only [ha, if_false, Bool.false_eq_true] at h
    by_cases hp : l.Package = "third_party/protobuf".data
    · simp [hp] at h
    · simp only [hp, if_false] at h
      split at h
      · simp at h
      · split at h
        · split at h
          · simp only [Option.some.injEq, Prod.mk.injEq, and_true] at h
            exact h.symm
          · simp at h
        · split at h
          · simp at h
          · split at h
            · simp at h
            · split at h
              · simp at h
              · simp only [Option.some.injEq, Prod.mk.injEq, and_true] at h
                exact h.symm

/-- The effect of one round of the dependency loop, whenever it does not
abort. -/
theorem loadDesc.handleDep_effect (format : Label → Str) (ds ds1 : loadDesc.DepState)
    (dep : Label) (h : loadDesc.handleDep format ds dep = some ds1) :
    (resolve format dep).isSome ∧
    ds1.target
      = ([dep].filterMap (loadDesc.recordedDep format)).foldl Target.AppendDep ds.target ∧
    (∀ l, ds.queued.getD l false = true → ds1.queued.getD l false = true) ∧
    (∀ l, ds1.queue.count l + loadDesc.pushed ds.queued l
      = ds.queue.count l + loadDesc.pushed ds1.queued l) ∧
    (∀ l, ds1.queued.getD l false = true →
      ds.queued.getD l false = true ∨ (resolve format dep = some (l, true) ∧ l ≠ Label.zero)) ∧
    (∀ d1, resolve format dep = some (d1, true) → d1 ≠ Label.zero →
      ds1.queued.getD d1 false = true) := by
  unfold loadDesc.handleDep at h
  cases hr : resolve format dep with
  | none => simp [hr] at h
  | some r =>
    obtain ⟨d1, flag⟩ := r
    simp only [hr] at h
    refine ⟨rfl, ?_⟩
    by_cases hz : d1 = Label.zero
    · simp only [hz, if_true, Option.some.injEq] at h
      subst h
      refine ⟨by simp [loadDesc.recordedDep, hr, hz], fun l hl => hl, fun l => rfl,
        fun l hl => Or.inl hl, ?_⟩
      intro d2 h2 hne
      simp only [Option.some.injEq, Prod.mk.injEq] at h2
      exact absurd (h2.1 ▸ hz) hne
    · simp only [hz, if_false] at h
      have htarget : ([dep].filterMap (loadDesc.recordedDep format)).foldl Target.AppendDep
          ds.target = ds.target.AppendDep d1 := by
        simp [loadDesc.recordedDep, hr, hz]
      rw [htarget]
      cases flag with
      | false =>
        simp only [Bool.false_eq_true, if_false, Option.some.injEq] at h
        subst h
        refine ⟨rfl, fun l hl => hl, fun l => rfl, fun l hl => Or.inl hl, ?_⟩
        intro d2 h2 _
        simp at h2
      | true =>
        simp only [if_true] at h
        by_cases hqd : ds.queued.getD d1 false = true
        · simp only [hqd, if_true, Option.some.injEq] at h
          subst h
          refine ⟨rfl, fun l hl => hl, fun l => rfl, fun l hl => Or.inl hl, ?_⟩
          intro d2 h2 _
          simp only [Option.some.injEq, Prod.mk.injEq, and_true] at h2
          subst h2
          exact hqd
        · simp only [hqd, Bool.false_eq_true, if_false] at h
          by_cases hrepo : d1.Repository = []
          · simp only [hrepo, if_true, Option.some.injEq] at h
            subst h
            refine ⟨rfl, ?_, ?_, ?_, ?_⟩
            · intro l hl
              exact (getD_set_true _ _ _).2 (Or.inr hl)
            · intro l
              simp only [loadDesc.pushed, getD_set_true, List.count_append]
              by_cases hl : l = d1
              · subst hl
                simp [hqd, hrepo]
              · have : ¬ d1 = l := fun e => hl e.symm
                simp [hl, List.count_cons, this]
            · intro l hl
              rcases (getD_set_true _ _ _).1 hl with h1 | h1
              · right
                subst h1
                exact ⟨rfl, hz⟩
              · exact Or.inl h1
            · intro d2 h2 _
              simp only [Option.some.injEq, Prod.mk.injEq, and_true] at h2
              subst h2
              exact (getD_set_true _ _ _).2 (Or.inl rfl)
          · simp only [hrepo, if_false, Option.some.injEq] at h
            subst h
            refine ⟨rfl, ?_, ?_, ?_, ?_⟩
            · intro l hl
              exact (getD_set_true _ _ _).2 (Or.inr hl)
            · intro l
              simp only [loadDesc.pushed, getD_set_true]
              by_cases hl : l = d1
              · subst hl
                simp [hqd, hrepo]
              · simp [hl]
            · intro l hl
              rcases (getD_set_true _ _ _).1 hl with h1 | h1
              · right
                subst h1
                exact ⟨rfl, hz⟩
              · exact Or.inl h1
            · intro d2 h2 _
              simp only [Option.some.injEq, Prod.mk.injEq, and_true] at h2
              subst h2
              exact (getD_set_true _ _ _).2 (Or.inl rfl)


/-- The effect of the whole dependency loop, whenever it does not abort. -/
theorem loadDesc.foldlM_handleDep_effect (format : Label → Str) (deps : List Label)
    (ds ds1 : loadDesc.DepState)
    (h : deps.foldlM (loadDesc.handleDep format) ds = some ds1) :
    (∀ dep ∈ deps, (resolve format dep).isSome) ∧
    ds1.target
      = (deps.filterMap (loadDesc.recordedDep format)).foldl Target.AppendDep ds.target ∧
    (∀ l, ds.queued.getD l false = true → ds1.queued.getD l false = true) ∧
    (∀ l, ds1.queue.count l + loadDesc.pushed ds.queued l
      = ds.queue.count l + loadDesc.pushed ds1.queued l) ∧
    (∀ l, ds1.queued.getD l false = true →
      ds.queued.getD l false = true ∨
        ∃ dep ∈ deps, resolve format dep = some (l, true) ∧ l ≠ Label.zero) ∧
    (∀ dep ∈ deps, ∀ d1, resolve format dep = some (d1, true) → d1 ≠ Label.zero →
      ds1.queued.getD d1 false = true) := by
  induction deps generalizing ds with
  | nil =>
    simp only [List.foldlM_nil, Option.pure_def, Option.some.injEq] at h
    subst h
    exact ⟨fun d hd => absurd hd (List.not_mem_nil d), rfl, fun l hl => hl, fun l => rfl,
      fun l hl => Or.inl hl, fun d hd => absurd hd (List.not_mem_nil d)⟩
  | cons dep deps ih =>
    rw [List.foldlM_cons] at h
    cases h1 : loadDesc.handleDep format ds dep with
    | none => simp [h1] at h
    | some dm =>
      rw [h1] at h
      obtain ⟨a1, a2, a3, a4, a5, a6⟩ := loadDesc.handleDep_effect format ds dm dep h1
      obtain ⟨b1, b2, b3, b4, b5, b6⟩ := ih dm h
      refine ⟨?_, ?_, fun l hl => b3 l (a3 l hl), ?_, ?_, ?_⟩
      · intro d hd
        rcases List.mem_cons.1 hd with rfl | hd'
        · exact a1
        · exact b1 d hd'
      · rw [b2, a2, ← List.foldl_append]
        congr 1
        show _ = List.filterMap _ ([dep] ++ deps)
        rw [List.filterMap_append]
      · intro l
        have e1 := a4 l
        have e2 := b4 l
        omega
      · intro l hl
        rcases b5 l hl with h2 | ⟨d, hd, hr⟩
        · rcases a5 l h2 with h3 | h3
          · exact Or.inl h3
          · exact Or.inr ⟨dep, List.mem_cons_self _ _, h3⟩
        · exact Or.inr ⟨d, List.mem_cons_of_mem _ hd, hr⟩
      · intro d hd d1 hr hz
        rcases List.mem_cons.1 hd with rfl | hd'
        · exact b3 d1 (a6 d1 hr hz)
        · exact b6 d hd' d1 hr hz

/-- The dependency loop does not abort when `resolve` aborts on none of the
dependencies. -/
theorem loadDesc.foldlM_handleDep_isSome (format : Label → Str) (deps : List Label)
    (ds : loadDesc.DepState) (h : ∀ dep ∈ deps, (resolve format dep).isSome) :
    ∃ ds1, deps.foldlM (loadDesc.handleDep format) ds = some ds1 := by
  induction deps generalizing ds with
  | nil => exact ⟨ds, rfl⟩
  | cons dep deps ih =>
    have hd := h dep (List.mem_cons_self _ _)
    have h1 : ∃ dm, loadDesc.handleDep format ds dep = some dm := by
      unfold loadDesc.handleDep
      cases hr : resolve format dep with
      | none => rw [hr] at hd; simp at hd
      | some r =>
        obtain ⟨d1, flag⟩ := r
        simp only []
        split
        · exact ⟨_, rfl⟩
        · split
          · split
            · exact ⟨_, rfl⟩
            · split <;> exact ⟨_, rfl⟩
          · exact ⟨_, rfl⟩
    obtain ⟨dm, hdm⟩ := h1
    obtain ⟨ds1, hds1⟩ := ih dm (fun d hd' => h d (List.mem_cons_of_mem _ hd'))
    exact ⟨ds1, by rw [List.foldlM_cons, hdm]; exact hds1⟩

theorem Workspace.foldl_AddSource_snd (srcs : List Str) (w : Workspace) (t : Exporter.Target) :
    (srcs.foldl (fun acc source => Workspace.AddSource acc.1 acc.2 source) (w, t)).2
      = srcs.foldl (fun t source =>
          { t with raw_sources := t.raw_sources.append [strings.Trim source ['/']] }) t := by
  induction srcs generalizing w t with
  | nil => rfl
  | cons x xs ih =>
    rw [List.foldl_cons, List.foldl_cons]
    exact ih _ _


theorem Workspace.WF_congr (w1 w2 : Workspace) (h : w1.packages = w2.packages)
    (hwf : w1.WF) : w2.WF := by
  unfold Workspace.WF at hwf ⊢
  rw [← h]
  exact hwf

theorem Workspace.Named_congr (w1 w2 : Workspace) (h : w1.packages = w2.packages)
    (hn : w1.Named) : w2.Named := by
  unfold Workspace.Named at hn ⊢
  rw [← h]
  exact hn

theorem Target.label_foldl_AppendDep (ds : List Label) (t : Target) :
    (ds.foldl Target.AppendDep t).label = t.label := by
  induction ds generalizing t with
  | nil => rfl
  | cons d ds ih => rw [List.foldl_cons, ih]; rfl

theorem Target.label_foldl_raw_sources (srcs : List Str) (t : Target) :
    (srcs.foldl (fun t source =>
      { t with raw_sources := t.raw_sources.append [strings.Trim source ['/']] }) t).label
      = t.label := by
  induction srcs generalizing t with
  | nil => rfl
  | cons d ds ih => rw [List.foldl_cons, ih]

/-- One round keeps the label of the target. -/
theorem loadDesc.visit_label (format : Label → Str) (gt : gn.Target) (t : Target) :
    (loadDesc.visit format gt t).label = t.label := by
  unfold loadDesc.visit
  simp only []
  rw [Target.label_foldl_raw_sources]
  exact Target.label_foldl_AppendDep _ _

/-- What a round that does not abort has done: the entry of the popped label
is there, `ws.Target` and the dependency loop did not abort, the kind is
supported, and the target of the label is stored after one more visit. -/
theorem loadDesc.process_eq (format : Label → Str) (gnTargets : GoMap Label gn.Target)
    (s s1 : loadDesc.State) (label : Label) (rest : List Label)
    (h : loadDesc.process format gnTargets s label rest = some s1) :
    ∃ (gt : gn.Target) (ws1 : Workspace) (target : Target) (d : loadDesc.DepState)
      (W : Workspace), gnTargets.get? label = some gt ∧
      s.ws.Target label = some (ws1, target) ∧
      gt.Deps.foldlM (loadDesc.handleDep format) ⟨target, rest, s.queued⟩ = some d ∧
      (loadDesc.targetType gt.Type_).isSome ∧
      W.packages = ws1.packages ∧
      s1 = { queue := d.queue
             queued := d.queued
             numBazelTargets := s.numBazelTargets + 1
             ws := W.store label (loadDesc.visit format gt target)
             visited := s.visited ++ [label] } := by
  unfold loadDesc.process at h
  cases hg : gnTargets.get? label with
  | none => simp [hg] at h
  | some gt =>
    cases hT : s.ws.Target label with
    | none => simp [hg, hT] at h
    | some r =>
      obtain ⟨ws1, target⟩ := r
      cases hf : gt.Deps.foldlM (loadDesc.handleDep format) ⟨target, rest, s.queued⟩ with
      | none => simp [hg, hT, hf] at h
      | some d =>
        cases hty : loadDesc.targetType gt.Type_ with
        | none => simp [hg, hT, hf, hty] at h
        | some ty =>
          simp only [hg, hT, hf, hty, Option.some.injEq] at h
          obtain ⟨_, e2, _⟩ := loadDesc.foldlM_handleDep_effect format gt.Deps _ d hf
          have e3 := Workspace.foldl_AddSource_snd gt.Sources ws1 { d.target with Type_ := ty }
          have e4 := Workspace.packages_foldl_AddSource gt.Sources ws1
            { d.target with Type_ := ty }
          generalize gt.Sources.foldl
            (fun acc source => Workspace.AddSource acc.1 acc.2 source)
            (ws1, { d.target with Type_ := ty }) = r1 at h e3 e4
          obtain ⟨w1, t1⟩ := r1
          have e5 := Workspace.foldl_AddSource_snd gt.Public w1 t1
          have e6 := Workspace.packages_foldl_AddSource gt.Public w1 t1
          refine ⟨gt, ws1, target, d, _, rfl, rfl, hf, by rw [hty]; rfl, e6.trans e4, ?_⟩
          rw [← h]
          congr 2
          rw [e5]
          simp only [] at e3
          rw [e3]
          unfold loadDesc.visit loadDesc.resolvedDeps
          simp only [hty, Option.getD_some, List.foldl_append]
          rw [e2]

/-- A round does not abort when the popped label has no repository and a
usable entry. -/
theorem loadDesc.process_isSome (format : Label → Str) (gnTargets : GoMap Label gn.Target)
    (s : loadDesc.State) (label : Label) (rest : List Label)
    (hrepo : label.Repository = []) (hu : loadDesc.Usable format gnTargets label) :
    ∃ s1, loadDesc.process format gnTargets s label rest = some s1 := by
  obtain ⟨gt, hg, hty, hres⟩ := hu
  obtain ⟨ws1, target, hT, _⟩ := Workspace.Target_spec s.ws label hrepo
  obtain ⟨d, hf⟩ := loadDesc.foldlM_handleDep_isSome format gt.Deps ⟨target, rest, s.queued⟩ hres
  cases htyeq : loadDesc.targetType gt.Type_ with
  | none => rw [htyeq] at hty; simp at hty
  | some ty =>
    unfold loadDesc.process
    simp only [hg, hT, hf, htyeq]
    exact ⟨_, rfl⟩


/-- A round that does not abort keeps the invariant of the worklist loop,
whichever label of the queue is popped. -/
theorem loadDesc.process_spec (format : Label → Str) (gnTargets : GoMap Label gn.Target)
    (roots : List Label) (s s1 : loadDesc.State) (label : Label) (rest : List Label)
    (hinv : loadDesc.RunInv format gnTargets roots s)
    (hq : s.queue.Perm (label :: rest))
    (h : loadDesc.process format gnTargets s label rest = some s1) :
    loadDesc.RunInv format gnTargets roots s1 ∧ s1.visited = s.visited ++ [label] ∧
      label.Repository = [] ∧ loadDesc.Usable format gnTargets label := by
  obtain ⟨r1, r2, r3, r4, r5, ⟨r6a, r6b, r6c⟩, r7⟩ := hinv
  obtain ⟨gt, ws1, target, d, W, hg, hT, hf, hty, hW, hs1⟩ :=
    loadDesc.process_eq format gnTargets s s1 label rest h
  obtain ⟨e1, e2, e3, e4, e5, e6⟩ := loadDesc.foldlM_handleDep_effect format gt.Deps _ d hf
  simp only [] at e3 e4 e5 e6
  obtain ⟨t1, t2, hrepo, t4, t5⟩ := Workspace.Target_WF s.ws ws1 label target r6a r6b hT
  obtain ⟨ws1', target', hT', _, hpk, _, hother⟩ := Workspace.Target_spec s.ws label hrepo
  rw [hT] at hT'
  simp only [Option.some.injEq, Prod.mk.injEq] at hT'
  obtain ⟨hw, ht⟩ := hT'
  subst hw ht
  have hlq : label ∈ s.queue := hq.symm.subset (List.mem_cons_self _ _)
  have hrest : ∀ l ∈ rest, l ∈ s.queue := fun l hl => hq.symm.subset (List.mem_cons_of_mem _ hl)
  have hlR : Reachable format gnTargets roots label := (r1 label hlq).1
  have husable : loadDesc.Usable format gnTargets label := ⟨gt, hg, hty, e1⟩
  have hmem : ∀ l ∈ d.queue, l ∈ rest ∨
      ∃ dep ∈ gt.Deps, resolve format dep = some (l, true) ∧ l ≠ Label.zero ∧
        l.Repository = [] := by
    intro l hl
    by_cases hlr : l ∈ rest
    · exact Or.inl hlr
    · right
      have c1 : 0 < d.queue.count l := List.count_pos_iff.2 hl
      have c2 : rest.count l = 0 := List.count_eq_zero.2 hlr
      have c3 := e4 l
      unfold loadDesc.pushed at c3
      by_cases hd : d.queued.getD l false = true ∧ l.Repository = []
      · by_cases hs : s.queued.getD l false = true ∧ l.Repository = []
        · rw [if_pos hd, if_pos hs] at c3; omega
        · rcases e5 l hd.1 with h5 | ⟨dep, hdep, hr, hz⟩
          · exact absurd ⟨h5, hd.2⟩ hs
          · exact ⟨dep, hdep, hr, hz, hd.2⟩
      · rw [if_neg hd] at c3
        split at c3 <;> omega
  subst hs1
  refine ⟨⟨?_, ?_, ?_, ?_, ?_, ⟨?_, ?_, ?_⟩, ?_⟩, rfl, hrepo, husable⟩
  · intro l hl
    rcases hmem l hl with h1 | ⟨dep, hdep, hr, hz, hlrepo⟩
    · exact r1 l (hrest l h1)
    · exact ⟨Reachable.step hlR ⟨gt, hg, dep, hdep, hr, hz, hlrepo⟩, Or.inr hlrepo⟩
  · intro l hl
    rcases List.mem_append.1 hl with h1 | h1
    · exact r2 l h1
    · have : l = label := by simpa using h1
      subst this
      exact ⟨hlR, hrepo, husable⟩
  · intro l hl
    rcases hl with h1 | h1 | h1
    · exact e3 l (r3 l (Or.inl h1))
    · rcases hmem l h1 with h2 | ⟨dep, hdep, hr, hz, _⟩
      · exact e3 l (r3 l (Or.inr (Or.inl (hrest l h2))))
      · exact e6 dep hdep l hr hz
    · rcases List.mem_append.1 h1 with h2 | h2
      · exact e3 l (r3 l (Or.inr (Or.inr h2)))
      · have : l = label := by simpa using h2
        subst this
        exact e3 l (r3 l (Or.inr (Or.inl hlq)))
  · intro l
    have c1 := r4 l
    have c2 := e4 l
    have c3 : s.queue.count l = rest.count l + [label].count l := by
      rw [hq.count_eq, List.count_cons, List.count_singleton]
    have c4 : (s.visited ++ [label]).count l = s.visited.count l + [label].count l :=
      List.count_append _ _ _
    unfold loadDesc.pushed at c2
    show d.queue.count l + (s.visited ++ [label]).count l
      = if l ∈ roots then roots.count l
        else if d.queued.getD l false = true ∧ l.Repository = [] then 1 else 0
    by_cases hroot : l ∈ roots
    · rw [if_pos hroot] at c1 ⊢
      have q1 := r3 l (Or.inl hroot)
      have q2 := e3 l q1
      by_cases hlrepo : l.Repository = []
      · rw [if_pos ⟨q1, hlrepo⟩, if_pos ⟨q2, hlrepo⟩] at c2
        omega
      · rw [if_neg (fun hh => hlrepo hh.2), if_neg (fun hh => hlrepo hh.2)] at c2
        omega
    · rw [if_neg hroot] at c1 ⊢
      omega
  · intro p hp d1 hedge
    rcases List.mem_append.1 hp with h1 | h1
    · exact e3 d1 (r5 p h1 d1 hedge)
    · have hpl : p = label := by simpa using h1
      subst hpl
      obtain ⟨gt1, hgt1, dep, hdep, hr, hz, _⟩ := hedge
      rw [hg] at hgt1
      cases hgt1
      exact e6 dep hdep d1 hr hz
  · exact (Workspace.store_WF W label _ (Workspace.WF_congr _ _ hW.symm t1)
      (Workspace.Named_congr _ _ hW.symm t2)
      (by rw [loadDesc.visit_label]; exact t4)).1
  · exact (Workspace.store_WF W label _ (Workspace.WF_congr _ _ hW.symm t1)
      (Workspace.Named_congr _ _ hW.symm t2)
      (by rw [loadDesc.visit_label]; exact t4)).2
  · intro l hlrepo
    show (W.store label (loadDesc.visit format gt target)).lookup l
      = loadDesc.targetAfter format gnTargets l ((s.visited ++ [label]).count l)
    by_cases hslot : l.Package = label.Package ∧ l.Target = label.Target
    · have hl : l = label := by
        cases l; cases label
        simp only [] at hslot hlrepo hrepo
        simp only [Label.mk.injEq]
        exact ⟨hlrepo.trans hrepo.symm, hslot.1, hslot.2⟩
      subst hl
      rw [Workspace.lookup_store_self _ _ _ (by rw [hW]; exact hpk)]
      have hold := r6c l hlrepo
      rw [List.count_append, List.count_singleton_self]
      unfold loadDesc.targetAfter at hold ⊢
      rw [if_neg (Nat.succ_ne_zero _), hg]
      simp only [Option.map_some', Option.some.injEq]
      rw [Function.iterate_succ_apply']
      congr 1
      rcases t5 with h5 | ⟨h5, h6⟩
      · rw [h5, hg] at hold
        by_cases hk : s.visited.count l = 0
        · rw [if_pos hk] at hold; cases hold
        · rw [if_neg hk] at hold
          simp only [Option.map_some', Option.some.injEq] at hold
          exact hold
      · rw [h5, hg] at hold
        by_cases hk : s.visited.count l = 0
        · rw [hk, h6]; rfl
        · rw [if_neg hk] at hold
          simp at hold
    · rw [Workspace.lookup_store_other _ _ _ _ hslot, Workspace.lookup_congr _ ws1 hW,
        hother l hslot, r6c l hlrepo]
      have hne : l ≠ label := fun e => hslot (e ▸ ⟨rfl, rfl⟩)
      rw [List.count_append, List.count_singleton]
      have : (label == l) = false := by
        simp only [beq_eq_false_iff_ne, ne_eq]
        exact fun e => hne e.symm
      simp [this]
  · show s.numBazelTargets + 1 = (s.visited ++ [label]).length
    rw [r7]; simp


theorem gn.mem_depLabels (gnTargets : GoMap Label gn.Target) (p d : Label) (gt : gn.Target)
    (hg : gnTargets.get? p = some gt) (hd : d ∈ gt.Deps) : d ∈ gn.depLabels gnTargets := by
  unfold gn.depLabels
  rw [List.mem_dedup, List.mem_flatten]
  refine ⟨gt.Deps, List.mem_map.2 ⟨gt, List.mem_filterMap.2 ⟨p, ?_, hg⟩, rfl⟩, hd⟩
  rw [GoMap.mem_keys_iff, hg]
  rfl

/-- The round of `loadDesc` pops the last label of the queue. -/
theorem loadDesc.step_isRound (format : Label → Str) (gnTargets : GoMap Label gn.Target) :
    loadDesc.IsRound format gnTargets (loadDesc.step format gnTargets) := by
  intro s hq
  cases hlast : s.queue.getLast? with
  | none => exact absurd (List.getLast?_eq_none_iff.1 hlast) hq
  | some label =>
    have hsplit : s.queue.dropLast ++ [label] = s.queue :=
      List.dropLast_append_getLast? label (by simp [hlast])
    refine ⟨label, s.queue.dropLast, ?_, ?_⟩
    · have h1 : (s.queue.dropLast ++ [label]).Perm ([label] ++ s.queue.dropLast) :=
        List.perm_append_comm
      rw [hsplit] at h1
      exact h1
    · unfold loadDesc.step loadDesc.process
      rw [hlast]

/-- The FIFO round pops the first label of the queue. -/
theorem loadDesc.stepFifo_isRound (format : Label → Str) (gnTargets : GoMap Label gn.Target) :
    loadDesc.IsRound format gnTargets (loadDesc.stepFifo format gnTargets) := by
  intro s hq
  cases hs : s.queue with
  | nil => exact absurd hs hq
  | cons label rest =>
    refine ⟨label, rest, List.Perm.refl _, ?_⟩
    unfold loadDesc.stepFifo
    rw [hs]

theorem loadDesc.loop_eq_loopWith (format : Label → Str) (gnTargets : GoMap Label gn.Target)
    (fuel : Nat) (s : loadDesc.State) :
    loadDesc.loop format gnTargets fuel s
      = loadDesc.loopWith (loadDesc.step format gnTargets) fuel s := by
  induction fuel generalizing s with
  | zero => unfold loadDesc.loop loadDesc.loopWith; rfl
  | succ n ih =>
    unfold loadDesc.loop loadDesc.loopWith
    by_cases hq : s.queue = []
    · simp [hq]
    · simp only [hq, if_false]
      cases loadDesc.step format gnTargets s with
      | none => rfl
      | some s1 => exact ih s1

/-- The invariant holds when the loop is entered. -/
theorem loadDesc.init_runInv (format : Label → Str) (gnTargets : GoMap Label gn.Target)
    (roots : List Label) :
    loadDesc.RunInv format gnTargets roots (loadDesc.init roots) := by
  have hget : ∀ l, (loadDesc.init roots).queued.getD l false = decide (l ∈ roots) := by
    intro l
    unfold loadDesc.init GoMap.getD
    simp only []
    rw [get?_foldl_set_true]
    by_cases h : l ∈ roots <;> simp [h, GoMap.get?]
  refine ⟨?_, ?_, ?_, ?_, ?_, ⟨?_, ?_, ?_⟩, rfl⟩
  · intro l hl
    exact ⟨Reachable.root hl, Or.inl hl⟩
  · intro l hl
    exact absurd hl (List.not_mem_nil l)
  · intro l hl
    rw [hget]
    rcases hl with h | h | h
    · exact decide_eq_true h
    · exact decide_eq_true h
    · exact absurd h (List.not_mem_nil l)
  · intro l
    show roots.count l + ([] : List Label).count l = _
    by_cases hroot : l ∈ roots
    · rw [if_pos hroot]; simp
    · rw [if_neg hroot, hget]
      simp [hroot, List.count_eq_zero.2 hroot]
  · intro p hp
    exact absurd hp (List.not_mem_nil p)
  · exact ⟨List.nodup_nil, fun e he => absurd he (List.not_mem_nil e)⟩
  · intro e he
    exact absurd he (List.not_mem_nil e)
  · intro l _
    rfl

/-- A reachable label is a root or a dependency label of the description. -/
theorem Reachable.root_or_depLabel (format : Label → Str) (gnTargets : GoMap Label gn.Target)
    (roots : List Label) (l : Label) (h : Reachable format gnTargets roots l) :
    l ∈ roots ∨ l ∈ gn.depLabels gnTargets := by
  cases h with
  | root hr => exact Or.inl hr
  | step _ hedge =>
    obtain ⟨gt, hg, d, hd, hr, _, _⟩ := hedge
    have := resolve_flag_true format d l hr
    subst this
    exact Or.inr (gn.mem_depLabels gnTargets _ _ gt hg hd)

/-- The labels waiting and popped are never more than the bound. -/
theorem loadDesc.RunInv.length_le (format : Label → Str) (gnTargets : GoMap Label gn.Target)
    (roots : List Label) (s : loadDesc.State)
    (hinv : loadDesc.RunInv format gnTargets roots s) :
    s.queue.length + s.visited.length ≤ loadDesc.bound gnTargets roots := by
  obtain ⟨r1, r2, r3, r4, r5, r6, r7⟩ := hinv
  have hcount : ∀ l, (s.queue ++ s.visited).count l
      = if l ∈ roots then roots.count l
        else if s.queued.getD l false = true ∧ l.Repository = [] then 1 else 0 := by
    intro l
    rw [List.count_append]
    exact r4 l
  have hlen := List.length_eq_length_filter_add (l := s.queue ++ s.visited)
    (fun l => decide (l ∈ roots))
  have h1 : ((s.queue ++ s.visited).filter (fun l => decide (l ∈ roots))).Perm roots := by
    rw [List.perm_iff_count]
    intro a
    by_cases ha : a ∈ roots
    · rw [List.count_filter (by simpa using ha), hcount a, if_pos ha]
    · rw [List.count_eq_zero.2 ha, List.count_eq_zero]
      intro hmem
      exact ha (by simpa using (List.mem_filter.1 hmem).2)
  have h2 : ((s.queue ++ s.visited).filter (fun l => !decide (l ∈ roots))).Nodup := by
    rw [List.nodup_iff_count_le_one]
    intro a
    by_cases ha : a ∈ roots
    · have : a ∉ (s.queue ++ s.visited).filter (fun l => !decide (l ∈ roots)) := by
        intro hmem
        have := (List.mem_filter.1 hmem).2
        simp [ha] at this
      rw [List.count_eq_zero.2 this]
      omega
    · rw [List.count_filter (by simpa using ha), hcount a, if_neg ha]
      split <;> omega
  have h3 : (s.queue ++ s.visited).filter (fun l => !decide (l ∈ roots))
      ⊆ gn.depLabels gnTargets := by
    intro a hmem
    obtain ⟨ha1, ha2⟩ := List.mem_filter.1 hmem
    have hnr : a ∉ roots := by simpa using ha2
    have hR : Reachable format gnTargets roots a := by
      rcases List.mem_append.1 ha1 with h | h
      · exact (r1 a h).1
      · exact (r2 a h).1
    rcases Reachable.root_or_depLabel format gnTargets roots a hR with h | h
    · exact absurd h hnr
    · exact h
  have h4 := (h2.subperm h3).length_le
  have h5 := h1.length_eq
  rw [List.length_append] at hlen
  unfold loadDesc.bound
  omega


/-- A run that completes ends in a state with an empty queue that satisfies
the invariant. -/
theorem loadDesc.loopWith_done (format : Label → Str) (gnTargets : GoMap Label gn.Target)
    (roots : List Label) (step : loadDesc.State → Option loadDesc.State)
    (hround : loadDesc.IsRound format gnTargets step) (fuel : Nat) (s s1 : loadDesc.State)
    (hinv : loadDesc.RunInv format gnTargets roots s)
    (h : loadDesc.loopWith step fuel s = Outcome.done s1) :
    loadDesc.RunInv format gnTargets roots s1 ∧ s1.queue = [] := by
  induction fuel generalizing s with
  | zero =>
    unfold loadDesc.loopWith at h
    by_cases hq : s.queue = []
    · rw [if_pos hq] at h
      cases h
      exact ⟨hinv, hq⟩
    · rw [if_neg hq] at h
      cases h
  | succ n ih =>
    unfold loadDesc.loopWith at h
    by_cases hq : s.queue = []
    · rw [if_pos hq] at h
      cases h
      exact ⟨hinv, hq⟩
    · rw [if_neg hq] at h
      obtain ⟨label, rest, hperm, hstep⟩ := hround s hq
      simp only [] at h
      cases hs : step s with
      | none => rw [hs] at h; cases h
      | some s2 =>
        rw [hs] at h
        rw [hstep] at hs
        exact ih s2 (loadDesc.process_spec format gnTargets roots s s2 label rest hinv hperm hs).1 h

/-- A run never needs more rounds than the bound. -/
theorem loadDesc.loopWith_ne_fuelOut (format : Label → Str) (gnTargets : GoMap Label gn.Target)
    (roots : List Label) (step : loadDesc.State → Option loadDesc.State)
    (hround : loadDesc.IsRound format gnTargets step) (fuel : Nat) (s : loadDesc.State)
    (hinv : loadDesc.RunInv format gnTargets roots s)
    (hfuel : loadDesc.bound gnTargets roots ≤ fuel + s.visited.length) :
    loadDesc.loopWith step fuel s ≠ Outcome.fuelOut := by
  induction fuel generalizing s with
  | zero =>
    unfold loadDesc.loopWith
    by_cases hq : s.queue = []
    · rw [if_pos hq]; exact fun e => by cases e
    · have hb := loadDesc.RunInv.length_le format gnTargets roots s hinv
      have : 0 < s.queue.length := List.length_pos.2 hq
      omega
  | succ n ih =>
    unfold loadDesc.loopWith
    by_cases hq : s.queue = []
    · rw [if_pos hq]; exact fun e => by cases e
    · rw [if_neg hq]
      obtain ⟨label, rest, hperm, hstep⟩ := hround s hq
      simp only []
      cases hs : step s with
      | none => exact fun e => by cases e
      | some s2 =>
        rw [hstep] at hs
        obtain ⟨hinv2, hv, _⟩ :=
          loadDesc.process_spec format gnTargets roots s s2 label rest hinv hperm hs
        exact ih s2 hinv2 (by rw [hv, List.length_append, List.length_singleton]; omega)

/-- A run does not abort when every reachable label has no repository and a
usable entry. -/
theorem loadDesc.loopWith_ne_panicked (format : Label → Str)
    (gnTargets : GoMap Label gn.Target)
    (roots : List Label) (step : loadDesc.State → Option loadDesc.State)
    (hround : loadDesc.IsRound format gnTargets step)
    (hgraph : ∀ l, Reachable format gnTargets roots l →
      l.Repository = [] ∧ loadDesc.Usable format gnTargets l)
    (fuel : Nat) (s : loadDesc.State)
    (hinv : loadDesc.RunInv format gnTargets roots s) :
    loadDesc.loopWith step fuel s ≠ Outcome.panicked := by
  induction fuel generalizing s with
  | zero =>
    unfold loadDesc.loopWith
    by_cases hq : s.queue = []
    · rw [if_pos hq]; exact fun e => by cases e
    · rw [if_neg hq]; exact fun e => by cases e
  | succ n ih =>
    unfold loadDesc.loopWith
    by_cases hq : s.queue = []
    · rw [if_pos hq]; exact fun e => by cases e
    · rw [if_neg hq]
      obtain ⟨label, rest, hperm, hstep⟩ := hround s hq
      simp only []
      have hlq : label ∈ s.queue := hperm.symm.subset (List.mem_cons_self _ _)
      obtain ⟨hrepo, hu⟩ := hgraph label (hinv.1 label hlq).1
      obtain ⟨s2, hs2⟩ := loadDesc.process_isSome format gnTargets s label rest hrepo hu
      rw [hstep, hs2]
      exact ih s2 (loadDesc.process_spec format gnTargets roots s s2 label rest hinv hperm hs2).1

/-- When the queue is empty every reachable label was popped. -/
theorem loadDesc.RunInv.visited_of_reachable (format : Label → Str)
    (gnTargets : GoMap Label gn.Target) (roots : List Label) (s : loadDesc.State)
    (hinv : loadDesc.RunInv format gnTargets roots s) (hq : s.queue = []) (l : Label)
    (h : Reachable format gnTargets roots l) : l ∈ s.visited := by
  obtain ⟨r1, r2, r3, r4, r5, r6, r7⟩ := hinv
  induction h with
  | @root r hr =>
    have c := r4 r
    rw [if_pos hr, hq, List.count_nil, Nat.zero_add] at c
    exact List.count_pos_iff.1 (by rw [c]; exact List.count_pos_iff.2 hr)
  | @step p d1 _ hedge ih =>
    have hqd := r5 p ih d1 hedge
    obtain ⟨gt, hg, d, hd, hr, hz, hrepo⟩ := hedge
    have c := r4 d1
    rw [hq, List.count_nil, Nat.zero_add] at c
    by_cases hroot : d1 ∈ roots
    · rw [if_pos hroot] at c
      exact List.count_pos_iff.1 (by rw [c]; exact List.count_pos_iff.2 hroot)
    · rw [if_neg hroot, if_pos ⟨hqd, hrepo⟩] at c
      exact List.count_pos_iff.1 (by rw [c]; exact Nat.one_pos)

/-- When the queue is empty, how often a label was popped is fixed by the
roots and the reachable labels: two completed runs agree on it. -/
theorem loadDesc.RunInv.count_eq (format : Label → Str)
    (gnTargets : GoMap Label gn.Target) (roots : List Label) (s s2 : loadDesc.State)
    (hinv : loadDesc.RunInv format gnTargets roots s) (hq : s.queue = [])
    (hinv2 : loadDesc.RunInv format gnTargets roots s2) (hq2 : s2.queue = []) (l : Label) :
    s.visited.count l = s2.visited.count l := by
  have key : ∀ (a b : loadDesc.State), loadDesc.RunInv format gnTargets roots a → a.queue = [] →
      loadDesc.RunInv format gnTargets roots b → b.queue = [] → l ∉ roots →
      a.visited.count l ≤ b.visited.count l := by
    intro a b ha hqa hb hqb hroot
    have c := ha.2.2.2.1 l
    rw [hqa, List.count_nil, Nat.zero_add, if_neg hroot] at c
    by_cases hm : l ∈ a.visited
    · have hR := (ha.2.1 l hm).1
      have := loadDesc.RunInv.visited_of_reachable format gnTargets roots b hb hqb l hR
      have c2 : 0 < b.visited.count l := List.count_pos_iff.2 this
      rw [c]
      split <;> omega
    · rw [List.count_eq_zero.2 hm]
      exact Nat.zero_le _
  by_cases hroot : l ∈ roots
  · have c1 := hinv.2.2.2.1 l
    have c2 := hinv2.2.2.2.1 l
    rw [hq, List.count_nil, Nat.zero_add, if_pos hroot] at c1
    rw [hq2, List.count_nil, Nat.zero_add, if_pos hroot] at c2
    rw [c1, c2]
  · exact Nat.le_antisymm (key s s2 hinv hq hinv2 hq2 hroot) (key s2 s hinv2 hq2 hinv hq hroot)

/-- A lookup does not read the repository of the label. -/
theorem Workspace.lookup_repository (ws : Workspace) (l : Label) :
    ws.lookup l = ws.lookup { l with Repository := [] } := rfl


theorem Target.foldl_AppendDep_Deps (ds : List Label) (t : Target) :
    (ds.foldl Target.AppendDep t).Deps
      = { list := t.Deps.list ++ ds, selections := t.Deps.selections } := by
  induction ds generalizing t with
  | nil => simp
  | cons d ds ih =>
    rw [List.foldl_cons, ih]
    simp [Target.AppendDep, selectableList.append]

theorem Target.foldl_raw_sources_frame (srcs : List Str) (t : Target) :
    (srcs.foldl (fun t source =>
      { t with raw_sources := t.raw_sources.append [strings.Trim source ['/']] }) t).Deps
      = t.Deps ∧
    (srcs.foldl (fun t source =>
      { t with raw_sources := t.raw_sources.append [strings.Trim source ['/']] }) t).Type_
      = t.Type_ := by
  induction srcs generalizing t with
  | nil => exact ⟨rfl, rfl⟩
  | cons d ds ih =>
    rw [List.foldl_cons]
    exact ih _

/-- One round appends the resolved dependencies of the entry to the
unconditioned dependencies of the target. -/
theorem loadDesc.visit_Deps (format : Label → Str) (gt : gn.Target) (t : Target) :
    (loadDesc.visit format gt t).Deps
      = { list := t.Deps.list ++ loadDesc.resolvedDeps format gt
          selections := t.Deps.selections } := by
  unfold loadDesc.visit
  simp only []
  rw [(Target.foldl_raw_sources_frame _ _).1]
  exact Target.foldl_AppendDep_Deps _ _

/-- One round sets the type of the target after the kind of the entry. -/
theorem loadDesc.visit_Type_ (format : Label → Str) (gt : gn.Target) (t : Target) :
    (loadDesc.visit format gt t).Type_ = (loadDesc.targetType gt.Type_).getD [] := by
  unfold loadDesc.visit
  simp only []
  rw [(Target.foldl_raw_sources_frame _ _).2]

/-- The dependencies of a target after some rounds: those it had and the
resolved dependencies of the entry, none under a condition key. -/
theorem loadDesc.iterate_visit_Deps (format : Label → Str) (gt : gn.Target) (t : Target)
    (k : Nat) :
    ((loadDesc.visit format gt)^[k] t).Deps.selections = t.Deps.selections ∧
    (∀ d, d ∈ ((loadDesc.visit format gt)^[k] t).Deps.list →
      d ∈ t.Deps.list ∨ d ∈ loadDesc.resolvedDeps format gt) ∧
    (0 < k → ∀ d ∈ loadDesc.resolvedDeps format gt,
      d ∈ ((loadDesc.visit format gt)^[k] t).Deps.list) := by
  induction k with
  | zero => exact ⟨rfl, fun d hd => Or.inl hd, fun h => absurd h (Nat.lt_irrefl 0)⟩
  | succ n ih =>
    rw [Function.iterate_succ_apply', loadDesc.visit_Deps]
    obtain ⟨h1, h2, _⟩ := ih
    refine ⟨h1, ?_, ?_⟩
    · intro d hd
      rcases List.mem_append.1 hd with h | h
      · exact h2 d h
      · exact Or.inr h
    · intro _ d hd
      exact List.mem_append.2 (Or.inr hd)

/-- The target that a completed run leaves for a popped label: some rounds
on the fresh target of the label. -/
theorem loadDesc.RunInv.lookup_visited (format : Label → Str)
    (gnTargets : GoMap Label gn.Target) (roots : List Label) (s : loadDesc.State)
    (hinv : loadDesc.RunInv format gnTargets roots s) (l : Label) (hl : l ∈ s.visited) :
    ∃ gt k, gnTargets.get? l = some gt ∧ (loadDesc.targetType gt.Type_).isSome ∧
      (∀ d ∈ gt.Deps, (resolve format d).isSome) ∧ l.Repository = [] ∧
      s.ws.lookup l = some ((loadDesc.visit format gt)^[k + 1] (Target.fresh l)) := by
  obtain ⟨_, ⟨gt, hg, hty, hres⟩⟩ := (hinv.2.1 l hl).2
  have hrepo := (hinv.2.1 l hl).2.1
  have h6 := hinv.2.2.2.2.2.1.2.2 l hrepo
  have hc : 0 < s.visited.count l := List.count_pos_iff.2 hl
  obtain ⟨k, hk⟩ : ∃ k, s.visited.count l = k + 1 := ⟨s.visited.count l - 1, by omega⟩
  refine ⟨gt, k, hg, hty, hres, hrepo, ?_⟩
  rw [h6, hk]
  unfold loadDesc.targetAfter
  rw [if_neg (Nat.succ_ne_zero k), hg]
  rfl

/-- A label that was not popped has no target in the workspace. -/
theorem loadDesc.RunInv.lookup_not_visited (format : Label → Str)
    (gnTargets : GoMap Label gn.Target) (roots : List Label) (s : loadDesc.State)
    (hinv : loadDesc.RunInv format gnTargets roots s) (l : Label) (hrepo : l.Repository = [])
    (hl : l ∉ s.visited) : s.ws.lookup l = none := by
  rw [hinv.2.2.2.2.2.1.2.2 l hrepo, List.count_eq_zero.2 hl]
  rfl


/-- A completed run of `loadDesc` ends in a state with an empty queue that
satisfies the invariant of the worklist loop. -/
theorem loadDesc.done_runInv (format : Label → Str) (gnTargets : GoMap Label gn.Target)
    (roots : List Label) (fuel : Nat) (s : loadDesc.State)
    (h : loadDesc format gnTargets roots fuel = Outcome.done s) :
    loadDesc.RunInv format gnTargets roots s ∧ s.queue = [] := by
  unfold loadDesc at h
  rw [loadDesc.loop_eq_loopWith] at h
  exact loadDesc.loopWith_done format gnTargets roots _
    (loadDesc.step_isRound format gnTargets) fuel _ s
    (loadDesc.init_runInv format gnTargets roots) h

/-- Two well-formed workspaces with the same lookups hold the same targets. -/
theorem Workspace.rangeTargets_perm (ord1 ord2 : MapOrder) (w1 w2 : Workspace)
    (hwf1 : w1.WF) (hwf2 : w2.WF) (h : ∀ l, w1.lookup l = w2.lookup l) :
    (w1.rangeTargets ord1).Perm (w2.rangeTargets ord2) := by
  rw [List.perm_iff_count]
  intro t
  by_cases hr : t.label.Repository = []
  · have hc : ∀ l : List Exporter.Target,
        (l.filter (fun x => decide (x.label = t.label))).count t = l.count t :=
      fun l => List.count_filter (by simp)
    rw [← hc (w1.rangeTargets ord1), ← hc (w2.rangeTargets ord2),
      Workspace.filter_rangeTargets ord1 w1 hwf1 _ hr,
      Workspace.filter_rangeTargets ord2 w2 hwf2 _ hr, h]
  · have h1 : t ∉ w1.rangeTargets ord1 :=
      fun hm => hr (Workspace.repository_of_mem_rangeTargets ord1 w1 hwf1 t hm)
    have h2 : t ∉ w2.rangeTargets ord2 :=
      fun hm => hr (Workspace.repository_of_mem_rangeTargets ord2 w2 hwf2 t hm)
    rw [List.count_eq_zero.2 h1, List.count_eq_zero.2 h2]

/-- C11. For every description, root list and amount of fuel on which the
closure of `loadDesc` (worklist popped at the end) completes, the closure with
the worklist popped at the front completes too, given fuel for the bound on
the rounds, and builds the same workspace content: every label looks up the
same target, dependencies included, the targets of the two workspaces are the
same in every map iteration order, and the same labels were popped. -/
theorem loadDesc_fifo_same_targets (format : Label → Str) (gnTargets : GoMap Label gn.Target)
    (roots : List Label) (fuel : Nat) (sL : loadDesc.State)
    (h : loadDesc format gnTargets roots fuel = Outcome.done sL) (fuel1 : Nat)
    (hfuel : loadDesc.bound gnTargets roots ≤ fuel1) :
    ∃ sF, loadDescFifo format gnTargets roots fuel1 = Outcome.done sF ∧
      (∀ l, sF.ws.lookup l = sL.ws.lookup l) ∧
      (∀ ord1 ord2, (sF.ws.rangeTargets ord1).Perm (sL.ws.rangeTargets ord2)) ∧
      (∀ l, l ∈ sF.visited ↔ l ∈ sL.visited) := by
  obtain ⟨hinvL, hqL⟩ := loadDesc.done_runInv format gnTargets roots fuel sL h
  have hgraph : ∀ l, Reachable format gnTargets roots l →
      l.Repository = [] ∧ loadDesc.Usable format gnTargets l := by
    intro l hl
    exact (hinvL.2.1 l
      (loadDesc.RunInv.visited_of_reachable format gnTargets roots sL hinvL hqL l hl)).2
  have hround := loadDesc.stepFifo_isRound format gnTargets
  have hinit := loadDesc.init_runInv format gnTargets roots
  cases hF : loadDescFifo format gnTargets roots fuel1 with
  | panicked =>
    exact absurd hF
      (loadDesc.loopWith_ne_panicked format gnTargets roots _ hround hgraph fuel1 _ hinit)
  | fuelOut =>
    exact absurd hF
      (loadDesc.loopWith_ne_fuelOut format gnTargets roots _ hround fuel1 _ hinit
        (Nat.le_trans hfuel (Nat.le_add_right _ _)))
  | done sF =>
    obtain ⟨hinvF, hqF⟩ :=
      loadDesc.loopWith_done format gnTargets roots _ hround fuel1 _ sF hinit hF
    have hcount := loadDesc.RunInv.count_eq format gnTargets roots sF sL hinvF hqF hinvL hqL
    have hlookup : ∀ l, sF.ws.lookup l = sL.ws.lookup l := by
      intro l
      rw [Workspace.lookup_repository sF.ws l, Workspace.lookup_repository sL.ws l,
        hinvF.2.2.2.2.2.1.2.2 _ rfl, hinvL.2.2.2.2.2.1.2.2 _ rfl, hcount]
    refine ⟨sF, rfl, hlookup, ?_, ?_⟩
    · intro ord1 ord2
      exact Workspace.rangeTargets_perm ord1 ord2 sF.ws sL.ws hinvF.2.2.2.2.2.1.1
        hinvL.2.2.2.2.2.1.1 hlookup
    · intro l
      rw [← List.count_pos_iff, ← List.count_pos_iff, hcount]

/-- C11, at the closure scenario of the specification: the FIFO closure of
the scenario graph builds the targets of the LIFO closure. -/
theorem loadDesc_fifo_same_targets_witness :
    loadDesc Label.Format Examples.graph [Examples.A] 10 = Outcome.done Examples.closure ∧
    loadDesc.bound Examples.graph [Examples.A] ≤ 2 ∧
    ∃ sF, loadDescFifo Label.Format Examples.graph [Examples.A] 2 = Outcome.done sF ∧
      (∀ l, sF.ws.lookup l = Examples.closure.ws.lookup l) ∧
      (∀ ord1 ord2, (sF.ws.rangeTargets ord1).Perm (Examples.closure.ws.rangeTargets ord2)) ∧
      (∀ l, l ∈ sF.visited ↔ l ∈ Examples.closure.visited) :=
  ⟨by decide, by decide,
    loadDesc_fifo_same_targets Label.Format Examples.graph [Examples.A] 10 Examples.closure
      (by decide) 2 (by decide)⟩

/-- C12. For every description, cyclic or not, and every root list, the
worklist loop of `loadDesc` ends within the bound, the number of root entries
plus the number of distinct dependency labels: with that much fuel it never
runs out of fuel, and a completed run has counted as many rounds as it popped
labels, at most the bound, a label that is not a root at most once.  The
dependency loop never pushes a label that is already marked, and a label it
pushes is marked. -/
theorem loadDesc_terminates_within_bound (format : Label → Str)
    (gnTargets : GoMap Label gn.Target) (roots : List Label) (fuel : Nat)
    (hfuel : loadDesc.bound gnTargets roots ≤ fuel) :
    loadDesc format gnTargets roots fuel ≠ Outcome.fuelOut ∧
    (∀ s, loadDesc format gnTargets roots fuel = Outcome.done s →
      s.numBazelTargets = s.visited.length ∧
      s.visited.length ≤ loadDesc.bound gnTargets roots ∧
      ∀ l, l ∉ roots → s.visited.count l ≤ 1) ∧
    (∀ ds dep ds1 l, loadDesc.handleDep format ds dep = some ds1 →
      (ds.queued.getD l false = true → ds1.queue.count l = ds.queue.count l) ∧
      (ds.queue.count l < ds1.queue.count l → ds1.queued.getD l false = true)) := by
  refine ⟨?_, ?_, ?_⟩
  · unfold loadDesc
    rw [loadDesc.loop_eq_loopWith]
    exact loadDesc.loopWith_ne_fuelOut format gnTargets roots _
      (loadDesc.step_isRound format gnTargets) fuel _
      (loadDesc.init_runInv format gnTargets roots)
      (Nat.le_trans hfuel (Nat.le_add_right _ _))
  · intro s hs
    obtain ⟨hinv, hq⟩ := loadDesc.done_runInv format gnTargets roots fuel s hs
    have hb := loadDesc.RunInv.length_le format gnTargets roots s hinv
    refine ⟨hinv.2.2.2.2.2.2, by omega, ?_⟩
    intro l hl
    have c := hinv.2.2.2.1 l
    rw [if_neg hl] at c
    split at c <;> omega
  · intro ds dep ds1 l hd
    obtain ⟨_, _, a3, a4, _, _⟩ := loadDesc.handleDep_effect format ds ds1 dep hd
    have c := a4 l
    unfold loadDesc.pushed at c
    constructor
    · intro hq
      have hq1 := a3 l hq
      by_cases hrepo : l.Repository = []
      · rw [if_pos ⟨hq, hrepo⟩, if_pos ⟨hq1, hrepo⟩] at c
        omega
      · rw [if_neg (fun hh => hrepo hh.2), if_neg (fun hh => hrepo hh.2)] at c
        omega
    · intro hlt
      by_cases hq1 : ds1.queued.getD l false = true ∧ l.Repository = []
      · exact hq1.1
      · rw [if_neg hq1] at c
        omega

/-- C12, at a description with a cycle and a self-dependency: with fuel for
the bound, three rounds, the loop completes after popping two labels. -/
theorem loadDesc_terminates_within_bound_witness :
    loadDesc.bound Examples.graphCyclic [Examples.A] ≤ 3 ∧
    (loadDesc Label.Format Examples.graphCyclic [Examples.A] 3 ≠ Outcome.fuelOut ∧
    (∀ s, loadDesc Label.Format Examples.graphCyclic [Examples.A] 3 = Outcome.done s →
      s.numBazelTargets = s.visited.length ∧
      s.visited.length ≤ loadDesc.bound Examples.graphCyclic [Examples.A] ∧
      ∀ l, l ∉ [Examples.A] → s.visited.count l ≤ 1) ∧
    (∀ ds dep ds1 l, loadDesc.handleDep Label.Format ds dep = some ds1 →
      (ds.queued.getD l false = true → ds1.queue.count l = ds.queue.count l) ∧
      (ds.queue.count l < ds1.queue.count l → ds1.queued.getD l false = true))) ∧
    (match loadDesc Label.Format Examples.graphCyclic [Examples.A] 3 with
      | Outcome.done s => some s.visited
      | _ => none) = some [Examples.A, Examples.B] :=
  ⟨by decide,
    loadDesc_terminates_within_bound Label.Format Examples.graphCyclic [Examples.A] 3
      (by decide),
    by decide⟩


/-- C14. For every label whose package is `third_party/libevent` or
`base/third_party/libevent`, whatever its target name: `resolve` returns the
fixed label `@pkg_config//libevent:libevent` with the traverse flag false;
the dependency loop of `loadDesc` appends the fixed label to the dependencies
of the target and leaves the queue and the marks as they are; a completed
closure has recorded the fixed label on every popped target whose entry lists
such a dependency, and has not popped the fixed label. -/
theorem resolve_libevent_recorded_not_traversed (format : Label → Str) (l : Label)
    (h : l.Package = "third_party/libevent".data ∨
      l.Package = "base/third_party/libevent".data) :
    resolve format l = some (⟨"pkg_config".data, "libevent".data, "libevent".data⟩, false) ∧
    (∀ ds : loadDesc.DepState, loadDesc.handleDep format ds l
      = some { target := ds.target.AppendDep ⟨"pkg_config".data, "libevent".data,
                 "libevent".data⟩
               queue := ds.queue
               queued := ds.queued }) ∧
    (∀ gnTargets roots fuel s, loadDesc format gnTargets roots fuel = Outcome.done s →
      (⟨"pkg_config".data, "libevent".data, "libevent".data⟩ : Label) ∉ s.visited ∧
      ∀ p ∈ s.visited, ∀ gt, gnTargets.get? p = some gt → l ∈ gt.Deps →
        ∃ t, s.ws.lookup p = some t ∧
          (⟨"pkg_config".data, "libevent".data, "libevent".data⟩ : Label) ∈ t.Deps.list) := by
  have hr := resolve_of_libevent format l h
  refine ⟨hr, ?_, ?_⟩
  · intro ds
    unfold loadDesc.handleDep
    rw [hr]
    rfl
  · intro gnTargets roots fuel s hs
    obtain ⟨hinv, _⟩ := loadDesc.done_runInv format gnTargets roots fuel s hs
    constructor
    · intro hmem
      have := (hinv.2.1 _ hmem).2.1
      simp at this
    · intro p hp gt hg hl
      obtain ⟨gt1, k, hg1, _, _, _, hlook⟩ :=
        loadDesc.RunInv.lookup_visited format gnTargets roots s hinv p hp
      rw [hg] at hg1
      cases hg1
      refine ⟨_, hlook, ?_⟩
      apply (loadDesc.iterate_visit_Deps format gt (Target.fresh p) (k + 1)).2.2
        (Nat.succ_pos k)
      unfold loadDesc.resolvedDeps
      rw [List.mem_filterMap]
      refine ⟨l, hl, ?_⟩
      unfold loadDesc.recordedDep
      rw [hr]
      rfl

/-- C14, at `//third_party/libevent:event`: the closure of a description in
which `//a:a` depends on it records `@pkg_config//libevent:libevent` on
`//a:a` and pops `//a:a` only. -/
theorem resolve_libevent_recorded_not_traversed_witness :
    (Examples.E.Package = "third_party/libevent".data ∨
      Examples.E.Package = "base/third_party/libevent".data) ∧
    (resolve Label.Format Examples.E = some (Examples.libevent, false) ∧
    (∀ ds : loadDesc.DepState, loadDesc.handleDep Label.Format ds Examples.E
      = some { target := ds.target.AppendDep Examples.libevent
               queue := ds.queue
               queued := ds.queued }) ∧
    (∀ gnTargets roots fuel s, loadDesc Label.Format gnTargets roots fuel = Outcome.done s →
      Examples.libevent ∉ s.visited ∧
      ∀ p ∈ s.visited, ∀ gt, gnTargets.get? p = some gt → Examples.E ∈ gt.Deps →
        ∃ t, s.ws.lookup p = some t ∧ Examples.libevent ∈ t.Deps.list)) ∧
    (match loadDesc Label.Format Examples.graphLibevent [Examples.A] 10 with
      | Outcome.done s =>
        some (s.visited, (s.ws.lookup Examples.A).map (fun t => t.Deps.list))
      | _ => none) = some ([Examples.A], some [Examples.libevent]) :=
  ⟨by decide,
    resolve_libevent_recorded_not_traversed Label.Format Examples.E (by decide),
    by decide⟩

/-- C16. For every label that a completed closure popped, the target built
for it has the type `cc_library` when the kind of its entry is `source_set`
or `static_library`, and `cc_binary` when the kind is `executable`.  When
some label reachable from the roots has an entry of any other kind, the
closure does not complete: `loadDesc` aborts, given fuel for the bound. -/
theorem loadDesc_type_of_kind (format : Label → Str) (gnTargets : GoMap Label gn.Target)
    (roots : List Label) (fuel : Nat) :
    (∀ s, loadDesc format gnTargets roots fuel = Outcome.done s → ∀ l ∈ s.visited,
      ∃ gt t, gnTargets.get? l = some gt ∧ s.ws.lookup l = some t ∧
        (((gt.Type_ = "source_set".data ∨ gt.Type_ = "static_library".data) ∧
            t.Type_ = "cc_library".data) ∨
          (gt.Type_ = "executable".data ∧ t.Type_ = "cc_binary".data))) ∧
    (∀ l gt, Reachable format gnTargets roots l → gnTargets.get? l = some gt →
      ¬ (gt.Type_ = "source_set".data ∨ gt.Type_ = "static_library".data ∨
        gt.Type_ = "executable".data) →
      (∀ s, loadDesc format gnTargets roots fuel ≠ Outcome.done s) ∧
      (loadDesc.bound gnTargets roots ≤ fuel →
        loadDesc format gnTargets roots fuel = Outcome.panicked)) := by
  constructor
  · intro s hs l hl
    obtain ⟨hinv, _⟩ := loadDesc.done_runInv format gnTargets roots fuel s hs
    obtain ⟨gt, k, hg, hty, _, _, hlook⟩ :=
      loadDesc.RunInv.lookup_visited format gnTargets roots s hinv l hl
    refine ⟨gt, _, hg, hlook, ?_⟩
    rw [Function.iterate_succ_apply', loadDesc.visit_Type_]
    unfold loadDesc.targetType at hty ⊢
    by_cases h1 : gt.Type_ = "source_set".data ∨ gt.Type_ = "static_library".data
    · rw [if_pos h1]
      exact Or.inl ⟨h1, rfl⟩
    · rw [if_neg h1] at hty ⊢
      by_cases h2 : gt.Type_ = "executable".data
      · rw [if_pos h2]
        exact Or.inr ⟨h2, rfl⟩
      · rw [if_neg h2] at hty
        simp at hty
  · intro l gt hR hg hkind
    have hnot : ∀ s, loadDesc format gnTargets roots fuel ≠ Outcome.done s := by
      intro s hs
      obtain ⟨hinv, hq⟩ := loadDesc.done_runInv format gnTargets roots fuel s hs
      have hl := loadDesc.RunInv.visited_of_reachable format gnTargets roots s hinv hq l hR
      obtain ⟨gt1, hg1, hty, _⟩ := (hinv.2.1 l hl).2.2
      rw [hg] at hg1
      cases hg1
      unfold loadDesc.targetType at hty
      by_cases h1 : gt.Type_ = "source_set".data ∨ gt.Type_ = "static_library".data
      · rcases h1 with h1 | h1
        · exact hkind (Or.inl h1)
        · exact hkind (Or.inr (Or.inl h1))
      · rw [if_neg h1] at hty
        by_cases h2 : gt.Type_ = "executable".data
        · exact hkind (Or.inr (Or.inr h2))
        · rw [if_neg h2] at hty
          simp at hty
    refine ⟨hnot, ?_⟩
    intro hfuel
    cases hrun : loadDesc format gnTargets roots fuel with
    | done s => exact absurd hrun (hnot s)
    | panicked => rfl
    | fuelOut =>
      have : loadDesc format gnTargets roots fuel ≠ Outcome.fuelOut := by
        unfold loadDesc
        rw [loadDesc.loop_eq_loopWith]
        exact loadDesc.loopWith_ne_fuelOut format gnTargets roots _
          (loadDesc.step_isRound format gnTargets) fuel _
          (loadDesc.init_runInv format gnTargets roots)
          (Nat.le_trans hfuel (Nat.le_add_right _ _))
      exact absurd hrun this

/-- C16, at the closure scenario of the specification: both `source_set`
targets, `//a:a` and `//a:b`, become `cc_library` targets; with `//a:b` of the
kind `group` instead the closure aborts. -/
theorem loadDesc_type_of_kind_witness :
    loadDesc Label.Format Examples.graph [Examples.A] 10 = Outcome.done Examples.closure ∧
    (∀ l ∈ Examples.closure.visited,
      ∃ gt t, Examples.graph.get? l = some gt ∧ Examples.closure.ws.lookup l = some t ∧
        (((gt.Type_ = "source_set".data ∨ gt.Type_ = "static_library".data) ∧
            t.Type_ = "cc_library".data) ∨
          (gt.Type_ = "executable".data ∧ t.Type_ = "cc_binary".data))) ∧
    Examples.closure.visited = [Examples.A, Examples.B] ∧
    (Examples.closure.ws.lookup Examples.A).map (fun t => t.Type_) = some "cc_library".data ∧
    (Examples.closure.ws.lookup Examples.B).map (fun t => t.Type_) = some "cc_library".data ∧
    loadDesc Label.Format Examples.graphGroup [Examples.A] 10 = Outcome.panicked :=
  ⟨by decide,
    (loadDesc_type_of_kind Label.Format Examples.graph [Examples.A] 10).1 Examples.closure
      (by decide),
    by decide, by decide, by decide, by decide⟩


theorem foldl_flatten_map {α β γ : Type} (g : γ → β → γ) (f : α → List β) (l : List α)
    (c : γ) : ((l.map f).flatten).foldl g c = l.foldl (fun c a => (f a).foldl g c) c := by
  induction l generalizing c with
  | nil => rfl
  | cons x xs ih => simp [List.foldl_append, ih]

/-- Go `resolveSources` as one loop over the passes of its innermost loop. -/
theorem resolveSources_eq_foldl (ord : MapOrder) (ws : Workspace) :
    resolveSources ord ws
      = (resolveSources.entries ord ws).foldl
          (fun w ev => resolveSources.body (resolveSources.packageDirs ord ws)
            ev.pkgKey ev.pkgName ev.tKey w ev.source) ws := by
  unfold resolveSources resolveSources.entries
  simp only []
  rw [foldl_flatten_map]
  congr 1
  funext ws1 e
  rw [foldl_flatten_map]
  congr 1
  funext ws2 f
  rw [List.foldl_map]

theorem resolveSources.mem_entries (ord : MapOrder) (ws : Workspace)
    (ev : resolveSources.Entry) :
    ev ∈ resolveSources.entries ord ws ↔
      ∃ e ∈ ws.packages, ∃ f ∈ e.2.targets, ∃ source ∈ f.2.raw_sources.items ord,
        ev = ⟨e.1, e.2.name, f.1, source⟩ := by
  unfold resolveSources.entries
  constructor
  · intro h
    obtain ⟨l, hl, hev⟩ := List.mem_flatten.1 h
    obtain ⟨e, he, rfl⟩ := List.mem_map.1 hl
    obtain ⟨l2, hl2, hev2⟩ := List.mem_flatten.1 hev
    obtain ⟨f, hf, rfl⟩ := List.mem_map.1 hl2
    obtain ⟨source, hs, rfl⟩ := List.mem_map.1 hev2
    exact ⟨e, (ord.mem_iter _ e).1 he, f, (ord.mem_iter _ f).1 hf, source, hs, rfl⟩
  · rintro ⟨e, he, f, hf, source, hs, rfl⟩
    refine List.mem_flatten.2 ⟨_, List.mem_map.2 ⟨e, (ord.mem_iter _ e).2 he, rfl⟩, ?_⟩
    refine List.mem_flatten.2 ⟨_, List.mem_map.2 ⟨f, (ord.mem_iter _ f).2 hf, rfl⟩, ?_⟩
    exact List.mem_map.2 ⟨source, hs, rfl⟩

/-- The packages after the export of one file: the exporting package has the
targets it had, none when it is new, and one more exported file. -/
theorem resolveSources.export_get? (ws : Workspace) (label : Label) :
    ∃ p : Package,
      (∀ k, (resolveSources.export ws label).packages.get? k
        = if label.Package = k then some p else ws.packages.get? k) ∧
      p.targets = ((ws.packages.get? label.Package).map (fun q => q.targets)).getD
        ([] : GoMap Str Exporter.Target) ∧
      p.exportFiles = GoMap.set (((ws.packages.get? label.Package).map
        (fun q => q.exportFiles)).getD ([] : GoMap Str Bool)) label.Target true := by
  unfold resolveSources.export Workspace.pkg
  cases hp : ws.packages.get? label.Package with
  | none =>
    refine ⟨⟨label.Package, [], GoMap.set ([] : GoMap Str Bool) label.Target true⟩,
      ?_, rfl, rfl⟩
    intro k
    simp only []
    rw [GoMap.get?_set]
    by_cases hk : label.Package = k
    · rw [if_pos hk, if_pos hk]
    · rw [if_neg hk, if_neg hk, GoMap.get?_set_ne _ hk]
  | some q =>
    refine ⟨⟨q.name, q.targets, q.exportFiles.set label.Target true⟩, ?_, rfl, rfl⟩
    intro k
    simp only []
    rw [GoMap.get?_set]

/-- The export of a file changes no target. -/
theorem resolveSources.export_lookup (ws : Workspace) (label l : Label) :
    (resolveSources.export ws label).lookup l = ws.lookup l := by
  obtain ⟨p, h1, h2, _⟩ := resolveSources.export_get? ws label
  unfold Workspace.lookup
  rw [h1]
  by_cases hk : label.Package = l.Package
  · rw [if_pos hk, ← hk]
    simp only []
    rw [h2]
    cases ws.packages.get? label.Package <;> rfl
  · rw [if_neg hk]

theorem resolveSources.export_exported (ws : Workspace) (label : Label) (P f : Str) :
    (resolveSources.export ws label).exported P f
      = (ws.exported P f || (decide (label.Package = P) && decide (label.Target = f))) := by
  obtain ⟨p, h1, _, h3⟩ := resolveSources.export_get? ws label
  unfold Workspace.exported
  rw [h1]
  by_cases hk : label.Package = P
  · rw [if_pos hk]
    simp only []
    rw [h3, GoMap.get?_set, hk]
    by_cases hf : label.Target = f
    · simp [hf]
    · simp only [hf, if_false, decide_False, Bool.and_false, Bool.or_false]
      cases ws.packages.get? P <;> rfl
  · rw [if_neg hk]
    simp [hk]

theorem resolveSources.export_exportSet (ws : Workspace) (label : Label) (P : Str)
    (h : label.Package ≠ P) :
    (resolveSources.export ws label).exportSet P = ws.exportSet P := by
  obtain ⟨p, h1, _, _⟩ := resolveSources.export_get? ws label
  unfold Workspace.exportSet
  rw [h1, if_neg h]

theorem Workspace.update_get? (ws : Workspace) (pkgKey tKey : Str)
    (g : Exporter.Target → Exporter.Target) (k : Str) :
    (ws.update pkgKey tKey g).packages.get? k
      = if pkgKey = k then
          (ws.packages.get? k).map (fun p =>
            match p.targets.get? tKey with
            | some t => { p with targets := p.targets.set tKey (g t) }
            | none => p)
        else ws.packages.get? k := by
  unfold Workspace.update
  by_cases hk : pkgKey = k
  · subst hk
    rw [if_pos rfl]
    cases hp : ws.packages.get? pkgKey with
    | none => simp [hp]
    | some p =>
      cases ht : p.targets.get? tKey with
      | none => simp [hp, ht]
      | some t => simp [ht, GoMap.get?_set_self]
  · rw [if_neg hk]
    cases hp : ws.packages.get? pkgKey with
    | none => rfl
    | some p =>
      simp only []
      cases ht : p.targets.get? tKey with
      | none => rfl
      | some t =>
        simp only []
        rw [GoMap.get?_set_ne _ hk]

/-- A write through the pointer of a target changes that target only. -/
theorem Workspace.update_lookup (ws : Workspace) (pkgKey tKey : Str)
    (g : Exporter.Target → Exporter.Target) (l : Label) :
    (ws.update pkgKey tKey g).lookup l
      = if pkgKey = l.Package ∧ tKey = l.Target then (ws.lookup l).map g else ws.lookup l := by
  unfold Workspace.lookup
  rw [Workspace.update_get?]
  by_cases hk : pkgKey = l.Package
  · rw [if_pos hk]
    cases hp : ws.packages.get? l.Package with
    | none => simp
    | some p =>
      simp only [Option.map_some']
      cases ht : p.targets.get? tKey with
      | none =>
        simp only []
        by_cases h2 : tKey = l.Target
        · rw [if_pos ⟨hk, h2⟩, ← h2, ht]; rfl
        · rw [if_neg (fun hh => h2 hh.2)]
      | some t =>
        simp only []
        by_cases h2 : tKey = l.Target
        · rw [if_pos ⟨hk, h2⟩, ← h2, GoMap.get?_set_self, ht]; rfl
        · rw [if_neg (fun hh => h2 hh.2), GoMap.get?_set_ne _ h2]
  · rw [if_neg hk, if_neg (fun hh => hk hh.1)]

theorem Workspace.update_exportSet (ws : Workspace) (pkgKey tKey : Str)
    (g : Exporter.Target → Exporter.Target) (P : Str) :
    (ws.update pkgKey tKey g).exportSet P = ws.exportSet P := by
  unfold Workspace.exportSet
  rw [Workspace.update_get?]
  by_cases hk : pkgKey = P
  · rw [if_pos hk]
    cases hp : ws.packages.get? P with
    | none => rfl
    | some p =>
      simp only [Option.map_some']
      cases p.targets.get? tKey <;> rfl
  · rw [if_neg hk]

theorem Workspace.exported_eq (ws : Workspace) (P f : Str) :
    ws.exported P f = ((ws.exportSet P).map (fun m => (m.get? f).isSome)).getD false := by
  unfold Workspace.exported Workspace.exportSet
  cases ws.packages.get? P <;> rfl


theorem resolveSources.body_lookup (packages : List Str) (pkgKey pkgName tKey : Str)
    (ws : Workspace) (source : conditioned Str) (l : Label) :
    (resolveSources.body packages pkgKey pkgName tKey ws source).lookup l
      = if pkgKey = l.Package ∧ tKey = l.Target then
          (ws.lookup l).map
            (resolveSources.classify source (resolveSource packages source.value))
        else ws.lookup l := by
  unfold resolveSources.body
  simp only []
  rw [Workspace.update_lookup]
  have h : ∀ l, (if (resolveSource packages source.value).Package ≠ pkgName then
      resolveSources.export ws (resolveSource packages source.value) else ws).lookup l
      = ws.lookup l := by
    intro l
    split
    · exact resolveSources.export_lookup _ _ _
    · rfl
  rw [h]

theorem resolveSources.body_exportSet (packages : List Str) (pkgKey pkgName tKey : Str)
    (ws : Workspace) (source : conditioned Str) (P : Str)
    (h : ¬ ((resolveSource packages source.value).Package ≠ pkgName ∧
      (resolveSource packages source.value).Package = P)) :
    (resolveSources.body packages pkgKey pkgName tKey ws source).exportSet P
      = ws.exportSet P := by
  unfold resolveSources.body
  simp only []
  rw [Workspace.update_exportSet]
  split
  · rename_i h1
    exact resolveSources.export_exportSet _ _ _ (fun e => h ⟨h1, e⟩)
  · rfl

theorem resolveSources.body_exported (packages : List Str) (pkgKey pkgName tKey : Str)
    (ws : Workspace) (source : conditioned Str) (P f : Str) :
    (resolveSources.body packages pkgKey pkgName tKey ws source).exported P f
      = (ws.exported P f ||
          decide ((resolveSource packages source.value).Package ≠ pkgName ∧
            (resolveSource packages source.value).Package = P ∧
            (resolveSource packages source.value).Target = f)) := by
  unfold resolveSources.body
  simp only []
  rw [Workspace.exported_eq, Workspace.update_exportSet, ← Workspace.exported_eq]
  split
  · rename_i h1
    rw [resolveSources.export_exported]
    congr 1
    simp [h1]
  · rename_i h1
    simp [h1]

/-- The target under a label after some passes of the innermost loop: the
labels of the passes on that target are added to it, in order. -/
theorem resolveSources.foldl_body_lookup (packages : List Str)
    (evs : List resolveSources.Entry) (ws : Workspace) (l : Label) :
    (evs.foldl (fun w ev => resolveSources.body packages ev.pkgKey ev.pkgName ev.tKey w
        ev.source) ws).lookup l
      = (ws.lookup l).map (fun t =>
          (evs.filter (fun ev => decide (ev.pkgKey = l.Package ∧ ev.tKey = l.Target))).foldl
            (fun t ev =>
              resolveSources.classify ev.source (resolveSource packages ev.source.value) t)
            t) := by
  induction evs generalizing ws with
  | nil => simp
  | cons ev evs ih =>
    rw [List.foldl_cons, ih, resolveSources.body_lookup]
    by_cases h : ev.pkgKey = l.Package ∧ ev.tKey = l.Target
    · rw [if_pos h, List.filter_cons_of_pos (by simpa using h), Option.map_map]
      rfl
    · rw [if_neg h, List.filter_cons_of_neg (by simpa using h)]

theorem resolveSources.foldl_body_exported (packages : List Str)
    (evs : List resolveSources.Entry) (ws : Workspace) (P f : Str) :
    (evs.foldl (fun w ev => resolveSources.body packages ev.pkgKey ev.pkgName ev.tKey w
        ev.source) ws).exported P f = true ↔
      ws.exported P f = true ∨ ∃ ev ∈ evs,
        (resolveSource packages ev.source.value).Package ≠ ev.pkgName ∧
        (resolveSource packages ev.source.value).Package = P ∧
        (resolveSource packages ev.source.value).Target = f := by
  induction evs generalizing ws with
  | nil => simp
  | cons ev evs ih =>
    rw [List.foldl_cons, ih, resolveSources.body_exported]
    simp only [Bool.or_eq_true, decide_eq_true_eq, List.mem_cons, exists_eq_or_imp]
    tauto

theorem resolveSources.foldl_body_exportSet (packages : List Str)
    (evs : List resolveSources.Entry) (ws : Workspace) (P : Str)
    (h : ∀ ev ∈ evs, ¬ ((resolveSource packages ev.source.value).Package ≠ ev.pkgName ∧
      (resolveSource packages ev.source.value).Package = P)) :
    (evs.foldl (fun w ev => resolveSources.body packages ev.pkgKey ev.pkgName ev.tKey w
        ev.source) ws).exportSet P = ws.exportSet P := by
  induction evs generalizing ws with
  | nil => rfl
  | cons ev evs ih =>
    rw [List.foldl_cons, ih _ (fun e he => h e (List.mem_cons_of_mem _ he)),
      resolveSources.body_exportSet _ _ _ _ _ _ _ (h ev (List.mem_cons_self _ _))]

theorem filter_flatten_map_of_key {α β : Type} (p : β → Bool) (q : α → Bool) (F : α → List β)
    (L : List α) (h : ∀ x ∈ L, q x = false → (F x).filter p = []) :
    ((L.map F).flatten).filter p = ((((L.filter q).map F).flatten).filter p) := by
  induction L with
  | nil => rfl
  | cons x xs ih =>
    have ih' := ih (fun y hy => h y (List.mem_cons_of_mem _ hy))
    cases hq : q x with
    | true => simp [List.filter_cons, hq, ih', List.filter_append]
    | false =>
      simp [List.filter_cons, hq, ih', List.filter_append, h x (List.mem_cons_self _ _) hq]

/-- With pairwise distinct map keys, the passes of the innermost loop on the
target stored under a package key and a target key are the passes for the raw
sources of that target. -/
theorem resolveSources.filter_entries (ord : MapOrder) (ws : Workspace)
    (hpk : ws.packages.keys.Nodup) (e : Str × Package) (he : e ∈ ws.packages)
    (htk : e.2.targets.keys.Nodup) (f : Str × Exporter.Target) (hf : f ∈ e.2.targets) :
    (resolveSources.entries ord ws).filter
        (fun ev => decide (ev.pkgKey = e.1 ∧ ev.tKey = f.1))
      = (f.2.raw_sources.items ord).map (fun source =>
          (⟨e.1, e.2.name, f.1, source⟩ : resolveSources.Entry)) := by
  unfold resolveSources.entries
  rw [filter_flatten_map_of_key _ (fun e1 : Str × Package => decide (e1.1 = e.1)),
    GoMap.filter_key_eq_of_perm ws.packages _ e.1 hpk (ord.perm _),
    GoMap.get?_of_mem ws.packages hpk e.1 e.2 he]
  · simp only [Option.toList, List.map_cons, List.map_nil, List.flatten_cons,
      List.flatten_nil, List.append_nil]
    rw [filter_flatten_map_of_key _ (fun f1 : Str × Exporter.Target => decide (f1.1 = f.1)),
      GoMap.filter_key_eq_of_perm e.2.targets _ f.1 htk (ord.perm _),
      GoMap.get?_of_mem e.2.targets htk f.1 f.2 hf]
    · simp only [Option.toList, List.map_cons, List.map_nil, List.flatten_cons,
        List.flatten_nil, List.append_nil]
      rw [List.filter_eq_self]
      intro ev hev
      obtain ⟨source, _, rfl⟩ := List.mem_map.1 hev
      simp
    · intro f1 _ hf1
      rw [List.filter_eq_nil_iff]
      intro ev hev
      obtain ⟨source, _, rfl⟩ := List.mem_map.1 hev
      have : ¬ f1.1 = f.1 := by simpa using hf1
      simp [this]
  · intro e1 _ he1
    rw [List.filter_eq_nil_iff]
    intro ev hev
    obtain ⟨l2, hl2, hev2⟩ := List.mem_flatten.1 hev
    obtain ⟨f1, _, rfl⟩ := List.mem_map.1 hl2
    obtain ⟨source, _, rfl⟩ := List.mem_map.1 hev2
    have : ¬ e1.1 = e.1 := by simpa using he1
    simp [this]

/-- The passes on one target add the labels of the header paths to its
headers and the labels of the other paths to its sources, in order, and
change nothing else. -/
theorem resolveSources.foldl_classify (packages : List Str) (items : List (conditioned Str))
    (t : Exporter.Target) :
    items.foldl (fun t source =>
        resolveSources.classify source (resolveSource packages source.value) t) t
      = { t with
          hdrs := (items.filter (fun s => strings.HasSuffix s.value ".h".data)).foldl
            (fun sl s => sl.appendCondition s.key (resolveSource packages s.value)) t.hdrs
          srcs := (items.filter (fun s => !strings.HasSuffix s.value ".h".data)).foldl
            (fun sl s => sl.appendCondition s.key (resolveSource packages s.value)) t.srcs } := by
  induction items generalizing t with
  | nil => rfl
  | cons s items ih =>
    rw [List.foldl_cons, ih]
    unfold resolveSources.classify
    cases hs : strings.HasSuffix s.value ".h".data with
    | true => simp [List.filter_cons, hs]
    | false => simp [List.filter_cons, hs]


/-- The target under a package key and a target key after `resolveSources`,
as the loop builds it: the passes for the raw source entries of the target,
in the order of `items`, append the resolved label under the key of the
entry to the headers or to the sources.  No target appears that was not
there. -/
theorem resolveSources.lookup_fold (ord : MapOrder) (ws : Workspace)
    (hpk : ws.packages.keys.Nodup) (htk : ∀ e ∈ ws.packages, e.2.targets.keys.Nodup) :
    (∀ e ∈ ws.packages, ∀ f ∈ e.2.targets,
      (resolveSources ord ws).lookup ⟨[], e.1, f.1⟩ = some
        { f.2 with
          hdrs := ((f.2.raw_sources.items ord).filter
              (fun s => strings.HasSuffix s.value ".h".data)).foldl
            (fun sl s => sl.appendCondition s.key
              (resolveSource (resolveSources.packageDirs ord ws) s.value)) f.2.hdrs
          srcs := ((f.2.raw_sources.items ord).filter
              (fun s => !strings.HasSuffix s.value ".h".data)).foldl
            (fun sl s => sl.appendCondition s.key
              (resolveSource (resolveSources.packageDirs ord ws) s.value)) f.2.srcs }) ∧
    (∀ l, ws.lookup l = none → (resolveSources ord ws).lookup l = none) := by
  constructor
  · intro e he f hf
    rw [resolveSources_eq_foldl, resolveSources.foldl_body_lookup]
    have hlook : ws.lookup ⟨[], e.1, f.1⟩ = some f.2 := by
      unfold Workspace.lookup
      simp only []
      rw [GoMap.get?_of_mem ws.packages hpk e.1 e.2 he]
      exact GoMap.get?_of_mem e.2.targets (htk e he) f.1 f.2 hf
    rw [hlook]
    simp only [Option.map_some', Option.some.injEq]
    rw [resolveSources.filter_entries ord ws hpk e he (htk e he) f hf, List.foldl_map]
    exact resolveSources.foldl_classify _ _ _
  · intro l hl
    rw [resolveSources_eq_foldl, resolveSources.foldl_body_lookup, hl]
    rfl

/-- The export sets after `resolveSources`, in terms of the raw source
entries that `items` lists. -/
theorem resolveSources.exports_items (ord : MapOrder) (ws : Workspace) (P f : Str) :
    ((resolveSources ord ws).exported P f = true ↔
      ws.exported P f = true ∨
        ∃ e ∈ ws.packages, ∃ t ∈ e.2.targets, ∃ source ∈ t.2.raw_sources.items ord,
          e.2.name ≠ P ∧
          resolveSource (resolveSources.packageDirs ord ws) source.value = ⟨[], P, f⟩) ∧
    ((¬ ∃ e ∈ ws.packages, ∃ t ∈ e.2.targets, ∃ source ∈ t.2.raw_sources.items ord,
          e.2.name ≠ P ∧
          (resolveSource (resolveSources.packageDirs ord ws) source.value).Package = P) →
      (resolveSources ord ws).exportSet P = ws.exportSet P) := by
  have hrepo : ∀ dirs source, (resolveSource dirs source).Repository = [] := by
    intro dirs source
    unfold resolveSource resolveOrphanSource
    simp only []
    split
    · rfl
    · split <;> rfl
  constructor
  · rw [resolveSources_eq_foldl, resolveSources.foldl_body_exported]
    constructor
    · rintro (h | ⟨ev, hev, h1, h2, h3⟩)
      · exact Or.inl h
      · obtain ⟨e, he, t, ht, source, hs, rfl⟩ :=
          (resolveSources.mem_entries ord ws ev).1 hev
        refine Or.inr ⟨e, he, t, ht, source, hs, ?_, ?_⟩
        · intro hn
          exact h1 (h2.trans hn.symm)
        · have h4 := hrepo (resolveSources.packageDirs ord ws) source.value
          simp only [] at h2 h3
          generalize resolveSource (resolveSources.packageDirs ord ws) source.value = lab
            at h2 h3 h4
          cases lab
          simp only [] at h2 h3 h4
          rw [h2, h3, h4]
    · rintro (h | ⟨e, he, t, ht, source, hs, hn, hr⟩)
      · exact Or.inl h
      · refine Or.inr ⟨⟨e.1, e.2.name, t.1, source⟩,
          (resolveSources.mem_entries ord ws _).2 ⟨e, he, t, ht, source, hs, rfl⟩, ?_, ?_, ?_⟩
        · simp only [hr]
          exact fun hh => hn hh.symm
        · simp only [hr]
        · simp only [hr]
  · intro hno
    rw [resolveSources_eq_foldl]
    apply resolveSources.foldl_body_exportSet
    intro ev hev ⟨h1, h2⟩
    obtain ⟨e, he, t, ht, source, hs, rfl⟩ := (resolveSources.mem_entries ord ws ev).1 hev
    exact hno ⟨e, he, t, ht, source, hs, fun hn => h1 (h2.trans hn.symm), h2⟩

/-- What `resolve` returns with the traverse flag false: the zero label, a
label with a repository, or the label itself when it is one of the two that
`addWorkarounds` provides. -/
theorem resolve_flag_false (format : Label → Str) (l d1 : Label)
    (h : resolve format l = some (d1, false)) :
    d1 = Label.zero ∨ d1.Repository ≠ [] ∨
      (d1 = l ∧ (format l = "//experiments:registered_field_trials".data ∨
        format l = "//modules/audio_processing:audioproc_debug_proto".data)) := by
  unfold resolve strings.CutPrefix at h
  by_cases ha : strings.HasPrefix l.Package "third_party/abseil-cpp/".data = true
  · simp only [ha, if_true, Option.some.injEq, Prod.mk.injEq, and_true] at h
    right; left
    rw [← h]
    simp
  · simp only [ha, if_false, Bool.false_eq_true] at h
    by_cases hp : l.Package = "third_party/protobuf".data
    · simp only [hp, if_true, Option.some.injEq, Prod.mk.injEq, and_true] at h
      exact Or.inl h.symm
    · simp only [hp, if_false] at h
      split at h
      · simp only [Option.some.injEq, Prod.mk.injEq, and_true] at h
        right; left
        rw [← h]
        decide
      · split at h
        · split at h
          · simp at h
          · simp at h
        · split at h
          · rename_i hf
            simp only [Option.some.injEq, Prod.mk.injEq, and_true] at h
            exact Or.inr (Or.inr ⟨h.symm, hf⟩)
          · split at h
            · simp only [Option.some.injEq, Prod.mk.injEq, and_true] at h
              exact Or.inl h.symm
            · split at h
              · simp only [Option.some.injEq, Prod.mk.injEq, and_true] at h
                exact Or.inl h.symm
              · simp at h

/-- The dependencies recorded on the targets of a completed closure: a label
with a repository, one of the two labels that `resolve` passes on without
traversal, or a label with a target in the workspace; none is under a
condition key. -/
theorem loadDesc.done_deps (format : Label → Str) (gnTargets : GoMap Label gn.Target)
    (roots : List Label) (fuel : Nat) (s : loadDesc.State)
    (h : loadDesc format gnTargets roots fuel = Outcome.done s) (l : Label) (t : Target)
    (ht : s.ws.lookup l = some t) :
    t.Deps.selections = [] ∧
    ∀ d ∈ t.Deps.list, d.Repository ≠ [] ∨ (s.ws.lookup d).isSome = true ∨
      ∃ p gt dep, gnTargets.get? p = some gt ∧ dep ∈ gt.Deps ∧ d = dep ∧
        (format dep = "//experiments:registered_field_trials".data ∨
          format dep = "//modules/audio_processing:audioproc_debug_proto".data) := by
  obtain ⟨hinv, hq⟩ := loadDesc.done_runInv format gnTargets roots fuel s h
  rw [Workspace.lookup_repository, hinv.2.2.2.2.2.1.2.2 _ rfl] at ht
  unfold loadDesc.targetAfter at ht
  by_cases hk : s.visited.count { l with Repository := [] } = 0
  · rw [if_pos hk] at ht
    cases ht
  · rw [if_neg hk] at ht
    have hvis : { l with Repository := [] } ∈ s.visited :=
      List.count_pos_iff.1 (Nat.pos_of_ne_zero hk)
    cases hg : gnTargets.get? { l with Repository := [] } with
    | none => rw [hg] at ht; cases ht
    | some gt =>
      rw [hg] at ht
      simp only [Option.map_some', Option.some.injEq] at ht
      obtain ⟨h1, h2, _⟩ := loadDesc.iterate_visit_Deps format gt
        (Target.fresh { l with Repository := [] })
        (s.visited.count { l with Repository := [] })
      rw [ht] at h1 h2
      refine ⟨h1, ?_⟩
      intro d hd
      rcases h2 d hd with hfresh | hres
      · simp [Target.fresh, newSelectableList] at hfresh
      · unfold loadDesc.resolvedDeps at hres
        obtain ⟨dep, hdep, hrec⟩ := List.mem_filterMap.1 hres
        unfold loadDesc.recordedDep at hrec
        cases hr : resolve format dep with
        | none => rw [hr] at hrec; cases hrec
        | some r =>
          obtain ⟨d1, flag⟩ := r
          rw [hr] at hrec
          simp only [] at hrec
          by_cases hz : d1 = Label.zero
          · rw [if_pos hz] at hrec; cases hrec
          · rw [if_neg hz] at hrec
            simp only [Option.some.injEq] at hrec
            subst hrec
            cases flag with
            | true =>
              by_cases hrepo : d1.Repository = []
              · right; left
                have hqd := hinv.2.2.2.2.1 _ hvis d1 ⟨gt, hg, dep, hdep, hr, hz, hrepo⟩
                have c := hinv.2.2.2.1 d1
                rw [hq, List.count_nil, Nat.zero_add] at c
                have hpos : 0 < s.visited.count d1 := by
                  by_cases hroot : d1 ∈ roots
                  · rw [if_pos hroot] at c
                    rw [c]
                    exact List.count_pos_iff.2 hroot
                  · rw [if_neg hroot, if_pos ⟨hqd, hrepo⟩] at c
                    omega
                obtain ⟨gt1, k, _, _, _, _, hlook⟩ :=
                  loadDesc.RunInv.lookup_visited format gnTargets roots s hinv d1
                    (List.count_pos_iff.1 hpos)
                rw [hlook]
                rfl
              · exact Or.inl hrepo
            | false =>
              rcases resolve_flag_false format dep d1 hr with h0 | h0 | ⟨h0, h3⟩
              · exact absurd h0 hz
              · exact Or.inl h0
              · exact Or.inr (Or.inr ⟨_, gt, dep, hg, hdep, h0, h3⟩)


theorem mergeSelect.foldl_addSelection_values {T : Type} [DecidableEq T]
    (P : T → Prop) (inter : GoMap T Bool) (inputs : List (conditioned (List T)))
    (sel : GoMap Str (List T)) (hs : ∀ e ∈ sel, ∀ v ∈ e.2, P v)
    (hi : ∀ input ∈ inputs, ∀ v ∈ input.value, P v) :
    ∀ e ∈ inputs.foldl (mergeSelect.addSelection inter) sel, ∀ v ∈ e.2, P v := by
  induction inputs generalizing sel with
  | nil => exact hs
  | cons input inputs ih =>
    rw [List.foldl_cons]
    apply ih
    · intro e he v hv
      unfold mergeSelect.addSelection at he
      simp only [] at he
      split at he
      · rcases GoMap.mem_set _ _ _ e he with rfl | he'
        · exact hi input (List.mem_cons_self _ _) v (List.mem_filter.1 hv).1
        · exact hs e he' v hv
      · exact hs e he v hv
    · intro i hi' v hv
      exact hi i (List.mem_cons_of_mem _ hi') v hv

/-- Every value of the result of `mergeSelect`, unconditioned or under a
condition key, is a value of some input. -/
theorem mergeSelect_values {T : Type} [DecidableEq T] (ord : MapOrder)
    (inputs : List (conditioned (List T))) (out : selectableList T)
    (h : mergeSelect ord inputs = some out) :
    (∀ v ∈ out.list, ∃ input ∈ inputs, v ∈ input.value) ∧
    (∀ e ∈ out.selections, ∀ v ∈ e.2, ∃ input ∈ inputs, v ∈ input.value) := by
  constructor
  · intro v hv
    obtain ⟨h1, _⟩ := mergeSelect_facts ord inputs out h
    cases inputs with
    | nil => simp [mergeSelect] at h
    | cons input0 rest =>
      exact ⟨input0, List.mem_cons_self _ _, (h1 v).1 hv input0 (List.mem_cons_self _ _)⟩
  · cases inputs with
    | nil => simp [mergeSelect] at h
    | cons input0 rest =>
      simp only [mergeSelect, Option.some.injEq] at h
      subst h
      exact mergeSelect.foldl_addSelection_values
        (fun v => ∃ input ∈ input0 :: rest, v ∈ input.value) _ _ []
        (fun e he => absurd he (List.not_mem_nil e))
        (fun input hi v hv => ⟨input, hi, hv⟩)

/-- One round of the second loop of `Merge` keeps the workspace well formed. -/
theorem Merge.emit_WF (ord : MapOrder) (out out1 : Workspace)
    (e : Label × List (conditioned Target)) (hwf : out.WF) (hn : out.Named)
    (h : Merge.emit ord out e = some out1) : out1.WF ∧ out1.Named := by
  unfold Merge.emit at h
  cases hT : out.Target e.1 with
  | none => simp [hT] at h
  | some r =>
    obtain ⟨o1, t⟩ := r
    obtain ⟨h1, h2, _, h4, _⟩ := Workspace.Target_WF out o1 e.1 t hwf hn hT
    rw [hT] at h
    simp only [] at h
    split at h
    · cases h
    · split at h
      · simp only [Option.some.injEq] at h
        subst h
        exact Workspace.store_WF o1 e.1 _ h1 h2 h4
      · cases h

theorem Merge.foldlM_emit_WF (ord : MapOrder) (es : List (Label × List (conditioned Target)))
    (out out1 : Workspace) (hwf : out.WF) (hn : out.Named)
    (h : es.foldlM (Merge.emit ord) out = some out1) : out1.WF ∧ out1.Named := by
  induction es generalizing out with
  | nil =>
    simp only [List.foldlM_nil, Option.pure_def, Option.some.injEq] at h
    subst h
    exact ⟨hwf, hn⟩
  | cons e es ih =>
    rw [List.foldlM_cons] at h
    cases h1 : Merge.emit ord out e with
    | none => simp [h1] at h
    | some o1 =>
      rw [h1] at h
      obtain ⟨a, b⟩ := Merge.emit_WF ord out o1 e hwf hn h1
      exact ih o1 a b h

/-- The workspace that `Merge` returns for well-formed variants is well
formed and has no target under a label that has a target in no variant. -/
theorem Merge.frame (ord : MapOrder) (workspaces : GoMap Str Workspace) (out : Workspace)
    (hwf : ∀ kv ∈ workspaces, kv.2.WF) (h : Merge ord workspaces = some out) :
    out.WF ∧ out.Named ∧
    ∀ L : Label, (∀ kv ∈ workspaces, kv.2.lookup L = none) → out.lookup L = none := by
  have hwss := Merge.wss_WF ord workspaces hwf
  have hmemwss := Merge.mem_wss ord workspaces
  unfold Merge at h
  generalize Merge.wss ord workspaces = wss at hwss h hmemwss
  simp only [] at h
  obtain ⟨hpk0, _, htm⟩ := Merge.foldl_absorb ord wss (NewWorkspace, [])
  rw [Merge.foldl_collect] at htm
  generalize List.foldl (Merge.absorb ord) (NewWorkspace, []) wss = acc at h hpk0 htm
  obtain ⟨out0, tm⟩ := acc
  simp only at hpk0 htm h
  have hget : ∀ L : Label, L.Repository = [] → tm.get? L =
      if wss.filterMap (fun cws =>
          (cws.value.lookup L).map (fun t => (⟨cws.key, t⟩ : conditioned Target))) = []
      then none
      else some (wss.filterMap (fun cws =>
          (cws.value.lookup L).map (fun t => (⟨cws.key, t⟩ : conditioned Target)))) := by
    intro L hL
    rw [htm, get?_foldl_group, Merge.filter_visited ord wss hwss L hL]
    rfl
  have hkeys : tm.keys.Nodup := by
    rw [htm]
    exact nodup_keys_foldl_group _ [] List.nodup_nil
  have hes : ∀ e ∈ ord.iter tm, e.1.Repository = [] ∧ e.2 ≠ [] := by
    intro e he
    have hmem : (e.1, e.2) ∈ tm := (ord.mem_iter _ e).1 he
    have hg := GoMap.get?_of_mem tm hkeys e.1 e.2 hmem
    have hg2 := hg
    rw [htm, get?_foldl_group] at hg2
    split at hg2
    · simp [GoMap.get?] at hg2
    · rename_i hne
      obtain ⟨x, hx⟩ := List.exists_mem_of_ne_nil _ hne
      rw [List.mem_filter] at hx
      obtain ⟨hxin, hxl⟩ := hx
      have hxl' : x.value.label = e.1 := by simpa using hxl
      rw [List.mem_flatten] at hxin
      obtain ⟨l, hl, hxl2⟩ := hxin
      rw [List.mem_map] at hl
      obtain ⟨cws, hc, rfl⟩ := hl
      rw [List.mem_map] at hxl2
      obtain ⟨t, ht, rfl⟩ := hxl2
      have hrepo := Workspace.repository_of_mem_rangeTargets ord cws.value (hwss cws hc) t ht
      have hrepo' : e.1.Repository = [] := by rw [← hxl']; exact hrepo
      refine ⟨hrepo', ?_⟩
      rw [hget e.1 hrepo'] at hg
      split at hg
      · simp at hg
      · rename_i hne2
        simp only [Option.some.injEq] at hg
        rw [← hg]
        exact hne2
  have hnd : ((ord.iter tm).map Prod.fst).Nodup :=
    ((ord.perm tm).map Prod.fst).nodup_iff.2 hkeys
  obtain ⟨out1, hfold, _, _, hframe⟩ := Merge.foldlM_emit ord (ord.iter tm) out0 hes hnd
  rw [hfold] at h
  simp only [Option.some.injEq] at h
  subst h
  have hwf0 : out0.WF := by
    unfold Workspace.WF
    rw [hpk0]
    exact ⟨List.nodup_nil, fun e he => absurd he (List.not_mem_nil e)⟩
  have hn0 : out0.Named := by
    unfold Workspace.Named
    rw [hpk0]
    exact fun e he => absurd he (List.not_mem_nil e)
  obtain ⟨a, b⟩ := Merge.foldlM_emit_WF ord (ord.iter tm) out0 out1 hwf0 hn0 hfold
  refine ⟨a, b, ?_⟩
  intro L hL
  rw [Workspace.lookup_repository]
  have hnone : tm.get? { L with Repository := [] } = none := by
    rw [hget _ rfl, if_pos]
    rw [List.filterMap_eq_nil_iff]
    intro cws hc
    have := hL (cws.key, cws.value) ((hmemwss cws).1 hc)
    rw [Workspace.lookup_repository] at this
    rw [this]
    rfl
  have hnotin : ({ L with Repository := [] } : Label) ∉ (ord.iter tm).map Prod.fst := by
    intro hin
    have h1 : ({ L with Repository := [] } : Label) ∈ tm.keys :=
      ((ord.perm tm).map Prod.fst).mem_iff.1 hin
    exact (GoMap.get?_eq_none_iff tm _).1 hnone h1
  rw [hframe _ rfl hnotin]
  unfold Workspace.lookup
  rw [hpk0]
  rfl


/-- Every dependency recorded on a merged target is an unconditioned
dependency of the target under the same label in some variant. -/
theorem Merge.deps_from_variant (ord : MapOrder) (workspaces : GoMap Str Workspace)
    (out : Workspace) (hwf : ∀ kv ∈ workspaces, kv.2.WF) (h : Merge ord workspaces = some out)
    (l : Label) (t : Target) (ht : out.lookup l = some t) (d : Label) (hd : d ∈ t.allDeps) :
    ∃ kv ∈ workspaces, ∃ tk, kv.2.lookup l = some tk ∧ d ∈ tk.Deps.list := by
  obtain ⟨_, _, hframe⟩ := Merge.frame ord workspaces out hwf h
  rw [Workspace.lookup_repository] at ht
  have hex : ∃ kv ∈ workspaces, kv.2.lookup { l with Repository := [] } ≠ none := by
    by_contra hno
    have hall : ∀ kv ∈ workspaces, kv.2.lookup { l with Repository := [] } = none := by
      intro kv hkv
      by_contra hne
      exact hno ⟨kv, hkv, hne⟩
    rw [hframe _ hall] at ht
    cases ht
  obtain ⟨kv0, hkv0, hne0⟩ := hex
  obtain ⟨out1, hm, _, hall⟩ := Merge.spec ord workspaces hwf
  rw [h] at hm
  simp only [Option.some.injEq] at hm
  subst hm
  have hne : (Merge.wss ord workspaces).filterMap (fun cws =>
      (cws.value.lookup { l with Repository := [] }).map
        (fun t => (⟨cws.key, t⟩ : conditioned Target))) ≠ [] := by
    intro hnil
    rw [List.filterMap_eq_nil_iff] at hnil
    have := hnil ⟨kv0.1, kv0.2⟩ ((Merge.mem_wss ord workspaces _).2 hkv0)
    simp only [Option.map_eq_none'] at this
    exact hne0 this
  obtain ⟨t1, ht1, hdeps, _⟩ := hall _ rfl hne
  rw [ht] at ht1
  simp only [Option.some.injEq] at ht1
  subst ht1
  unfold conditionField at hdeps
  obtain ⟨v1, v2⟩ := mergeSelect_values ord _ _ hdeps
  have hin : ∃ input ∈ ((Merge.wss ord workspaces).filterMap (fun cws =>
      (cws.value.lookup { l with Repository := [] }).map
        (fun t => (⟨cws.key, t⟩ : conditioned Target)))).map
      (fun ct => (⟨ct.key, (ct.value.Deps).list⟩ : conditioned (List Label))),
      d ∈ input.value := by
    unfold Target.allDeps at hd
    rcases List.mem_append.1 hd with h1 | h1
    · exact v1 d h1
    · obtain ⟨vs, hvs, hdv⟩ := List.mem_flatten.1 h1
      obtain ⟨e, he, rfl⟩ := List.mem_map.1 hvs
      exact v2 e he d hdv
  obtain ⟨input, hinput, hdin⟩ := hin
  obtain ⟨kv, hkv, tk, hlook, rfl⟩ :=
    (Merge.mem_inputs ord workspaces _ (fun t => t.Deps) input).1 hinput
  exact ⟨kv, hkv, tk, by rw [Workspace.lookup_repository]; exact hlook, hdin⟩

/-- A label with a target in some variant has a target in the merged
workspace. -/
theorem Merge.lookup_isSome (ord : MapOrder) (workspaces : GoMap Str Workspace)
    (out : Workspace) (hwf : ∀ kv ∈ workspaces, kv.2.WF) (h : Merge ord workspaces = some out)
    (kv : Str × Workspace) (hkv : kv ∈ workspaces) (l : Label)
    (hl : (kv.2.lookup l).isSome = true) : (out.lookup l).isSome = true := by
  obtain ⟨out1, hm, _, hall⟩ := Merge.spec ord workspaces hwf
  rw [h] at hm
  simp only [Option.some.injEq] at hm
  subst hm
  rw [Workspace.lookup_repository] at hl ⊢
  have hne : (Merge.wss ord workspaces).filterMap (fun cws =>
      (cws.value.lookup { l with Repository := [] }).map
        (fun t => (⟨cws.key, t⟩ : conditioned Target))) ≠ [] := by
    intro hnil
    rw [List.filterMap_eq_nil_iff] at hnil
    have := hnil ⟨kv.1, kv.2⟩ ((Merge.mem_wss ord workspaces _).2 hkv)
    simp only [Option.map_eq_none'] at this
    rw [this] at hl
    cases hl
  obtain ⟨t1, ht1, _⟩ := hall _ rfl hne
  rw [ht1]
  rfl

/-- The call `ws.Target(l0)` followed by a write through the returned
pointer: the workspace stays well formed, the label has a target afterwards,
every other target is as before, and the dependencies of the written target
are among those of the returned one and the labels in `E`. -/
theorem Workspace.Target_store (E : Label → Prop) (ws ws1 W : Workspace) (l0 : Label)
    (t t1 : Exporter.Target) (hwf : ws.WF) (hn : ws.Named)
    (h : ws.Target l0 = some (ws1, t)) (hW : W.packages = ws1.packages)
    (hl : t1.label = t.label) (hd : ∀ d ∈ t1.allDeps, d ∈ t.allDeps ∨ E d) :
    (W.store l0 t1).WF ∧ (W.store l0 t1).Named ∧
    (W.store l0 t1).lookup l0 = some t1 ∧
    t.label = { Repository := [], Package := l0.Package, Target := l0.Target } ∧
    (∀ l, (ws.lookup l).isSome = true → ((W.store l0 t1).lookup l).isSome = true) ∧
    (∀ l t2, (W.store l0 t1).lookup l = some t2 → ∀ d ∈ t2.allDeps,
      (∃ t0, ws.lookup l = some t0 ∧ d ∈ t0.allDeps) ∨ E d) := by
  obtain ⟨a1, a2, hrepo, a4, a5⟩ := Workspace.Target_WF ws ws1 l0 t hwf hn h
  obtain ⟨ws1', t', hT', _, hpk, _, hother⟩ := Workspace.Target_spec ws l0 hrepo
  rw [h] at hT'
  simp only [Option.some.injEq, Prod.mk.injEq] at hT'
  obtain ⟨hw, ht⟩ := hT'
  subst hw ht
  obtain ⟨b1, b2⟩ := Workspace.store_WF W l0 t1 (Workspace.WF_congr _ _ hW.symm a1)
    (Workspace.Named_congr _ _ hW.symm a2) (by rw [hl]; exact a4)
  have hself : (W.store l0 t1).lookup l0 = some t1 :=
    Workspace.lookup_store_self _ _ _ (by rw [hW]; exact hpk)
  have hlook : ∀ l, (W.store l0 t1).lookup l
      = if l.Package = l0.Package ∧ l.Target = l0.Target then some t1 else ws.lookup l := by
    intro l
    by_cases hslot : l.Package = l0.Package ∧ l.Target = l0.Target
    · rw [if_pos hslot, Workspace.lookup_same_slot _ l l0 hslot, hself]
    · rw [if_neg hslot, Workspace.lookup_store_other _ _ _ _ hslot,
        Workspace.lookup_congr _ ws1 hW, hother l hslot]
  refine ⟨b1, b2, hself, a4, ?_, ?_⟩
  · intro l hsome
    rw [hlook]
    split
    · rfl
    · exact hsome
  · intro l t2 ht2 d hdin
    rw [hlook] at ht2
    by_cases hslot : l.Package = l0.Package ∧ l.Target = l0.Target
    · rw [if_pos hslot] at ht2
      simp only [Option.some.injEq] at ht2
      subst ht2
      rcases hd d hdin with h1 | h1
      · rcases a5 with h5 | ⟨_, h6⟩
        · exact Or.inl ⟨t, by rw [Workspace.lookup_same_slot _ l l0 hslot]; exact h5, h1⟩
        · rw [h6] at h1
          simp [Target.allDeps, Target.fresh, newSelectableList] at h1
      · exact Or.inr h1
    · rw [if_neg hslot] at ht2
      exact Or.inl ⟨t2, ht2, hdin⟩


theorem Workspace.AddBulidGN_packages (ord : MapOrder) (pathJoin : List Str → Str)
    (ws : Workspace) : (ws.AddBulidGN ord pathJoin).packages = ws.packages := by
  unfold Workspace.AddBulidGN
  generalize ord.iter ws.packages = l
  induction l generalizing ws with
  | nil => rfl
  | cons x xs ih =>
    rw [List.foldl_cons, ih]

/-- In a well-formed workspace every target is found under its label. -/
theorem Workspace.lookup_of_mem_rangeTargets (ord : MapOrder) (ws : Workspace) (hwf : ws.WF)
    (t : Exporter.Target) (ht : t ∈ ws.rangeTargets ord) : ws.lookup t.label = some t := by
  have hr := Workspace.repository_of_mem_rangeTargets ord ws hwf t ht
  have hf := Workspace.filter_rangeTargets ord ws hwf t.label hr
  have hm : t ∈ (ws.rangeTargets ord).filter (fun x => decide (x.label = t.label)) :=
    List.mem_filter.2 ⟨ht, by simp⟩
  rw [hf] at hm
  cases hl : ws.lookup t.label with
  | none => rw [hl] at hm; simp at hm
  | some t1 =>
    rw [hl] at hm
    simp only [Option.toList, List.mem_singleton] at hm
    rw [hm]

theorem Target.allDeps_AppendDep (t : Target) (x d : Label)
    (h : d ∈ (t.AppendDep x).allDeps) : d ∈ t.allDeps ∨ d = x := by
  unfold Target.allDeps Target.AppendDep selectableList.append at h
  simp only [List.mem_append, List.mem_singleton] at h
  unfold Target.allDeps
  rw [List.mem_append]
  tauto

/-- What `addWorkarounds` leaves: a well-formed workspace in which every
target that was there is still there, the targets of the field trials and of
the debug proto library are there, and a dependency recorded on a target was
recorded on it before or names a target of the workspace. -/
theorem addWorkarounds_spec (parse : Str → Label) (ws final : Workspace) (hwf : ws.WF)
    (hn : ws.Named) (h : addWorkarounds parse ws = some final) :
    final.WF ∧
    (∀ l, (ws.lookup l).isSome = true → (final.lookup l).isSome = true) ∧
    (final.lookup (parse "//experiments:registered_field_trials".data)).isSome = true ∧
    (final.lookup (parse "//modules/audio_processing:audioproc_debug_proto".data)).isSome
      = true ∧
    (∀ l t, final.lookup l = some t → ∀ d ∈ t.allDeps,
      (∃ t0, ws.lookup l = some t0 ∧ d ∈ t0.allDeps) ∨ (final.lookup d).isSome = true) := by
  unfold addWorkarounds at h
  cases hT1 : ws.Target (parse "//experiments:registered_field_trials".data) with
  | none => simp [hT1] at h
  | some r1 =>
    obtain ⟨ws1, t⟩ := r1
    rw [hT1] at h
    simp only [] at h
    obtain ⟨a1, a2, a3, _, a5, a6⟩ := Workspace.Target_store (fun _ => False) ws ws1
      (ws1.AddSourceOverride { t with Type_ := "cc_library".data }
        "experiments/registered_field_trials.h".data addWorkarounds.header).1
      (parse "//experiments:registered_field_trials".data) t
      (ws1.AddSourceOverride { t with Type_ := "cc_library".data }
        "experiments/registered_field_trials.h".data addWorkarounds.header).2
      hwf hn hT1 rfl rfl (fun d hd => Or.inl hd)
    generalize Workspace.store (ws1.AddSourceOverride { t with Type_ := "cc_library".data }
        "experiments/registered_field_trials.h".data addWorkarounds.header).1
      (parse "//experiments:registered_field_trials".data)
      (ws1.AddSourceOverride { t with Type_ := "cc_library".data }
        "experiments/registered_field_trials.h".data addWorkarounds.header).2 = ws2
      at h a1 a2 a3 a5 a6
    cases hT2 : ws2.Target (parse "//modules/audio_processing:debug_proto".data) with
    | none => simp [hT2] at h
    | some r2 =>
      obtain ⟨ws3, dp⟩ := r2
      rw [hT2] at h
      simp only [] at h
      obtain ⟨b1, b2, b3, b4, b5, b6⟩ := Workspace.Target_store (fun _ => False) ws2 ws3
        (ws3.AddSource { dp with Type_ := "proto_library".data }
          "modules/audio_processing/debug.proto".data).1
        (parse "//modules/audio_processing:debug_proto".data) dp
        (ws3.AddSource { dp with Type_ := "proto_library".data }
          "modules/audio_processing/debug.proto".data).2
        a1 a2 hT2 rfl rfl (fun d hd => Or.inl hd)
      have hlabel : (ws3.AddSource { dp with Type_ := "proto_library".data }
          "modules/audio_processing/debug.proto".data).2.label = dp.label := rfl
      generalize (ws3.AddSource { dp with Type_ := "proto_library".data }
          "modules/audio_processing/debug.proto".data).2 = c2 at h b1 b2 b3 b5 b6 hlabel
      generalize Workspace.store (ws3.AddSource { dp with Type_ := "proto_library".data }
          "modules/audio_processing/debug.proto".data).1
        (parse "//modules/audio_processing:debug_proto".data) c2 = ws4 at h b1 b2 b3 b5 b6
      cases hT3 : ws4.Target
          (parse "//modules/audio_processing:audioproc_debug_proto".data) with
      | none => simp [hT3] at h
      | some r3 =>
        obtain ⟨ws5, cc⟩ := r3
        rw [hT3] at h
        simp only [Option.some.injEq] at h
        obtain ⟨c1, _, c3, _, c5, c6⟩ := Workspace.Target_store (fun d => d = c2.label) ws4 ws5
          ws5 (parse "//modules/audio_processing:audioproc_debug_proto".data) cc
          (Target.AppendDep { cc with Type_ := "cc_proto_library".data } c2.label)
          b1 b2 hT3 rfl rfl (fun d hd => Target.allDeps_AppendDep _ _ d hd)
        rw [h] at c1 c3 c5 c6
        refine ⟨c1, fun l hl => c5 l (b5 l (a5 l hl)), ?_, ?_, ?_⟩
        · exact c5 _ (b5 _ (by rw [a3]; rfl))
        · rw [c3]; rfl
        · intro l t4 ht4 d hd
          rcases c6 l t4 ht4 d hd with ⟨t3, ht3, hd3⟩ | hE
          · rcases b6 l t3 ht3 d hd3 with ⟨t2, ht2, hd2⟩ | hF
            · rcases a6 l t2 ht2 d hd2 with ⟨t1, ht1, hd1⟩ | hF
              · exact Or.inl ⟨t1, ht1, hd1⟩
              · exact absurd hF id
            · exact absurd hF id
          · right
            have hs : d.Package = (parse "//modules/audio_processing:debug_proto".data).Package ∧
                d.Target = (parse "//modules/audio_processing:debug_proto".data).Target := by
              rw [hE, hlabel, b4]
              exact ⟨rfl, rfl⟩
            rw [Workspace.lookup_same_slot _ d _ hs]
            exact c5 _ (by rw [b3]; rfl)


/-- C13. For every run of the pipeline of `main` that succeeds (the closure
of `loadDesc` on the description of each variant, then `Merge`, then
`AddBulidGN` and `addWorkarounds`), where `labels.Parse` reads the two labels
that `resolve` passes on without traversal from what `labels.Label.Format`
makes of a dependency of the descriptions: every dependency label recorded on
a target of the final workspace, unconditioned or under a condition key, has
a repository or names a target of the final workspace. -/
theorem main_workspace_no_dangling (ord : MapOrder) (format : Label → Str)
    (parse : Str → Label) (pathJoin : List Str → Str)
    (descX86 descArm : GoMap Label gn.Target) (fuel : Nat) (final : Workspace)
    (hfmt : ∀ desc ∈ [descX86, descArm], ∀ e ∈ desc, ∀ d ∈ e.2.Deps,
      ∀ s ∈ ["//experiments:registered_field_trials".data,
        "//modules/audio_processing:audioproc_debug_proto".data],
        format d = s → d = parse s)
    (h : main.workspace ord format parse pathJoin descX86 descArm fuel = some final) :
    Workspace.NoDanglingExcept (fun _ => False) final ∧
    ∀ ord2, ∀ t ∈ final.rangeTargets ord2, ∀ d ∈ t.allDeps,
      d.Repository ≠ [] ∨ (final.lookup d).isSome = true := by
  unfold main.workspace at h
  cases hX : loadDesc format descX86 (main.rootLibs.map parse) fuel with
  | panicked => simp [hX] at h
  | fuelOut => simp [hX] at h
  | done sX =>
    cases hA : loadDesc format descArm (main.rootLibs.map parse) fuel with
    | panicked => simp [hX, hA] at h
    | fuelOut => simp [hX, hA] at h
    | done sA =>
      rw [hX, hA] at h
      simp only [] at h
      cases hM : Merge ord [("@platforms//cpu:x86_64".data, sX.ws),
          ("//:neon_build".data, sA.ws)] with
      | none => simp [hM] at h
      | some m =>
        rw [hM] at h
        simp only [] at h
        obtain ⟨hinvX, _⟩ := loadDesc.done_runInv format descX86 _ fuel sX hX
        obtain ⟨hinvA, _⟩ := loadDesc.done_runInv format descArm _ fuel sA hA
        have hwf : ∀ kv ∈ [("@platforms//cpu:x86_64".data, sX.ws),
            ("//:neon_build".data, sA.ws)], kv.2.WF := by
          intro kv hkv
          simp only [List.mem_cons, List.mem_singleton, List.not_mem_nil, or_false] at hkv
          rcases hkv with rfl | rfl
          · exact hinvX.2.2.2.2.2.1.1
          · exact hinvA.2.2.2.2.2.1.1
        obtain ⟨m1, m2, _⟩ := Merge.frame ord _ m hwf hM
        have hpk := Workspace.AddBulidGN_packages ord pathJoin m
        obtain ⟨f0, f1, f2, f3, f4⟩ := addWorkarounds_spec parse _ final
          (Workspace.WF_congr _ _ hpk.symm m1) (Workspace.Named_congr _ _ hpk.symm m2) h
        have key : Workspace.NoDanglingExcept (fun _ => False) final := by
          intro l t ht d hd
          rcases f4 l t ht d hd with ⟨t0, ht0, hd0⟩ | hsome
          · rw [Workspace.lookup_congr _ m hpk] at ht0
            obtain ⟨kv, hkv, tk, hlook, hdk⟩ :=
              Merge.deps_from_variant ord _ m hwf hM l t0 ht0 d hd0
            have hvariant : ∀ (desc : GoMap Label gn.Target) (s : loadDesc.State),
                desc ∈ [descX86, descArm] →
                loadDesc format desc (main.rootLibs.map parse) fuel = Outcome.done s →
                kv.2 = s.ws →
                d.Repository ≠ [] ∨ False ∨ (final.lookup d).isSome = true := by
              intro desc s hdesc hs hkvs
              rw [hkvs] at hlook
              rcases (loadDesc.done_deps format desc _ fuel s hs l tk hlook).2 d hdk with
                h1 | h1 | ⟨p, gt, dep, hg, hdep, rfl, hf⟩
              · exact Or.inl h1
              · right; right
                apply f1
                rw [Workspace.lookup_congr _ m hpk]
                exact Merge.lookup_isSome ord _ m hwf hM kv hkv d (by rw [hkvs]; exact h1)
              · right; right
                have hmem := GoMap.mem_of_get? desc p gt hg
                rcases hf with hf | hf
                · rw [hfmt desc hdesc (p, gt) hmem d hdep _ (List.mem_cons_self _ _) hf]
                  exact f2
                · rw [hfmt desc hdesc (p, gt) hmem d hdep _
                    (List.mem_cons_of_mem _ (List.mem_cons_self _ _)) hf]
                  exact f3
            simp only [List.mem_cons, List.mem_singleton, List.not_mem_nil, or_false] at hkv
            rcases hkv with rfl | rfl
            · exact hvariant descX86 sX (List.mem_cons_self _ _) hX rfl
            · exact hvariant descArm sA (List.mem_cons_of_mem _ (List.mem_cons_self _ _)) hA rfl
          · exact Or.inr (Or.inr hsome)
        refine ⟨key, ?_⟩
        intro ord2 t ht d hd
        rcases key t.label t (Workspace.lookup_of_mem_rangeTargets ord2 final f0 t ht) d hd with
          h1 | h1 | h1
        · exact Or.inl h1
        · exact absurd h1 id
        · exact Or.inr h1


/-- C13, at a pipeline example with two variants: the final workspace has
eight targets, those of the four root libraries, of `//common_audio:neon` and
of the three workarounds; the audio processing library depends on the debug
proto library, which `addWorkarounds` provides, on two labels with a
repository and, under the key of the arm variant, on `//common_audio:neon`;
there is no dangling internal reference. -/
theorem main_workspace_no_dangling_witness :
    (∀ desc ∈ [Examples.descX86, Examples.descArm], ∀ e ∈ desc, ∀ d ∈ e.2.Deps,
      ∀ s ∈ ["//experiments:registered_field_trials".data,
        "//modules/audio_processing:audioproc_debug_proto".data],
        Label.Format d = s → d = Examples.parse s) ∧
    main.workspace MapOrder.insertion Label.Format Examples.parse
      (fun parts => strings.Join parts "/".data) Examples.descX86 Examples.descArm 10
      = some Examples.final ∧
    (Workspace.NoDanglingExcept (fun _ => False) Examples.final ∧
    ∀ ord2, ∀ t ∈ Examples.final.rangeTargets ord2, ∀ d ∈ t.allDeps,
      d.Repository ≠ [] ∨ (Examples.final.lookup d).isSome = true) ∧
    (Examples.final.rangeTargets MapOrder.insertion).length = 8 ∧
    (Examples.final.lookup Examples.AP).map (fun t => t.allDeps)
      = some [⟨[], "modules/audio_processing".data, "audioproc_debug_proto".data⟩,
          Examples.libevent,
          ⟨"com_google_absl".data, "absl/strings".data, "strings".data⟩,
          ⟨[], "common_audio".data, "neon".data⟩] :=
  ⟨by decide!, by decide!,
    main_workspace_no_dangling MapOrder.insertion Label.Format Examples.parse
      (fun parts => strings.Join parts "/".data) Examples.descX86 Examples.descArm 10
      Examples.final (by decide!) (by decide!),
    by decide!, by decide!⟩


/-- Every entry that the last loop of `mergeSelect` stores is the non-empty
remainder of some input, so a property of those remainders holds for every
stored entry. -/
theorem mergeSelect.foldl_addSelection_entries {T : Type} [DecidableEq T]
    (Q : Str × List T → Prop) (inter : GoMap T Bool) (inputs : List (conditioned (List T)))
    (sel : GoMap Str (List T)) (hs : ∀ e ∈ sel, Q e)
    (hq : ∀ input ∈ inputs, input.value.filter (fun v => !(inter.getD v false)) ≠ [] →
      Q (input.key, input.value.filter (fun v => !(inter.getD v false)))) :
    ∀ e ∈ inputs.foldl (mergeSelect.addSelection inter) sel, Q e := by
  induction inputs generalizing sel with
  | nil => exact hs
  | cons input inputs ih =>
    rw [List.foldl_cons]
    apply ih
    · intro e he
      unfold mergeSelect.addSelection at he
      simp only [] at he
      split at he
      · rename_i hlen
        rcases GoMap.mem_set _ _ _ e he with rfl | he'
        · exact hq input (List.mem_cons_self _ _) (List.length_pos.1 hlen)
        · exact hs e he'
      · exact hs e he
    · intro i hi
      exact hq i (List.mem_cons_of_mem _ hi)

/-- C21. For every non-empty list of inputs and every map iteration order,
`mergeSelect` returns a set that satisfies the invariant of a conditional
set: no value is both in its unconditioned list and in the list stored under
a condition key, and no condition key is stored with an empty list. -/
theorem mergeSelect_invariant {T : Type} [DecidableEq T] (ord : MapOrder)
    (inputs : List (conditioned (List T))) (hne : inputs ≠ []) :
    ∃ out, mergeSelect ord inputs = some out ∧ out.Disjoint ∧
      (∀ e ∈ out.selections, e.2 ≠ []) ∧
      ∀ key, out.selections.get? key ≠ some [] := by
  cases inputs with
  | nil => exact absurd rfl hne
  | cons input0 rest =>
    refine ⟨_, rfl, ?_⟩
    have hall : ∀ e ∈ (input0 :: rest).foldl
        (mergeSelect.addSelection
          (rest.foldl (mergeSelect.narrow ord) (sliceToMap input0.value))) [],
        e.2 ≠ [] ∧ ∀ v ∈ e.2,
          (rest.foldl (mergeSelect.narrow ord) (sliceToMap input0.value)).getD v false
            = false := by
      apply mergeSelect.foldl_addSelection_entries
      · intro e he
        exact absurd he (List.not_mem_nil e)
      · intro input _ hnonempty
        refine ⟨hnonempty, ?_⟩
        intro v hv
        have := (List.mem_filter.1 hv).2
        simpa using this
    refine ⟨?_, fun e he => (hall e he).1, ?_⟩
    · intro v hv e he hin
      have h1 := (hall e he).2 v hin
      have h2 : v ∈ (ord.iter (rest.foldl (mergeSelect.narrow ord)
          (sliceToMap input0.value))).map Prod.fst := hv
      rw [mem_iter_keys, get?_intersection] at h2
      rw [getD_intersection] at h1
      by_cases hc : ∀ input ∈ input0 :: rest, v ∈ input.value
      · rw [decide_eq_true hc] at h1
        cases h1
      · rw [if_neg hc] at h2
        cases h2
    · intro key hkey
      exact (hall (key, []) (GoMap.mem_of_get? _ _ _ hkey)).1 rfl

/-- C21, at the inputs `[1, 2]` under `X` and `[1]` under `Y`: the value `1`
is unconditioned, `2` is stored under `X`, and nothing is stored under `Y`,
whose remainder is empty. -/
theorem mergeSelect_invariant_witness :
    ([⟨"X".data, [1, 2]⟩, ⟨"Y".data, [1]⟩] : List (conditioned (List Nat))) ≠ [] ∧
    (∃ out, mergeSelect MapOrder.insertion
        ([⟨"X".data, [1, 2]⟩, ⟨"Y".data, [1]⟩] : List (conditioned (List Nat))) = some out ∧
      out.Disjoint ∧ (∀ e ∈ out.selections, e.2 ≠ []) ∧
      ∀ key, out.selections.get? key ≠ some []) ∧
    mergeSelect MapOrder.insertion
        ([⟨"X".data, [1, 2]⟩, ⟨"Y".data, [1]⟩] : List (conditioned (List Nat)))
      = some ⟨[1], [("X".data, [2])]⟩ :=
  ⟨by decide,
    mergeSelect_invariant MapOrder.insertion
      ([⟨"X".data, [1, 2]⟩, ⟨"Y".data, [1]⟩] : List (conditioned (List Nat))) (by decide),
    by decide⟩


theorem path.segments_ne_nil (s : Str) : path.segments s ≠ [] := by
  cases s with
  | nil => simp [path.segments]
  | cons c cs =>
    unfold path.segments
    split
    · simp
    · split <;> simp

/-- Splitting at a slash: the segments of `a/b` are those of `a` followed by
those of `b`. -/
theorem path.segments_append (a b : Str) :
    path.segments (a ++ '/' :: b) = path.segments a ++ path.segments b := by
  induction a with
  | nil => simp [path.segments]
  | cons c cs ih =>
    by_cases hc : c = '/'
    · simp [path.segments, hc, ih]
    · have hne := path.segments_ne_nil cs
      simp only [List.cons_append, path.segments, hc, if_false]
      have ih2 : path.segments (cs.append ('/' :: b)) = path.segments cs ++ path.segments b :=
        ih
      rw [ih2]
      cases hs : path.segments cs with
      | nil => exact absurd hs hne
      | cons seg segs => rfl

/-- A path without an empty segment is not empty, does not end in a slash and
has no two slashes in a row. -/
theorem path.segments_facts (s : Str) (h : [] ∉ path.segments s) :
    s ≠ [] ∧ (∀ a, s ≠ a ++ ['/']) ∧ (∀ a b, s ≠ a ++ '/' :: '/' :: b) ∧
      (∀ b, s ≠ '/' :: b) := by
  refine ⟨?_, ?_, ?_, ?_⟩
  · rintro rfl
    exact h (by simp [path.segments])
  · rintro a rfl
    apply h
    rw [path.segments_append]
    simp [path.segments]
  · rintro a b rfl
    apply h
    rw [path.segments_append]
    simp [path.segments]
  · rintro b rfl
    exact h (by simp [path.segments])

theorem strings.TrimRight_dir (name : Str) (h : name.getLast? ≠ some '/') :
    strings.TrimRight (name ++ "/".data) ['/'] = name := by
  rw [strings.TrimRight_slash_eq]
  have h1 : (name ++ "/".data).reverse = '/' :: name.reverse := by simp
  rw [h1, List.dropWhile_cons]
  simp only [decide_True, if_true]
  have h2 : name.reverse.head? ≠ some '/' := by
    rw [List.head?_reverse]
    exact h
  cases hr : name.reverse with
  | nil =>
    have : name = [] := by simpa using hr
    simp [this]
  | cons c cs =>
    rw [hr] at h2
    have hc : c ≠ '/' := by simpa using h2
    rw [List.dropWhile_cons]
    simp only [hc, decide_False, Bool.false_eq_true, if_false]
    rw [← hr, List.reverse_reverse]

/-- C22. For every list of package directories of the form `name/`, where
`name` does not end in a slash, sorted or not, and every source path without
an empty segment (so not empty, without a slash at either end and without two
slashes in a row): the label that `resolveSource` returns addresses the
source, that is, its package is empty and its target is the source, or its
package, a slash and its target make up the source; its target is not empty
and it has no repository. -/
theorem resolveSource_addresses_source (dirs : List Str) (source : Str)
    (hdirs : ∀ d ∈ dirs, ∃ name, d = name ++ "/".data ∧ name.getLast? ≠ some '/')
    (hseg : [] ∉ path.segments source) :
    (((resolveSource dirs source).Package = [] ∧ (resolveSource dirs source).Target = source) ∨
      (resolveSource dirs source).Package ++ "/".data ++ (resolveSource dirs source).Target
        = source) ∧
    (resolveSource dirs source).Target ≠ [] ∧
    (resolveSource dirs source).Repository = [] := by
  obtain ⟨hne, htrail, hdouble, _⟩ := path.segments_facts source hseg
  have horphan : (((resolveOrphanSource source).Package = [] ∧
        (resolveOrphanSource source).Target = source) ∨
      (resolveOrphanSource source).Package ++ "/".data ++ (resolveOrphanSource source).Target
        = source) ∧
      (resolveOrphanSource source).Target ≠ [] ∧
      (resolveOrphanSource source).Repository = [] := by
    obtain ⟨h1, _, h3⟩ := resolveOrphanSource_spec source
    rcases h3 with ⟨_, hp, ht⟩ | ⟨k, hk, _⟩
    · exact ⟨Or.inl ⟨hp, ht⟩, by rw [ht]; exact hne, h1⟩
    · cases k with
      | zero =>
        simp only [Nat.zero_add, List.replicate_one] at hk
        refine ⟨Or.inr hk.symm, ?_, h1⟩
        intro ht
        rw [ht, List.append_nil] at hk
        exact htrail _ hk
      | succ k =>
        exact absurd (hk.trans (by simp [List.replicate_succ]))
          (hdouble (resolveOrphanSource source).Package
            (List.replicate k '/' ++ (resolveOrphanSource source).Target))
  unfold resolveSource
  simp only []
  split
  · exact horphan
  · rename_i hi
    have hlt : sort.SearchStrings dirs source - 1 < dirs.length := by
      have := sort.SearchStrings_le_length dirs source
      omega
    have hmem : dirs.getD (sort.SearchStrings dirs source - 1) [] ∈ dirs := by
      rw [List.getD_eq_getElem _ _ hlt]
      exact List.getElem_mem _
    obtain ⟨name, hname, hlast⟩ := hdirs _ hmem
    generalize dirs.getD (sort.SearchStrings dirs source - 1) [] = pkg at hname ⊢
    subst hname
    by_cases hpre : name ++ "/".data <+: source
    · rw [strings.CutPrefix_of_prefix _ _ hpre]
      simp only []
      obtain ⟨rest, hrest⟩ := hpre
      have hdrop : source.drop (name ++ "/".data).length = rest := by
        rw [← hrest]
        exact List.drop_left _ _
      rw [hdrop, strings.TrimRight_dir name hlast]
      refine ⟨Or.inr hrest, ?_, ?_⟩
      · intro hr
        rw [hr, List.append_nil] at hrest
        exact htrail name hrest.symm
      · trivial
    · rw [strings.CutPrefix_of_not_prefix _ _ hpre]
      exact horphan

/-- C22, at the directories `a/` and `a/b/`: the source `a/b/c.h` resolves to
the package `a/b` and the target `c.h`, the source `d/e.h`, under no
directory, to the package `d` and the target `e.h`, and the source `x.cc` to
the empty package. -/
theorem resolveSource_addresses_source_witness :
    (∀ d ∈ ["a/".data, "a/b/".data], ∃ name, d = name ++ "/".data ∧
      name.getLast? ≠ some '/') ∧
    [] ∉ path.segments "a/b/c.h".data ∧
    ((((resolveSource ["a/".data, "a/b/".data] "a/b/c.h".data).Package = [] ∧
        (resolveSource ["a/".data, "a/b/".data] "a/b/c.h".data).Target = "a/b/c.h".data) ∨
      (resolveSource ["a/".data, "a/b/".data] "a/b/c.h".data).Package ++ "/".data ++
        (resolveSource ["a/".data, "a/b/".data] "a/b/c.h".data).Target = "a/b/c.h".data) ∧
    (resolveSource ["a/".data, "a/b/".data] "a/b/c.h".data).Target ≠ [] ∧
    (resolveSource ["a/".data, "a/b/".data] "a/b/c.h".data).Repository = []) ∧
    resolveSource ["a/".data, "a/b/".data] "a/b/c.h".data = ⟨[], "a/b".data, "c.h".data⟩ ∧
    resolveSource ["a/".data, "a/b/".data] "d/e.h".data = ⟨[], "d".data, "e.h".data⟩ ∧
    resolveSource ["a/".data, "a/b/".data] "x.cc".data = ⟨[], [], "x.cc".data⟩ :=
  ⟨fun d hd => by
      simp only [List.mem_cons, List.mem_singleton, List.not_mem_nil, or_false] at hd
      rcases hd with rfl | rfl
      · exact ⟨"a".data, by decide, by decide⟩
      · exact ⟨"a/b".data, by decide, by decide⟩,
    by decide,
    resolveSource_addresses_source ["a/".data, "a/b/".data] "a/b/c.h".data
      (fun d hd => by
        simp only [List.mem_cons, List.mem_singleton, List.not_mem_nil, or_false] at hd
        rcases hd with rfl | rfl
        · exact ⟨"a".data, by decide, by decide⟩
        · exact ⟨"a/b".data, by decide, by decide⟩)
      (by decide),
    by decide, by decide, by decide⟩


/-- Every entry of `targetMerges` holds at least one variant, and its label is
the label of a target of some variant. -/
theorem Merge.targetMerges_entries (ord : MapOrder) (workspaces : GoMap Str Workspace)
    (e : Label × List (conditioned Target)) (he : e ∈ Merge.targetMerges ord workspaces) :
    e.2 ≠ [] ∧ ∃ kv ∈ workspaces, ∃ t ∈ kv.2.rangeTargets ord, t.label = e.1 := by
  unfold Merge.targetMerges at he
  have htm := (Merge.foldl_absorb ord (Merge.wss ord workspaces) (NewWorkspace, [])).2.2
  rw [Merge.foldl_collect] at htm
  rw [htm] at he
  have hkeys := nodup_keys_foldl_group
    (((Merge.wss ord workspaces).map (fun cws =>
      (cws.value.rangeTargets ord).map
        (fun t => (⟨cws.key, t⟩ : conditioned Target)))).flatten) [] List.nodup_nil
  have hg := GoMap.get?_of_mem _ hkeys e.1 e.2 he
  rw [get?_foldl_group] at hg
  split at hg
  · simp [GoMap.get?] at hg
  · rename_i hne
    simp only [Option.some.injEq] at hg
    constructor
    · rw [← hg]
      intro hnil
      exact hne (List.append_eq_nil.1 hnil).2
    · obtain ⟨x, hx⟩ := List.exists_mem_of_ne_nil _ hne
      rw [List.mem_filter] at hx
      obtain ⟨hxin, hxl⟩ := hx
      have hxl' : x.value.label = e.1 := by simpa using hxl
      rw [List.mem_flatten] at hxin
      obtain ⟨l, hl, hxl2⟩ := hxin
      rw [List.mem_map] at hl
      obtain ⟨cws, hc, rfl⟩ := hl
      rw [List.mem_map] at hxl2
      obtain ⟨t, ht, rfl⟩ := hxl2
      exact ⟨(cws.key, cws.value), (Merge.mem_wss ord workspaces cws).1 hc, t, ht, hxl'⟩

/-- One round of the second loop of `Merge` on a non-empty list of variants
aborts only in `out.Target`. -/
theorem Merge.emit_eq_none_iff (ord : MapOrder) (out : Workspace)
    (e : Label × List (conditioned Target)) (hne : e.2 ≠ []) :
    Merge.emit ord out e = none ↔ e.1.Repository ≠ [] := by
  constructor
  · intro h hrepo
    obtain ⟨out1, _, hemit, _⟩ := Merge.emit_spec ord out e.1 e.2 hrepo hne
    rw [hemit] at h
    cases h
  · intro hrepo
    unfold Merge.emit Workspace.Target
    rw [if_pos hrepo]

theorem Merge.foldlM_emit_eq_none (ord : MapOrder)
    (es : List (Label × List (conditioned Target))) (out : Workspace)
    (hes : ∀ e ∈ es, e.2 ≠ []) (h : es.foldlM (Merge.emit ord) out = none) :
    ∃ e ∈ es, e.1.Repository ≠ [] := by
  induction es generalizing out with
  | nil => simp at h
  | cons e es ih =>
    by_cases hrepo : e.1.Repository = []
    · rw [List.foldlM_cons] at h
      cases hemit : Merge.emit ord out e with
      | none =>
        exact absurd hrepo
          ((Merge.emit_eq_none_iff ord out e (hes e (List.mem_cons_self _ _))).1 hemit)
      | some out1 =>
        rw [hemit] at h
        obtain ⟨e2, he2, hr2⟩ := ih out1 (fun x hx => hes x (List.mem_cons_of_mem _ hx)) h
        exact ⟨e2, List.mem_cons_of_mem _ he2, hr2⟩
    · exact ⟨e, List.mem_cons_self _ _, hrepo⟩

/-- C23. For every map of variant workspaces, the empty map and variants
without targets included, and every map iteration order: every entry of
`targetMerges` holds at least one variant of the target, so `targets[0]` is
in range, `conditionField` passes a non-empty input list to `mergeSelect`,
and `mergeSelect` returns a set.  The second loop of `Merge` aborts on an
entry only when the label of the entry has a repository, which is the abort
of `out.Target`; so when `Merge` aborts, some target of some variant carries
a label with a repository. -/
theorem Merge_indexes_in_range (ord : MapOrder) (workspaces : GoMap Str Workspace) :
    (∀ e ∈ Merge.targetMerges ord workspaces,
      e.2 ≠ [] ∧ (e.2.head?).isSome = true ∧
      (∀ {T : Type} [DecidableEq T] (fieldFunc : Target → selectableList T),
        e.2.map (fun ct => (⟨ct.key, (fieldFunc ct.value).list⟩ : conditioned (List T))) ≠ [] ∧
        (conditionField ord e.2 fieldFunc).isSome = true) ∧
      ∀ out, (Merge.emit ord out e = none ↔ e.1.Repository ≠ [])) ∧
    (Merge ord workspaces = none →
      ∃ kv ∈ workspaces, ∃ t ∈ kv.2.rangeTargets ord, t.label.Repository ≠ []) := by
  constructor
  · intro e he
    obtain ⟨hne, _⟩ := Merge.targetMerges_entries ord workspaces e he
    refine ⟨hne, ?_, ?_, fun out => Merge.emit_eq_none_iff ord out e hne⟩
    · cases h2 : e.2 with
      | nil => exact absurd h2 hne
      | cons first rest => rfl
    · intro T _ fieldFunc
      cases h2 : e.2 with
      | nil => exact absurd h2 hne
      | cons first rest =>
        refine ⟨by simp, ?_⟩
        obtain ⟨sl, hsl⟩ := conditionField_cons ord first rest fieldFunc
        rw [hsl]
        rfl
  · intro h
    have hfold : (ord.iter (Merge.targetMerges ord workspaces)).foldlM (Merge.emit ord)
        ((Merge.wss ord workspaces).foldl (Merge.absorb ord) (NewWorkspace, [])).1 = none := h
    obtain ⟨e, he, hrepo⟩ := Merge.foldlM_emit_eq_none ord _ _
      (fun e he => (Merge.targetMerges_entries ord workspaces e
        ((ord.mem_iter _ e).1 he)).1) hfold
    obtain ⟨_, kv, hkv, t, ht, hlabel⟩ :=
      Merge.targetMerges_entries ord workspaces e ((ord.mem_iter _ e).1 he)
    exact ⟨kv, hkv, t, ht, by rw [hlabel]; exact hrepo⟩

/-- C23, at the empty map, at a map whose only variant has no target and at
the scenario in which the variant Y has no target: `Merge` returns a
workspace, and every list of `targetMerges` is non-empty. -/
theorem Merge_indexes_in_range_witness :
    (Merge MapOrder.insertion []).isSome = true ∧
    Merge.targetMerges MapOrder.insertion [] = [] ∧
    (Merge MapOrder.insertion [("X".data, NewWorkspace)]).isSome = true ∧
    (Merge MapOrder.insertion Examples.onlyX).isSome = true ∧
    (∀ e ∈ Merge.targetMerges MapOrder.insertion Examples.onlyX,
      e.2 ≠ [] ∧ (e.2.head?).isSome = true ∧
      (∀ {T : Type} [DecidableEq T] (fieldFunc : Target → selectableList T),
        e.2.map (fun ct => (⟨ct.key, (fieldFunc ct.value).list⟩ : conditioned (List T))) ≠ [] ∧
        (conditionField MapOrder.insertion e.2 fieldFunc).isSome = true) ∧
      ∀ out, (Merge.emit MapOrder.insertion out e = none ↔ e.1.Repository ≠ [])) :=
  ⟨by decide, by decide, by decide, by decide,
    (Merge_indexes_in_range MapOrder.insertion Examples.onlyX).1⟩


theorem strings.HasSuffix_iff (s suf : Str) : strings.HasSuffix s suf = true ↔ suf <:+ s := by
  unfold strings.HasSuffix
  rw [List.isPrefixOf_iff_prefix, List.reverse_prefix]

/-- The values that `items` lists are the unconditioned values and the values
under every condition key. -/
theorem selectableList.mem_items {T : Type} (ord : MapOrder) (sl : selectableList T)
    (s : conditioned T) :
    s ∈ sl.items ord ↔
      (s.key = [] ∧ s.value ∈ sl.list) ∨ ∃ cv ∈ sl.selections, s.key = cv.1 ∧ s.value ∈ cv.2 := by
  unfold selectableList.items
  rw [List.mem_append]
  constructor
  · rintro (h | h)
    · obtain ⟨x, hx, rfl⟩ := List.mem_map.1 h
      exact Or.inl ⟨rfl, hx⟩
    · obtain ⟨l, hl, hs⟩ := List.mem_flatten.1 h
      obtain ⟨cv, hcv, rfl⟩ := List.mem_map.1 hl
      obtain ⟨x, hx, rfl⟩ := List.mem_map.1 hs
      exact Or.inr ⟨cv, (ord.mem_iter _ cv).1 hcv, rfl, hx⟩
  · rintro (⟨hk, hv⟩ | ⟨cv, hcv, hk, hv⟩)
    · left
      refine List.mem_map.2 ⟨s.value, hv, ?_⟩
      cases s
      simp only [] at hk
      rw [hk]
    · right
      refine List.mem_flatten.2 ⟨_, List.mem_map.2 ⟨cv, (ord.mem_iter _ cv).2 hcv, rfl⟩, ?_⟩
      refine List.mem_map.2 ⟨s.value, hv, ?_⟩
      cases s
      simp only [] at hk
      rw [hk]

/-- With pairwise distinct condition keys, the entries that `items` lists
under a key are the unconditioned values, when the key is empty, followed by
the values stored under the key, in the order in which they are stored. -/
theorem selectableList.items_filter_key {T : Type} (ord : MapOrder) (sl : selectableList T)
    (hkeys : sl.selections.keys.Nodup) (k : Str) :
    (sl.items ord).filter (fun s => decide (s.key = k))
      = ((if k = [] then sl.list else []) ++ sl.selections.getD k []).map
          (fun x => (⟨k, x⟩ : conditioned T)) := by
  unfold selectableList.items
  rw [List.filter_append, List.map_append]
  congr 1
  · by_cases hk : k = []
    · subst hk
      rw [if_pos rfl, List.filter_eq_self.2]
      intro s hs
      obtain ⟨x, _, rfl⟩ := List.mem_map.1 hs
      simp
    · rw [if_neg hk, List.map_nil, List.filter_eq_nil_iff]
      intro s hs
      obtain ⟨x, _, rfl⟩ := List.mem_map.1 hs
      simp only [decide_eq_true_eq]
      exact fun e => hk e.symm
  · rw [filter_flatten_map_of_key _ (fun cv : Str × List T => decide (cv.1 = k)),
      GoMap.filter_key_eq_of_perm sl.selections _ k hkeys (ord.perm _)]
    · unfold GoMap.getD
      cases hg : sl.selections.get? k with
      | none => simp
      | some vs =>
        simp only [Option.toList, List.map_cons, List.map_nil, List.flatten_cons,
          List.flatten_nil, List.append_nil, Option.getD_some]
        rw [List.filter_eq_self]
        intro s hs
        obtain ⟨x, _, rfl⟩ := List.mem_map.1 hs
        simp
    · intro cv _ hcv
      rw [List.filter_eq_nil_iff]
      intro s hs
      obtain ⟨x, _, rfl⟩ := List.mem_map.1 hs
      have : ¬ cv.1 = k := by simpa using hcv
      simp [this]

/-- What a sequence of `appendCondition` calls leaves: the values passed with
the empty key are appended to the unconditioned list, and the values passed
with a key that is not empty are appended to the list stored under that key;
a key that no call carries keeps its entry, or stays absent. -/
theorem selectableList.foldl_appendCondition {T V : Type} (g : V → T)
    (xs : List (conditioned V)) (sl : selectableList T) :
    (xs.foldl (fun sl s => sl.appendCondition s.key (g s.value)) sl).list
      = sl.list ++ ((xs.filter (fun s => decide (s.key = []))).map (fun s => g s.value)) ∧
    ∀ k, (xs.foldl (fun sl s => sl.appendCondition s.key (g s.value)) sl).selections.get? k
      = if k = [] ∨ (xs.filter (fun s => decide (s.key = k))).length = 0 then
          sl.selections.get? k
        else some (sl.selections.getD k [] ++
          (xs.filter (fun s => decide (s.key = k))).map (fun s => g s.value)) := by
  induction xs generalizing sl with
  | nil =>
    refine ⟨by simp, ?_⟩
    intro k
    simp
  | cons x xs ih =>
    rw [List.foldl_cons]
    obtain ⟨ih1, ih2⟩ := ih (sl.appendCondition x.key (g x.value))
    by_cases hx : x.key = []
    · have hsl : sl.appendCondition x.key (g x.value)
          = { sl with list := sl.list ++ [g x.value] } := by
        unfold selectableList.appendCondition selectableList.append
        rw [if_pos hx]
      constructor
      · rw [ih1, hsl, List.filter_cons_of_pos (by simpa using hx)]
        simp
      · intro k
        rw [ih2 k, hsl]
        by_cases hk : k = []
        · simp [hk]
        · have hne : ¬ x.key = k := fun e => hk (e.symm.trans hx)
          rw [List.filter_cons_of_neg (by simpa using hne)]
    · have hsl : sl.appendCondition x.key (g x.value)
          = { sl with selections :=
                sl.selections.set x.key (sl.selections.getD x.key [] ++ [g x.value]) } := by
        unfold selectableList.appendCondition
        rw [if_neg hx]
      constructor
      · rw [ih1, hsl, List.filter_cons_of_neg (by simpa using hx)]
      · intro k
        rw [ih2 k, hsl]
        by_cases hk : k = []
        · subst hk
          simp only [true_or, if_true]
          exact GoMap.get?_set_ne _ hx _
        · by_cases hxk : x.key = k
          · subst hxk
            rw [List.filter_cons_of_pos (by simp)]
            simp only [hk, false_or, List.length_cons, Nat.succ_ne_zero, if_false,
              List.map_cons]
            unfold GoMap.getD
            simp only [GoMap.get?_set_self, Option.getD_some]
            split
            · rename_i hnil
              rw [List.length_eq_zero.1 hnil]
              simp
            · simp
          · rw [List.filter_cons_of_neg (by simpa using hxk)]
            simp only [hk, false_or]
            unfold GoMap.getD
            simp only [GoMap.get?_set_ne _ hxk]


/-- Something holds for the value of an entry that `items` lists if and only
if it holds for an unconditioned value or for a value under some condition
key. -/
theorem selectableList.exists_mem_items {T : Type} (ord : MapOrder) (sl : selectableList T)
    (Q : T → Prop) :
    (∃ s ∈ sl.items ord, Q s.value) ↔
      ∃ v, (v ∈ sl.list ∨ ∃ cv ∈ sl.selections, v ∈ cv.2) ∧ Q v := by
  constructor
  · rintro ⟨s, hs, hq⟩
    rcases (selectableList.mem_items ord sl s).1 hs with ⟨_, hv⟩ | ⟨cv, hcv, _, hv⟩
    · exact ⟨s.value, Or.inl hv, hq⟩
    · exact ⟨s.value, Or.inr ⟨cv, hcv, hv⟩, hq⟩
  · rintro ⟨v, hv | ⟨cv, hcv, hv⟩, hq⟩
    · exact ⟨⟨[], v⟩, (selectableList.mem_items ord sl _).2 (Or.inl ⟨rfl, hv⟩), hq⟩
    · exact ⟨⟨cv.1, v⟩, (selectableList.mem_items ord sl _).2 (Or.inr ⟨cv, hcv, rfl, hv⟩), hq⟩

/-- The set that the passes of `resolveSources` for the raw sources with the
property `p` build from `sl0`, in terms of the unconditioned list and the
condition keys of the raw sources. -/
theorem resolveSources.fold_spec (ord : MapOrder) (raw : selectableList Str)
    (hkeys : raw.selections.keys.Nodup) (R : Str → Label) (p : Str → Bool)
    (sl0 : selectableList Label) :
    (((raw.items ord).filter (fun s => p s.value)).foldl
        (fun sl s => sl.appendCondition s.key (R s.value)) sl0).list
      = sl0.list ++ ((raw.list ++ raw.selections.getD [] []).filter p).map R ∧
    ∀ k, (((raw.items ord).filter (fun s => p s.value)).foldl
        (fun sl s => sl.appendCondition s.key (R s.value)) sl0).selections.get? k
      = if k = [] ∨ (raw.selections.getD k []).filter p = [] then sl0.selections.get? k
        else some (sl0.selections.getD k [] ++ ((raw.selections.getD k []).filter p).map R) := by
  have hkey : ∀ k, (((raw.items ord).filter (fun s => p s.value)).filter
      (fun s => decide (s.key = k)))
      = (((if k = [] then raw.list else []) ++ raw.selections.getD k []).filter p).map
          (fun x => (⟨k, x⟩ : conditioned Str)) := by
    intro k
    rw [List.filter_comm, selectableList.items_filter_key ord raw hkeys k, List.filter_map]
    rfl
  obtain ⟨h1, h2⟩ := selectableList.foldl_appendCondition R
    ((raw.items ord).filter (fun s => p s.value)) sl0
  constructor
  · rw [h1, hkey [], if_pos rfl, List.map_map]
    rfl
  · intro k
    rw [h2 k, hkey k]
    by_cases hk : k = []
    · simp [hk]
    · rw [if_neg hk, List.nil_append, List.length_map, List.map_map]
      simp only [hk, false_or, List.length_eq_zero]
      rfl

/-- C17. For every workspace whose maps have pairwise distinct keys, as every
Go map has, and every target of it, with `raw` its raw sources: after
`resolveSources` the target has the label, type, raw sources and
dependencies it had.  Its headers are as before, with the labels resolved
from the paths that end in `.h` added: those of the unconditioned paths of
`raw`, followed by those under the empty key, if any, at the end of the
unconditioned list, and those of the paths under a condition key of `raw` at
the end of the list under the same key, in the order of `raw`; a key under
which `raw` has no such path has the entry it had, or none.  Its sources are
extended in the same way by the labels of the paths that do not end in `.h`.
No target appears that was not there. -/
theorem resolveSources_classifies (ord : MapOrder) (ws : Workspace)
    (hpk : ws.packages.keys.Nodup) (htk : ∀ e ∈ ws.packages, e.2.targets.keys.Nodup)
    (hsel : ∀ e ∈ ws.packages, ∀ f ∈ e.2.targets, f.2.raw_sources.selections.keys.Nodup) :
    (∀ e ∈ ws.packages, ∀ f ∈ e.2.targets,
      ∃ t, (resolveSources ord ws).lookup ⟨[], e.1, f.1⟩ = some t ∧
        t.label = f.2.label ∧ t.Type_ = f.2.Type_ ∧ t.raw_sources = f.2.raw_sources ∧
        t.Deps = f.2.Deps ∧
        t.hdrs.list = f.2.hdrs.list ++
          ((f.2.raw_sources.list ++ f.2.raw_sources.selections.getD [] []).filter
            (fun path => decide (".h".data <:+ path))).map
            (resolveSource (resolveSources.packageDirs ord ws)) ∧
        t.srcs.list = f.2.srcs.list ++
          ((f.2.raw_sources.list ++ f.2.raw_sources.selections.getD [] []).filter
            (fun path => decide (¬ ".h".data <:+ path))).map
            (resolveSource (resolveSources.packageDirs ord ws)) ∧
        ∀ k,
          t.hdrs.selections.get? k
            = (if k = [] ∨ (f.2.raw_sources.selections.getD k []).filter
                  (fun path => decide (".h".data <:+ path)) = [] then
                f.2.hdrs.selections.get? k
              else some (f.2.hdrs.selections.getD k [] ++
                ((f.2.raw_sources.selections.getD k []).filter
                  (fun path => decide (".h".data <:+ path))).map
                  (resolveSource (resolveSources.packageDirs ord ws)))) ∧
          t.srcs.selections.get? k
            = (if k = [] ∨ (f.2.raw_sources.selections.getD k []).filter
                  (fun path => decide (¬ ".h".data <:+ path)) = [] then
                f.2.srcs.selections.get? k
              else some (f.2.srcs.selections.getD k [] ++
                ((f.2.raw_sources.selections.getD k []).filter
                  (fun path => decide (¬ ".h".data <:+ path))).map
                  (resolveSource (resolveSources.packageDirs ord ws))))) ∧
    (∀ l, ws.lookup l = none → (resolveSources ord ws).lookup l = none) := by
  obtain ⟨hfold, hnone⟩ := resolveSources.lookup_fold ord ws hpk htk
  refine ⟨?_, hnone⟩
  intro e he f hf
  have hh : (fun s : conditioned Str => strings.HasSuffix s.value ".h".data)
      = (fun s => (fun path : Str => decide (".h".data <:+ path)) s.value) := by
    funext s
    rw [Bool.eq_iff_iff, strings.HasSuffix_iff]
    simp
  have hs : (fun s : conditioned Str => !strings.HasSuffix s.value ".h".data)
      = (fun s => (fun path : Str => decide (¬ ".h".data <:+ path)) s.value) := by
    funext s
    rw [Bool.eq_iff_iff]
    simp only [Bool.not_eq_true', decide_eq_true_eq]
    rw [← strings.HasSuffix_iff, Bool.not_eq_true]
  have hlook := hfold e he f hf
  rw [hh, hs] at hlook
  obtain ⟨a1, a2⟩ := resolveSources.fold_spec ord f.2.raw_sources (hsel e he f hf)
    (resolveSource (resolveSources.packageDirs ord ws))
    (fun path => decide (".h".data <:+ path)) f.2.hdrs
  obtain ⟨b1, b2⟩ := resolveSources.fold_spec ord f.2.raw_sources (hsel e he f hf)
    (resolveSource (resolveSources.packageDirs ord ws))
    (fun path => decide (¬ ".h".data <:+ path)) f.2.srcs
  exact ⟨_, hlook, rfl, rfl, rfl, rfl, a1, b1, fun k => ⟨a2 k, b2 k⟩⟩

/-- C17, at a target with the unconditioned raw sources `a/x.cc`, `b/y.h` and
`c/z.h` and, under the key `//:neon_build`, `a/n.h` and `b/n.cc`: the headers
are `//b:y.h` and `//c:z.h`, and `//a:n.h` under the key; the sources are
`//a:x.cc`, and `//b:n.cc` under the key.  At the closure scenario of the
specification `a/x.cc` becomes the source `//a:x.cc` of `//a:a` and `a/y.h`
the header `//a:y.h` of `//a:b`. -/
theorem resolveSources_classifies_witness :
    (Examples.wsCross.packages.keys.Nodup ∧
      (∀ e ∈ Examples.wsCross.packages, e.2.targets.keys.Nodup) ∧
      ∀ e ∈ Examples.wsCross.packages, ∀ f ∈ e.2.targets,
        f.2.raw_sources.selections.keys.Nodup) ∧
    ((∀ e ∈ Examples.wsCross.packages, ∀ f ∈ e.2.targets,
      ∃ t, (resolveSources MapOrder.insertion Examples.wsCross).lookup ⟨[], e.1, f.1⟩
          = some t ∧
        t.label = f.2.label ∧ t.Type_ = f.2.Type_ ∧ t.raw_sources = f.2.raw_sources ∧
        t.Deps = f.2.Deps ∧
        t.hdrs.list = f.2.hdrs.list ++
          ((f.2.raw_sources.list ++ f.2.raw_sources.selections.getD [] []).filter
            (fun path => decide (".h".data <:+ path))).map
            (resolveSource (resolveSources.packageDirs MapOrder.insertion Examples.wsCross)) ∧
        t.srcs.list = f.2.srcs.list ++
          ((f.2.raw_sources.list ++ f.2.raw_sources.selections.getD [] []).filter
            (fun path => decide (¬ ".h".data <:+ path))).map
            (resolveSource (resolveSources.packageDirs MapOrder.insertion Examples.wsCross)) ∧
        ∀ k,
          t.hdrs.selections.get? k
            = (if k = [] ∨ (f.2.raw_sources.selections.getD k []).filter
                  (fun path => decide (".h".data <:+ path)) = [] then
                f.2.hdrs.selections.get? k
              else some (f.2.hdrs.selections.getD k [] ++
                ((f.2.raw_sources.selections.getD k []).filter
                  (fun path => decide (".h".data <:+ path))).map
                  (resolveSource
                    (resolveSources.packageDirs MapOrder.insertion Examples.wsCross)))) ∧
          t.srcs.selections.get? k
            = (if k = [] ∨ (f.2.raw_sources.selections.getD k []).filter
                  (fun path => decide (¬ ".h".data <:+ path)) = [] then
                f.2.srcs.selections.get? k
              else some (f.2.srcs.selections.getD k [] ++
                ((f.2.raw_sources.selections.getD k []).filter
                  (fun path => decide (¬ ".h".data <:+ path))).map
                  (resolveSource
                    (resolveSources.packageDirs MapOrder.insertion Examples.wsCross))))) ∧
    (∀ l, Examples.wsCross.lookup l = none →
      (resolveSources MapOrder.insertion Examples.wsCross).lookup l = none)) ∧
    ((resolveSources MapOrder.insertion Examples.wsCross).lookup Examples.A).map
        (fun t => (t.hdrs, t.srcs))
      = some
          (⟨[⟨[], "b".data, "y.h".data⟩, ⟨[], "c".data, "z.h".data⟩],
            [("//:neon_build".data, [⟨[], "a".data, "n.h".data⟩])]⟩,
           ⟨[⟨[], "a".data, "x.cc".data⟩],
            [("//:neon_build".data, [⟨[], "b".data, "n.cc".data⟩])]⟩) ∧
    ((resolveSources MapOrder.insertion Examples.closure.ws).lookup Examples.A).map
        (fun t => (t.Type_, t.Deps.list, t.srcs.list, t.hdrs.list))
      = some ("cc_library".data, [Examples.B], [⟨[], "a".data, "x.cc".data⟩], []) ∧
    ((resolveSources MapOrder.insertion Examples.closure.ws).lookup Examples.B).map
        (fun t => (t.Type_, t.Deps.list, t.srcs.list, t.hdrs.list))
      = some ("cc_library".data, [], [], [⟨[], "a".data, "y.h".data⟩]) :=
  ⟨⟨by decide, by decide, by decide⟩,
    resolveSources_classifies MapOrder.insertion Examples.wsCross (by decide) (by decide)
      (by decide),
    by decide, by decide, by decide⟩

/-- C18. After `resolveSources` a file name `f` is in the export set of the
package `P` if and only if it was there before or some target of a package
with another name than `P` has a raw source, in its unconditioned list or
under one of its condition keys, that resolves to the label of package `P`
and target `f`.  The export set of a package that no raw source of a target
of a package with another name resolves into is as before; such a package is
not created either. -/
theorem resolveSources_exports (ord : MapOrder) (ws : Workspace) (P f : Str) :
    ((resolveSources ord ws).exported P f = true ↔
      ws.exported P f = true ∨
        ∃ e ∈ ws.packages, ∃ t ∈ e.2.targets, ∃ source,
          (source ∈ t.2.raw_sources.list ∨
            ∃ cv ∈ t.2.raw_sources.selections, source ∈ cv.2) ∧
          e.2.name ≠ P ∧
          resolveSource (resolveSources.packageDirs ord ws) source = ⟨[], P, f⟩) ∧
    ((¬ ∃ e ∈ ws.packages, ∃ t ∈ e.2.targets, ∃ source,
          (source ∈ t.2.raw_sources.list ∨
            ∃ cv ∈ t.2.raw_sources.selections, source ∈ cv.2) ∧
          e.2.name ≠ P ∧
          (resolveSource (resolveSources.packageDirs ord ws) source).Package = P) →
      (resolveSources ord ws).exportSet P = ws.exportSet P) := by
  obtain ⟨h1, h2⟩ := resolveSources.exports_items ord ws P f
  constructor
  · rw [h1]
    constructor
    · rintro (h | ⟨e, he, t, ht, hex⟩)
      · exact Or.inl h
      · exact Or.inr ⟨e, he, t, ht,
          (selectableList.exists_mem_items ord t.2.raw_sources _).1 hex⟩
    · rintro (h | ⟨e, he, t, ht, hex⟩)
      · exact Or.inl h
      · exact Or.inr ⟨e, he, t, ht,
          (selectableList.exists_mem_items ord t.2.raw_sources _).2 hex⟩
  · intro hno
    apply h2
    rintro ⟨e, he, t, ht, hex⟩
    exact hno ⟨e, he, t, ht, (selectableList.exists_mem_items ord t.2.raw_sources _).1 hex⟩

/-- C18, at a workspace whose target `//a:a` has the unconditioned sources
`a/x.cc`, `b/y.h` and `c/z.h` and, under the key `//:neon_build`, `a/n.h` and
`b/n.cc`: the package `b` exports `y.h` and, for the source under the
condition key, `n.cc`; the new package `c` exports `z.h`; the export set of
the package `a` is as before, empty. -/
theorem resolveSources_exports_witness :
    (resolveSources MapOrder.insertion Examples.wsCross).exported "b".data "n.cc".data
      = true ∧
    (resolveSources MapOrder.insertion Examples.wsCross).exportSet "a".data
      = Examples.wsCross.exportSet "a".data ∧
    (resolveSources MapOrder.insertion Examples.wsCross).exportSet "a".data = some [] ∧
    (resolveSources MapOrder.insertion Examples.wsCross).exportSet "b".data
      = some [("y.h".data, true), ("n.cc".data, true)] ∧
    (resolveSources MapOrder.insertion Examples.wsCross).exportSet "c".data
      = some [("z.h".data, true)] :=
  ⟨(resolveSources_exports MapOrder.insertion Examples.wsCross "b".data "n.cc".data).1.2
      (Or.inr ⟨("a".data, Examples.crossPackage), by decide,
        ("a".data, Examples.crossTarget), by decide,
        "b/n.cc".data,
        Or.inr ⟨("//:neon_build".data, ["a/n.h".data, "b/n.cc".data]), by decide, by decide⟩,
        by decide, by decide⟩),
    (resolveSources_exports MapOrder.insertion Examples.wsCross "a".data "x.cc".data).2
      (fun ⟨e, he, t, ht, _, _, hn, _⟩ => by
        have hcase : e = ("a".data, Examples.crossPackage) ∨
            e = ("b".data, { name := "b".data, targets := [], exportFiles := [] }) := by
          simpa [Examples.wsCross] using he
        rcases hcase with rfl | rfl
        · exact hn (by decide)
        · exact absurd ht (List.not_mem_nil t)),
    by decide, by decide, by decide⟩

end Exporter
